/-
Verification of the QuartzDB vector-search specification against the source.

Shallow embedding notes, shared by all sections of this file:

* Maps (Rust HashMap) are modelled as association lists with replace-on-insert
  semantics (aget / aput below); HashSet values are modelled as duplicate-free
  lists inserted with sinsert, mirroring HashSet::insert.
* Rust f32 arithmetic is abstracted to exact arithmetic in a linear ordered
  ring R.  Every finite f32 value is exactly a rational, so R = Rat gives a
  value-exact model; the concrete runs below use R = Int together with the
  DotProduct kernel (-dot(a,b), translated exactly) on small-integer vectors,
  on which f32 arithmetic is exact, so the integer value is the value computed
  by the source.  The Cosine and Euclidean kernels and the normalisation
  helper involve square roots, which have no exact model in R; they are
  abstracted as fields of a FloatOracle parameter, and every theorem is proved
  for an arbitrary oracle.  Concrete runs use the DotProduct metric, so the
  oracle fields are never evaluated there.
* f32::MAX is the exact value (2^24 - 1) * 2^104.
* The random level drawn by HnswIndex::random_level (js_sys::Math::random) is
  abstracted as an explicit input of insert; random_level's cap (min 10) is
  kept.
* BinaryHeap is a multiset with a total order on its elements; it is modelled
  as an unordered list with peek/pop picking the maximal (or, under Reverse,
  the minimal) element, and into_sorted_vec as an ascending sort.  The
  best-first loop of search_layer_with_query terminates because every pushed
  candidate is freshly marked visited; the model uses structural fuel
  (|vectors| + |entry points| + 1), an upper bound on the number of iterations.
  On fuel exhaustion (never reached on the runs used here) the current result
  heap is returned sorted, which keeps every order/bound property proved below.
* Rust indexing neighbor_node.connections[lc], which panics when lc is out of
  bounds, is modelled as the error HErr.indexPanic: an insert that panics never
  completes, so completed inserts are exactly those returning Except.ok.
-/
import Mathlib

set_option maxRecDepth 40000

namespace QuartzSpec

/-- Association-list lookup, modelling HashMap::get. -/
def aget {K V : Type} [DecidableEq K] : List (K × V) → K → Option V
  | [], _ => none
  | (a, b) :: t, k => if k = a then some b else aget t k

/-- Association-list insert with replacement, modelling HashMap::insert. -/
def aput {K V : Type} [DecidableEq K] : List (K × V) → K → V → List (K × V)
  | [], k, v => [(k, v)]
  | (a, b) :: t, k, v => if k = a then (k, v) :: t else (a, b) :: aput t k v

theorem aget_aput {K V : Type} [DecidableEq K] (m : List (K × V)) (k j : K) (v : V) :
    aget (aput m k v) j = if j = k then some v else aget m j := by
  induction m with
  | nil => simp [aget, aput]
  | cons hd t ih =>
    obtain ⟨a, b⟩ := hd
    by_cases hka : k = a
    · subst hka
      by_cases hjk : j = k <;> simp [aput, aget, hjk]
    · by_cases hja : j = a
      · subst hja
        have hjk : ¬j = k := fun h => hka h.symm
        simp [aput, aget, hka, hjk]
      · simp [aput, aget, hja, hka, ih]

theorem aget_aput_self {K V : Type} [DecidableEq K] (m : List (K × V)) (k : K) (v : V) :
    aget (aput m k v) k = some v := by
  simp [aget_aput]

theorem aget_aput_ne {K V : Type} [DecidableEq K] (m : List (K × V)) {k j : K} (v : V)
    (h : j ≠ k) : aget (aput m k v) j = aget m j := by
  simp [aget_aput, h]

/-- Set-semantics insert on a duplicate-free list, modelling HashSet::insert. -/
def sinsert {A : Type} [DecidableEq A] (x : A) (l : List A) : List A :=
  if x ∈ l then l else x :: l

theorem mem_sinsert_iff {A : Type} [DecidableEq A] (x y : A) (l : List A) :
    y ∈ sinsert x l ↔ y = x ∨ y ∈ l := by
  unfold sinsert
  by_cases h : x ∈ l
  · simp [h]
    intro hyx
    subst hyx
    exact h
  · simp [h]

theorem length_sinsert_le {A : Type} [DecidableEq A] (x : A) (l : List A) :
    (sinsert x l).length ≤ l.length + 1 := by
  unfold sinsert
  by_cases h : x ∈ l <;> simp [h]

theorem sinsert_nodup {A : Type} [DecidableEq A] (x : A) (l : List A)
    (h : l.Nodup) : (sinsert x l).Nodup := by
  unfold sinsert
  by_cases hx : x ∈ l <;> simp [hx, h]

/-- Reversed inclusive range: the layer list (lo..=hi).rev() = [hi, hi-1, ..., lo]. -/
def revRange (lo hi : Nat) : List Nat :=
  (List.range' lo (hi + 1 - lo)).reverse

instance {E A : Type} [DecidableEq E] [DecidableEq A] : DecidableEq (Except E A) :=
  fun a b =>
    match a, b with
    | .ok x, .ok y => decidable_of_iff (x = y) (by simp)
    | .error x, .error y => decidable_of_iff (x = y) (by simp)
    | .ok _, .error _ => isFalse (by simp)
    | .error _, .ok _ => isFalse (by simp)

namespace Faas

/-- Vector ids are strings in the quartz-faas implementation. -/
abbrev Id := String

/-- Metadata payloads (serde_json::Value) abstracted to their serialized text. -/
abbrev Meta := String

variable {R : Type} [LinearOrderedRing R]

/-- Exact value of f32::MAX in the abstract scalar domain. -/
def fMAX (R : Type) [LinearOrderedRing R] : R := (2 ^ 24 - 1) * 2 ^ 104

/-- DistanceMetric from quartz-faas/src/vector/hnsw.rs. -/
inductive DistanceMetric
  | Cosine
  | Euclidean
  | DotProduct
deriving DecidableEq

/-- HnswConfig from quartz-faas/src/vector/hnsw.rs.  The field level_multiplier
(an f64 equal to 1/ln M) is read only by random_level, whose draw is abstracted
as the explicit rawLevel argument of insert, so the field is omitted. -/
structure HnswConfig where
  max_connections : Nat
  max_connections_layer0 : Nat
  ef_construction : Nat
  ef_search : Nat
deriving DecidableEq

/-- Default HnswConfig (M = 16). -/
def HnswConfig.default : HnswConfig :=
  { max_connections := 16
    max_connections_layer0 := 32
    ef_construction := 200
    ef_search := 100 }

/-- VectorEntry from quartz-faas/src/vector/hnsw.rs. -/
structure VectorEntry (R : Type) where
  id : Id
  vector : List R
  metadata : Option Meta
  deleted : Bool
deriving DecidableEq

/-- HnswNode: connections is Vec<HashSet<String>>, one set per layer 0..=level. -/
structure HnswNode where
  id : Id
  level : Nat
  connections : List (List Id)
deriving DecidableEq

/-- HnswNode::new - empty connection sets for layers 0..=level. -/
def HnswNode.mkNew (id : Id) (level : Nat) : HnswNode :=
  ⟨id, level, List.replicate (level + 1) []⟩

/-- Connection set of a node at a layer (empty when the layer is absent). -/
def connAt (n : HnswNode) (l : Nat) : List Id :=
  n.connections.getD l []

/-- SearchResult from quartz-faas/src/vector/hnsw.rs. -/
structure SearchResult (R : Type) where
  id : Id
  distance : R
  metadata : Option Meta
deriving DecidableEq

/-- HnswIndex state. -/
structure HnswIndex (R : Type) where
  config : HnswConfig
  metric : DistanceMetric
  dimension : Nat
  entry_point : Option Id
  nodes : List (Id × HnswNode)
  vectors : List (Id × VectorEntry R)
deriving DecidableEq

/-- HnswIndex::with_config. -/
def HnswIndex.withConfig (R : Type) (dimension : Nat) (metric : DistanceMetric)
    (config : HnswConfig) : HnswIndex R :=
  ⟨config, metric, dimension, none, [], []⟩

/-- Errors and panics of the fallible HNSW operations.  The source reports
errors as strings; each constructor corresponds to one error site.  indexPanic
models the untyped Rust panic of the unguarded indexing
neighbor_node.connections[lc] in insert. -/
inductive HErr
  | dimMismatch
  | epNodeMissing
  | queryVecMissing
  | nodeMissing
  | notFound
  | indexPanic
deriving DecidableEq

/-- Scalar dot product, the exact model of the DotProduct SIMD kernel. -/
def dotProduct (a b : List R) : R :=
  (List.zipWith (fun x y => x * y) a b).sum

/-- Abstraction of the f32 kernels that have no exact model in R:
the cosine distance kernel, the euclidean distance kernel (both use sqrt), and
normalize_vector.  Every theorem below is proved for an arbitrary oracle. -/
structure FloatOracle (R : Type) where
  cosineK : List R → List R → R
  euclideanK : List R → List R → R
  normalizeK : List R → List R

/-- HnswIndex::distance - metric dispatch.  DotProduct is -dot(a,b), exact. -/
def distance (fo : FloatOracle R) (m : DistanceMetric) (a b : List R) : R :=
  match m with
  | .Cosine => fo.cosineK a b
  | .Euclidean => fo.euclideanK a b
  | .DotProduct => -(dotProduct a b)

/-- Heap elements: (OrderedFloat, String) pairs ordered lexicographically,
exactly the derived tuple Ord used by the Rust BinaryHeaps. -/
abbrev DP (R : Type) := R × Id

/-- Lexicographic order on heap elements: distance first, id second. -/
def pairLe (a b : DP R) : Prop :=
  a.1 < b.1 ∨ (a.1 = b.1 ∧ a.2 ≤ b.2)

instance : DecidableRel (pairLe (R := R)) := fun a b => by
  unfold pairLe
  infer_instance

theorem pairLe_total : ∀ a b : DP R, pairLe a b ∨ pairLe b a := by
  intro a b
  unfold pairLe
  rcases lt_trichotomy a.1 b.1 with h | h | h
  · exact Or.inl (Or.inl h)
  · rcases le_total a.2 b.2 with h2 | h2
    · exact Or.inl (Or.inr ⟨h, h2⟩)
    · exact Or.inr (Or.inr ⟨h.symm, h2⟩)
  · exact Or.inr (Or.inl h)

theorem pairLe_trans : ∀ a b c : DP R, pairLe a b → pairLe b c → pairLe a c := by
  intro a b c hab hbc
  unfold pairLe at *
  rcases hab with h | ⟨he, hs⟩
  · rcases hbc with h2 | ⟨he2, _⟩
    · exact Or.inl (h.trans h2)
    · exact Or.inl (he2 ▸ h)
  · rcases hbc with h2 | ⟨he2, hs2⟩
    · exact Or.inl (he ▸ h2)
    · exact Or.inr ⟨he.trans he2, hs.trans hs2⟩

instance : IsTotal (DP R) pairLe := ⟨pairLe_total⟩

instance : IsTrans (DP R) pairLe := ⟨pairLe_trans⟩

/-- Distance-only order, the comparator of sort_by_key(|(dist, _)| *dist). -/
def distLe (a b : DP R) : Prop := a.1 ≤ b.1

instance : DecidableRel (distLe (R := R)) := fun a b => by
  unfold distLe
  infer_instance

instance : IsTotal (DP R) distLe := ⟨fun a b => le_total a.1 b.1⟩

instance : IsTrans (DP R) distLe := ⟨fun _ _ _ h h2 => le_trans h h2⟩

/-- Maximal element of a heap-as-list (BinaryHeap::peek on the max-heap). -/
def maxPair : List (DP R) → Option (DP R)
  | [] => none
  | x :: xs =>
    some (match maxPair xs with
      | none => x
      | some m => if pairLe x m then m else x)

theorem maxPair_mem : ∀ (l : List (DP R)) (m : DP R), maxPair l = some m → m ∈ l := by
  intro l
  induction l with
  | nil => intro m h; simp [maxPair] at h
  | cons x xs ih =>
    intro m h
    simp only [maxPair] at h
    cases hx : maxPair xs with
    | none => rw [hx] at h; simp at h; simp [h]
    | some mm =>
      rw [hx] at h
      simp at h
      by_cases hle : pairLe x mm
      · simp [hle] at h
        exact List.mem_cons_of_mem _ (h ▸ ih mm hx)
      · simp [hle] at h
        simp [h]

theorem maxPair_ge : ∀ (l : List (DP R)) (m : DP R), maxPair l = some m →
    ∀ y ∈ l, pairLe y m := by
  intro l
  induction l with
  | nil => intro m h; simp [maxPair] at h
  | cons x xs ih =>
    intro m h y hy
    simp only [maxPair] at h
    cases hx : maxPair xs with
    | none =>
      rw [hx] at h
      simp at h
      cases xs with
      | nil =>
        simp at hy
        subst hy
        subst h
        rcases pairLe_total y y with h | h <;> exact h
      | cons a t => simp [maxPair] at hx
    | some mm =>
      rw [hx] at h
      simp at h
      rcases List.mem_cons.mp hy with hyx | hyxs
      · subst hyx
        by_cases hle : pairLe y mm
        · simp [hle] at h
          subst h
          exact hle
        · simp [hle] at h
          subst h
          rcases pairLe_total y y with h | h <;> exact h
      · have hym := ih mm hx y hyxs
        by_cases hle : pairLe x mm
        · simp [hle] at h
          subst h
          exact hym
        · simp [hle] at h
          subst h
          rcases pairLe_total mm x with h2 | h2
          · exact pairLe_trans _ _ _ hym h2
          · exact absurd h2 hle

/-- Minimal element of a heap-as-list (peek through Reverse on the min-heap). -/
def minPair : List (DP R) → Option (DP R)
  | [] => none
  | x :: xs =>
    some (match minPair xs with
      | none => x
      | some m => if pairLe m x then m else x)

theorem minPair_mem : ∀ (l : List (DP R)) (m : DP R), minPair l = some m → m ∈ l := by
  intro l
  induction l with
  | nil => intro m h; simp [minPair] at h
  | cons x xs ih =>
    intro m h
    simp only [minPair] at h
    cases hx : minPair xs with
    | none => rw [hx] at h; simp at h; simp [h]
    | some mm =>
      rw [hx] at h
      simp at h
      by_cases hle : pairLe mm x
      · simp [hle] at h
        exact List.mem_cons_of_mem _ (h ▸ ih mm hx)
      · simp [hle] at h
        simp [h]

theorem minPair_isSome : ∀ (l : List (DP R)), l ≠ [] → (minPair l).isSome := by
  intro l h
  cases l with
  | nil => exact absurd rfl h
  | cons x xs => simp [minPair]

/-- State of the best-first traversal: the exploration min-heap (candidates),
the result max-heap (w) and the visited set. -/
structure SLState (R : Type) where
  cands : List (DP R)
  w : List (DP R)
  visited : List Id

/-- One entry point of the initialisation of search_layer_with_query: an entry
point that has a stored vector is pushed to both heaps (unconditionally, as in
the source) and marked visited. -/
def slInitStep (fo : FloatOracle R) (metric : DistanceMetric)
    (vectors : List (Id × VectorEntry R)) (query : List R) (st : SLState R)
    (ep : Id) : SLState R :=
  match aget vectors ep with
  | some entry =>
      let d := distance fo metric query entry.vector
      ⟨(d, ep) :: st.cands, (d, ep) :: st.w, sinsert ep st.visited⟩
  | none => st

/-- Initialisation of search_layer_with_query over all entry points. -/
def slInit (fo : FloatOracle R) (metric : DistanceMetric)
    (vectors : List (Id × VectorEntry R)) (query : List R)
    (entryPoints : List Id) : SLState R :=
  entryPoints.foldl (slInitStep fo metric vectors query) ⟨[], [], []⟩

/-- Current worst distance in the result heap (f32::MAX when it is empty). -/
def frontDist (w : List (DP R)) : R :=
  match maxPair w with
  | some m => m.1
  | none => fMAX R

/-- Processing of one neighbor in search_layer_with_query: an unvisited
neighbor is marked visited; if its vector exists and it improves on the worst
result (or the result heap is not full), it is pushed to both heaps and the
worst result is evicted past ef. -/
def slNbrStep (fo : FloatOracle R) (metric : DistanceMetric)
    (vectors : List (Id × VectorEntry R)) (query : List R) (ef : Nat)
    (st : SLState R) (nid : Id) : SLState R :=
  if nid ∈ st.visited then st
  else
    let visited := sinsert nid st.visited
    match aget vectors nid with
    | none => { st with visited := visited }
    | some ne =>
      let d := distance fo metric query ne.vector
      if d < frontDist st.w ∨ st.w.length < ef then
        let w2 := (d, nid) :: st.w
        let w3 :=
          if ef < w2.length then
            match maxPair w2 with
            | some m => w2.erase m
            | none => w2
          else w2
        ⟨(d, nid) :: st.cands, w3, visited⟩
      else { st with visited := visited }

/-- Neighbor processing of one popped candidate over its whole connection set
at the layer (guarded, as in the source, by the layer bound check). -/
def slExpand (fo : FloatOracle R) (metric : DistanceMetric)
    (nodes : List (Id × HnswNode)) (vectors : List (Id × VectorEntry R))
    (query : List R) (ef layer : Nat) (cid : Id) (st : SLState R) : SLState R :=
  match aget nodes cid with
  | none => st
  | some node =>
    if layer < node.connections.length then
      (connAt node layer).foldl (slNbrStep fo metric vectors query ef) st
    else st

/-- Main loop of search_layer_with_query: pop the nearest candidate; stop when
it is farther than the worst kept result; otherwise expand its neighbors. -/
def slLoop (fo : FloatOracle R) (metric : DistanceMetric)
    (nodes : List (Id × HnswNode)) (vectors : List (Id × VectorEntry R))
    (query : List R) (ef layer : Nat) : Nat → SLState R → List (DP R)
  | 0, st => st.w
  | fuel + 1, st =>
    match minPair st.cands with
    | none => st.w
    | some c =>
      let rest := st.cands.erase c
      if frontDist st.w < c.1 then st.w
      else
        slLoop fo metric nodes vectors query ef layer fuel
          (slExpand fo metric nodes vectors query ef layer c.2
            { st with cands := rest })

/-- HnswIndex::search_layer_with_query.  Fuel bounds the loop iterations: every
iteration pops one candidate, and at most |entry points| + |vectors| candidates
are ever pushed (each neighbor push freshly marks an id visited). -/
def searchLayerWithQuery (fo : FloatOracle R) (metric : DistanceMetric)
    (nodes : List (Id × HnswNode)) (vectors : List (Id × VectorEntry R))
    (query : List R) (entryPoints : List Id) (ef layer : Nat) : List Id :=
  let st := slInit fo metric vectors query entryPoints
  let w := slLoop fo metric nodes vectors query ef layer
    (vectors.length + entryPoints.length + 1) st
  (List.insertionSort pairLe w).map (·.2)

/-- HnswIndex::search_layer - resolve the query id to its stored vector. -/
def searchLayer (fo : FloatOracle R) (metric : DistanceMetric)
    (nodes : List (Id × HnswNode)) (vectors : List (Id × VectorEntry R))
    (queryId : Id) (entryPoints : List Id) (ef layer : Nat) :
    Except HErr (List Id) :=
  match aget vectors queryId with
  | none => .error .queryVecMissing
  | some qe =>
      .ok (searchLayerWithQuery fo metric nodes vectors qe.vector entryPoints ef layer)

/-- HnswIndex::select_neighbors: score the candidates that still have vectors,
sort by distance only (sort_by_key), keep the first m. -/
def selectNeighbors (fo : FloatOracle R) (metric : DistanceMetric)
    (vectors : List (Id × VectorEntry R)) (queryId : Id)
    (cands : List Id) (m : Nat) : Except HErr (List Id) :=
  match aget vectors queryId with
  | none => .error .queryVecMissing
  | some qe =>
      let scored := cands.filterMap
        (fun i => (aget vectors i).map
          (fun e => (distance fo metric qe.vector e.vector, i)))
      .ok (((List.insertionSort distLe scored).take m).map (·.2))

/-- HnswIndex::prune_connections: keep the m nearest current connections. -/
def pruneConnections (fo : FloatOracle R) (metric : DistanceMetric)
    (nodes : List (Id × HnswNode)) (vectors : List (Id × VectorEntry R))
    (nodeId : Id) (layer m : Nat) : Except HErr (List Id) :=
  match aget nodes nodeId with
  | none => .error .nodeMissing
  | some node =>
      if node.connections.length ≤ layer then .ok []
      else selectNeighbors fo metric vectors nodeId (connAt node layer) m

/-- Bidirectional-link loop of insert: the new node records each neighbor, and
each neighbor found in the node map records the new id.  The unguarded Rust
indexing neighbor_node.connections[lc] panics when lc exceeds the neighbor
layer count; the panic is the error indexPanic. -/
def addLinks (theId : Id) (lc : Nat) :
    List Id → List (Id × HnswNode) × HnswNode →
    Except HErr (List (Id × HnswNode) × HnswNode)
  | [], p => .ok p
  | nid :: rest, (nodes, node) =>
      let node2 :=
        { node with connections := node.connections.set lc (sinsert nid (connAt node lc)) }
      match aget nodes nid with
      | some nn =>
          if lc < nn.connections.length then
            addLinks theId lc rest
              (aput nodes nid
                { nn with connections := nn.connections.set lc (sinsert theId (connAt nn lc)) },
               node2)
          else .error .indexPanic
      | none => addLinks theId lc rest (nodes, node2)

/-- Prune loop of insert: any neighbor whose connection count at the layer now
exceeds the cap is replaced by its m nearest connections. -/
def pruneLoop (fo : FloatOracle R) (metric : DistanceMetric)
    (vectors : List (Id × VectorEntry R)) (lc m : Nat) :
    List Id → List (Id × HnswNode) → Except HErr (List (Id × HnswNode))
  | [], nodes => .ok nodes
  | nid :: rest, nodes =>
      match aget nodes nid with
      | some nn =>
          if lc < nn.connections.length then
            if m < (connAt nn lc).length then
              match pruneConnections fo metric nodes vectors nid lc m with
              | .error e => .error e
              | .ok pruned =>
                  let nodes2 :=
                    match aget nodes nid with
                    | some nn2 =>
                        aput nodes nid
                          { nn2 with connections := nn2.connections.set lc pruned.dedup }
                    | none => nodes
                  pruneLoop fo metric vectors lc m rest nodes2
            else pruneLoop fo metric vectors lc m rest nodes
          else .error .indexPanic
      | none => pruneLoop fo metric vectors lc m rest nodes

/-- One iteration of the per-layer insertion loop of insert (step 6 of the
algorithm): beam search, neighbor selection, bidirectional links, pruning. -/
def insLayer (fo : FloatOracle R) (metric : DistanceMetric) (cfg : HnswConfig)
    (vectors : List (Id × VectorEntry R)) (theId : Id)
    (st : List (Id × HnswNode) × HnswNode × List Id) (lc : Nat) :
    Except HErr (List (Id × HnswNode) × HnswNode × List Id) :=
  match st with
  | (nodes, node, nearest) =>
    match searchLayer fo metric nodes vectors theId nearest cfg.ef_construction lc with
    | .error e => .error e
    | .ok candidates =>
      let m := if lc = 0 then cfg.max_connections_layer0 else cfg.max_connections
      match selectNeighbors fo metric vectors theId candidates m with
      | .error e => .error e
      | .ok neighbors =>
        match addLinks theId lc neighbors (nodes, node) with
        | .error e => .error e
        | .ok (nodes2, node2) =>
          match pruneLoop fo metric vectors lc m neighbors nodes2 with
          | .error e => .error e
          | .ok nodes3 => .ok (nodes3, node2, candidates)

/-- Layer loop of insert over the layer list (level..=0 descending). -/
def layerLoop (fo : FloatOracle R) (metric : DistanceMetric) (cfg : HnswConfig)
    (vectors : List (Id × VectorEntry R)) (theId : Id) :
    List Nat → List (Id × HnswNode) × HnswNode × List Id →
    Except HErr (List (Id × HnswNode) × HnswNode × List Id)
  | [], st => .ok st
  | lc :: rest, st =>
      match insLayer fo metric cfg vectors theId st lc with
      | .error e => .error e
      | .ok st2 => layerLoop fo metric cfg vectors theId rest st2

/-- Greedy descent of insert from the entry layer down to level + 1 (ef = 1). -/
def descendLoop (fo : FloatOracle R) (metric : DistanceMetric)
    (nodes : List (Id × HnswNode)) (vectors : List (Id × VectorEntry R))
    (theId : Id) : List Nat → List Id → Except HErr (List Id)
  | [], nearest => .ok nearest
  | lc :: rest, nearest =>
      match searchLayer fo metric nodes vectors theId nearest 1 lc with
      | .error e => .error e
      | .ok nearest2 => descendLoop fo metric nodes vectors theId rest nearest2

/-- HnswIndex::insert.  rawLevel is the value of the abstracted random draw;
random_level caps it at 10.  A completed insert is one returning Except.ok. -/
def insert (fo : FloatOracle R) (idx : HnswIndex R) (theId : Id)
    (vector : List R) (metadata : Option Meta) (rawLevel : Nat) :
    Except HErr (HnswIndex R) :=
  if vector.length ≠ idx.dimension then .error .dimMismatch
  else
    let vector := if idx.metric = .Cosine then fo.normalizeK vector else vector
    let level := min rawLevel 10
    let node := HnswNode.mkNew theId level
    let entry : VectorEntry R := ⟨theId, vector, metadata, false⟩
    let vectors := aput idx.vectors theId entry
    match idx.entry_point with
    | none =>
        .ok { idx with
                entry_point := some theId
                nodes := aput idx.nodes theId node
                vectors := vectors }
    | some ep =>
        match aget idx.nodes ep with
        | none => .error .epNodeMissing
        | some epNode =>
            let entryLevel := epNode.level
            match descendLoop fo idx.metric idx.nodes vectors theId
                (revRange (level + 1) entryLevel) [ep] with
            | .error e => .error e
            | .ok nearest =>
                match layerLoop fo idx.metric idx.config vectors theId
                    (revRange 0 level) (idx.nodes, node, nearest) with
                | .error e => .error e
                | .ok (nodes2, node2, _) =>
                    let ep2 := if entryLevel < level then some theId else idx.entry_point
                    .ok { idx with
                            entry_point := ep2
                            nodes := aput nodes2 theId node2
                            vectors := vectors }

/-- Final result-collection loop of search: walk the layer-0 candidates in
order, skip deleted entries, recompute the distance, stop as soon as the result
list has reached k - the length test runs only after a push. -/
def collectLoop (fo : FloatOracle R) (metric : DistanceMetric)
    (vectors : List (Id × VectorEntry R)) (query : List R) (k : Nat) :
    List Id → List (SearchResult R) → List (SearchResult R)
  | [], acc => acc
  | cid :: rest, acc =>
      match aget vectors cid with
      | none => collectLoop fo metric vectors query k rest acc
      | some e =>
          if e.deleted then collectLoop fo metric vectors query k rest acc
          else
            let acc2 := acc ++ [⟨e.id, distance fo metric query e.vector, e.metadata⟩]
            if k ≤ acc2.length then acc2
            else collectLoop fo metric vectors query k rest acc2

/-- Greedy descent of search from the entry layer down to layer 1 (ef = 1). -/
def greedyDescent (fo : FloatOracle R) (metric : DistanceMetric)
    (nodes : List (Id × HnswNode)) (vectors : List (Id × VectorEntry R))
    (query : List R) : List Nat → List Id → List Id
  | [], nearest => nearest
  | lc :: rest, nearest =>
      greedyDescent fo metric nodes vectors query rest
        (searchLayerWithQuery fo metric nodes vectors query nearest 1 lc)

/-- Candidate list that search hands to its final collection loop: descent to
layer 1, then the layer-0 beam search with ef = max(ef_search, k). -/
def searchCandidates (fo : FloatOracle R) (idx : HnswIndex R) (query : List R)
    (k : Nat) (ep : Id) (entryLevel : Nat) : List Id :=
  let nearest := greedyDescent fo idx.metric idx.nodes idx.vectors query
    (revRange 1 entryLevel) [ep]
  searchLayerWithQuery fo idx.metric idx.nodes idx.vectors query nearest
    (max idx.config.ef_search k) 0

/-- HnswIndex::search. -/
def search (fo : FloatOracle R) (idx : HnswIndex R) (query : List R) (k : Nat) :
    Except HErr (List (SearchResult R)) :=
  if query.length ≠ idx.dimension then .error .dimMismatch
  else
    match idx.entry_point with
    | none => .ok []
    | some ep =>
        let query := if idx.metric = .Cosine then fo.normalizeK query else query
        match aget idx.nodes ep with
        | none => .error .epNodeMissing
        | some epNode =>
            let candidates := searchCandidates fo idx query k ep epNode.level
            .ok (collectLoop fo idx.metric idx.vectors query k candidates [])

/-- HnswIndex::get - None when absent or soft-deleted. -/
def get (idx : HnswIndex R) (theId : Id) : Option (List R × Option Meta) :=
  match aget idx.vectors theId with
  | none => none
  | some e => if e.deleted then none else some (e.vector, e.metadata)

/-- HnswIndex::soft_delete - flip the deleted bit; true when newly deleted. -/
def softDelete (idx : HnswIndex R) (theId : Id) :
    Except HErr (HnswIndex R × Bool) :=
  match aget idx.vectors theId with
  | none => .error .notFound
  | some e =>
      if e.deleted then .ok (idx, false)
      else
        .ok ({ idx with vectors := aput idx.vectors theId { e with deleted := true } }, true)

/-- Fold of insert over a build script (id, vector, metadata, drawn level),
modelling an index built from empty by a sequence of insertions. -/
def insertMany (fo : FloatOracle R) (idx : HnswIndex R) :
    List (Id × List R × Option Meta × Nat) → Except HErr (HnswIndex R)
  | [] => .ok idx
  | (i, v, m, lvl) :: rest =>
      match insert fo idx i v m lvl with
      | .error e => .error e
      | .ok idx2 => insertMany fo idx2 rest

/-- Oracle used by the concrete runs: they all use the DotProduct metric, whose
kernel is exact, so the abstract cosine/euclidean/normalize fields are never
evaluated; they are filled with inert stubs. -/
def dotOracle (R : Type) [LinearOrderedRing R] : FloatOracle R :=
  ⟨fun _ _ => 0, fun _ _ => 0, id⟩

/-- Well-formed id keys: every stored entry carries its own key as id. -/
def WfIds (idx : HnswIndex R) : Prop :=
  ∀ i e, aget idx.vectors i = some e → e.id = i

/-- Well-formed entry point: when present it has a node in the graph. -/
def WfSearch (idx : HnswIndex R) : Prop :=
  ∀ e, idx.entry_point = some e → (aget idx.nodes e).isSome

/-- Result produced by one candidate in the final collection loop of search. -/
def resultOf (fo : FloatOracle R) (metric : DistanceMetric)
    (vectors : List (Id × VectorEntry R)) (query : List R) (cid : Id) :
    Option (SearchResult R) :=
  match aget vectors cid with
  | none => none
  | some e =>
      if e.deleted then none
      else some ⟨e.id, distance fo metric query e.vector, e.metadata⟩

theorem collectLoop_eq (fo : FloatOracle R) (metric : DistanceMetric)
    (vectors : List (Id × VectorEntry R)) (query : List R) (k : Nat) :
    ∀ (cands : List Id) (acc : List (SearchResult R)),
      collectLoop fo metric vectors query k cands acc =
        acc ++ (cands.filterMap (resultOf fo metric vectors query)).take
          (if acc.length < k then k - acc.length else 1) := by
  intro cands
  induction cands with
  | nil => intro acc; simp [collectLoop]
  | cons c rest ih =>
    intro acc
    simp only [collectLoop, resultOf, List.filterMap_cons]
    cases hc : aget vectors c with
    | none => simp [ih]
    | some e =>
      by_cases hdel : e.deleted
      · simp [hdel, ih]
      · simp only [hdel, if_false, Bool.false_eq_true, List.length_append,
          List.length_singleton]
        by_cases hstop : k ≤ acc.length + 1
        · simp only [hstop, if_true]
          by_cases hlt : acc.length < k
          · have hk : k - acc.length = 1 := by omega
            simp [hlt, hk]
          · have h1 : ¬ acc.length < k := hlt
            simp [h1]
        · simp only [hstop, if_false]
          rw [ih]
          have hlt : acc.length < k := by omega
          have hlt2 : acc.length + 1 < k := by omega
          simp only [List.length_append, List.length_singleton, hlt, hlt2, if_true]
          have hk : k - acc.length = (k - (acc.length + 1)) + 1 := by omega
          rw [hk]
          simp [List.take_succ_cons]

/-- Distance of a candidate id as recomputed by search (0 for missing ids;
never used on missing ids in the lemmas below). -/
def distOf (fo : FloatOracle R) (metric : DistanceMetric)
    (vectors : List (Id × VectorEntry R)) (query : List R) (x : Id) : R :=
  match aget vectors x with
  | some e => distance fo metric query e.vector
  | none => 0

/-- Property of heap elements: the stored distance is the recomputed one. -/
def GoodPair (fo : FloatOracle R) (metric : DistanceMetric)
    (vectors : List (Id × VectorEntry R)) (query : List R) (p : DP R) : Prop :=
  ∃ e, aget vectors p.2 = some e ∧ p.1 = distance fo metric query e.vector

theorem slInitStep_good (fo : FloatOracle R) (metric : DistanceMetric)
    (vectors : List (Id × VectorEntry R)) (query : List R) (st : SLState R)
    (ep : Id)
    (hst : ∀ p ∈ st.w, GoodPair fo metric vectors query p) :
    ∀ p ∈ (slInitStep fo metric vectors query st ep).w,
      GoodPair fo metric vectors query p := by
  unfold slInitStep
  cases hep : aget vectors ep with
  | none => exact hst
  | some entry =>
    intro p hp
    simp at hp
    rcases hp with hp | hp
    · exact ⟨entry, by simp [hp, hep]⟩
    · exact hst p hp

theorem slInit_good (fo : FloatOracle R) (metric : DistanceMetric)
    (vectors : List (Id × VectorEntry R)) (query : List R) (eps : List Id) :
    ∀ p ∈ (slInit fo metric vectors query eps).w,
      GoodPair fo metric vectors query p := by
  unfold slInit
  suffices h : ∀ (st : SLState R),
      (∀ p ∈ st.w, GoodPair fo metric vectors query p) →
      ∀ p ∈ (eps.foldl (slInitStep fo metric vectors query) st).w,
        GoodPair fo metric vectors query p by
    exact h ⟨[], [], []⟩ (by intro q hq; simp at hq)
  induction eps with
  | nil => intro st hst p hp; exact hst p hp
  | cons ep rest ih =>
    intro st hst p hp
    simp only [List.foldl_cons] at hp
    exact ih _ (slInitStep_good fo metric vectors query st ep hst) p hp

theorem slNbrStep_good (fo : FloatOracle R) (metric : DistanceMetric)
    (vectors : List (Id × VectorEntry R)) (query : List R) (ef : Nat)
    (st : SLState R) (nid : Id)
    (hst : ∀ p ∈ st.w, GoodPair fo metric vectors query p) :
    ∀ p ∈ (slNbrStep fo metric vectors query ef st nid).w,
      GoodPair fo metric vectors query p := by
  unfold slNbrStep
  by_cases hv : nid ∈ st.visited
  · simp only [hv, if_true]
    exact hst
  · simp only [hv, if_false]
    cases hvv : aget vectors nid with
    | none => exact hst
    | some ne =>
      by_cases hcond : distance fo metric query ne.vector < frontDist st.w ∨
          st.w.length < ef
      · simp only [hcond, if_true]
        intro q hq
        by_cases hlen : ef < ((distance fo metric query ne.vector, nid) :: st.w).length
        · simp only [hlen, if_true] at hq
          cases hm : maxPair ((distance fo metric query ne.vector, nid) :: st.w) with
          | none => simp [maxPair] at hm
          | some m =>
            rw [hm] at hq
            have hq2 := List.erase_subset _ _ hq
            simp at hq2
            rcases hq2 with hq2 | hq2
            · exact ⟨ne, by simp [hq2, hvv]⟩
            · exact hst q hq2
        · simp only [hlen, if_false] at hq
          simp at hq
          rcases hq with hq | hq
          · exact ⟨ne, by simp [hq, hvv]⟩
          · exact hst q hq
      · simp only [hcond, if_false]
        exact hst

theorem slExpand_good (fo : FloatOracle R) (metric : DistanceMetric)
    (nodes : List (Id × HnswNode)) (vectors : List (Id × VectorEntry R))
    (query : List R) (ef layer : Nat) (cid : Id) (st : SLState R)
    (hst : ∀ p ∈ st.w, GoodPair fo metric vectors query p) :
    ∀ p ∈ (slExpand fo metric nodes vectors query ef layer cid st).w,
      GoodPair fo metric vectors query p := by
  unfold slExpand
  cases hn : aget nodes cid with
  | none => exact hst
  | some node =>
    by_cases hl : layer < node.connections.length
    · simp only [hl, if_true]
      revert st hst
      induction connAt node layer with
      | nil => intro st hst; exact hst
      | cons nid rest ih =>
        intro st hst
        simp only [List.foldl_cons]
        exact ih _ (slNbrStep_good fo metric vectors query ef st nid hst)
    · simp only [hl, if_false]
      exact hst

theorem slLoop_good (fo : FloatOracle R) (metric : DistanceMetric)
    (nodes : List (Id × HnswNode)) (vectors : List (Id × VectorEntry R))
    (query : List R) (ef layer : Nat) :
    ∀ (fuel : Nat) (st : SLState R),
      (∀ p ∈ st.w, GoodPair fo metric vectors query p) →
      ∀ p ∈ slLoop fo metric nodes vectors query ef layer fuel st,
        GoodPair fo metric vectors query p := by
  intro fuel
  induction fuel with
  | zero => intro st hst; exact hst
  | succ n ih =>
    intro st hst p hp
    simp only [slLoop] at hp
    cases hc : minPair st.cands with
    | none => rw [hc] at hp; exact hst p hp
    | some c =>
      rw [hc] at hp
      by_cases hbreak : frontDist st.w < c.1
      · simp only [hbreak, if_true] at hp
        exact hst p hp
      · simp only [hbreak, if_false] at hp
        exact ih _ (slExpand_good fo metric nodes vectors query ef layer c.2
          { st with cands := st.cands.erase c } hst) p hp

theorem slwq_good (fo : FloatOracle R) (metric : DistanceMetric)
    (nodes : List (Id × HnswNode)) (vectors : List (Id × VectorEntry R))
    (query : List R) (eps : List Id) (ef layer : Nat) :
    ∀ x ∈ searchLayerWithQuery fo metric nodes vectors query eps ef layer,
      ∃ e, aget vectors x = some e := by
  intro x hx
  unfold searchLayerWithQuery at hx
  simp at hx
  obtain ⟨d, hd⟩ := hx
  have hgood := slLoop_good fo metric nodes vectors query ef layer _ _
    (slInit_good fo metric vectors query eps) (d, x) hd
  obtain ⟨e, he, _⟩ := hgood
  exact ⟨e, he⟩

theorem slwq_sorted (fo : FloatOracle R) (metric : DistanceMetric)
    (nodes : List (Id × HnswNode)) (vectors : List (Id × VectorEntry R))
    (query : List R) (eps : List Id) (ef layer : Nat) :
    List.Pairwise
      (fun x y => distOf fo metric vectors query x ≤ distOf fo metric vectors query y)
      (searchLayerWithQuery fo metric nodes vectors query eps ef layer) := by
  unfold searchLayerWithQuery
  rw [List.pairwise_map]
  have hsorted := List.sorted_insertionSort pairLe
    (slLoop fo metric nodes vectors query ef layer (vectors.length + eps.length + 1)
      (slInit fo metric vectors query eps))
  have hperm := List.perm_insertionSort pairLe
    (slLoop fo metric nodes vectors query ef layer (vectors.length + eps.length + 1)
      (slInit fo metric vectors query eps))
  refine List.Pairwise.imp_of_mem ?_ hsorted
  intro a b ha hb hab
  have hga := slLoop_good fo metric nodes vectors query ef layer _ _
    (slInit_good fo metric vectors query eps) a (hperm.mem_iff.mp ha)
  have hgb := slLoop_good fo metric nodes vectors query ef layer _ _
    (slInit_good fo metric vectors query eps) b (hperm.mem_iff.mp hb)
  obtain ⟨ea, hea, hda⟩ := hga
  obtain ⟨eb, heb, hdb⟩ := hgb
  have h1 : a.1 ≤ b.1 := by
    rcases hab with h | ⟨h, _⟩
    · exact le_of_lt h
    · exact le_of_eq h
  simp only [distOf, hea, heb]
  rw [← hda, ← hdb]
  exact h1

/-- Normalised query as computed by search before the descent. -/
def normQuery (fo : FloatOracle R) (idx : HnswIndex R) (query : List R) :
    List R :=
  if idx.metric = .Cosine then fo.normalizeK query else query

theorem search_ok_cases (fo : FloatOracle R) (idx : HnswIndex R)
    (query : List R) (k : Nat) (rs : List (SearchResult R))
    (hok : search fo idx query k = .ok rs) :
    rs = [] ∨
      ∃ ep epn, idx.entry_point = some ep ∧ aget idx.nodes ep = some epn ∧
        rs = (List.filterMap
                (resultOf fo idx.metric idx.vectors (normQuery fo idx query))
                (searchCandidates fo idx (normQuery fo idx query) k ep epn.level)).take
              (if 0 < k then k else 1) := by
  unfold search at hok
  by_cases hdim : query.length ≠ idx.dimension
  · simp [hdim] at hok
  · simp only [hdim, if_false] at hok
    cases hep : idx.entry_point with
    | none =>
      rw [hep] at hok
      simp at hok
      exact Or.inl hok
    | some ep =>
      rw [hep] at hok
      simp only [] at hok
      cases hnode : aget idx.nodes ep with
      | none => rw [hnode] at hok; simp at hok
      | some epn =>
        rw [hnode] at hok
        simp at hok
        refine Or.inr ⟨ep, epn, rfl, hnode, ?_⟩
        rw [← hok, collectLoop_eq]
        simp only [List.length_nil, List.nil_append, Nat.sub_zero, normQuery]

theorem mem_filterMap_resultOf (fo : FloatOracle R) (metric : DistanceMetric)
    (vectors : List (Id × VectorEntry R)) (query : List R) (cands : List Id)
    (r : SearchResult R)
    (hr : r ∈ List.filterMap (resultOf fo metric vectors query) cands) :
    ∃ c e, aget vectors c = some e ∧ e.deleted = false ∧ r.id = e.id ∧
      r.distance = distance fo metric query e.vector := by
  rw [List.mem_filterMap] at hr
  obtain ⟨c, _, hc⟩ := hr
  unfold resultOf at hc
  cases hv : aget vectors c with
  | none => rw [hv] at hc; simp at hc
  | some e =>
    rw [hv] at hc
    by_cases hdel : e.deleted
    · simp [hdel] at hc
    · simp [hdel] at hc
      exact ⟨c, e, hv, by simp [hdel], by rw [← hc], by rw [← hc]⟩

theorem mem_filterMap_resultOf_key (fo : FloatOracle R) (metric : DistanceMetric)
    (vectors : List (Id × VectorEntry R)) (query : List R) (cands : List Id)
    (r : SearchResult R)
    (hids : ∀ i e, aget vectors i = some e → e.id = i)
    (hr : r ∈ List.filterMap (resultOf fo metric vectors query) cands) :
    ∃ e, aget vectors r.id = some e ∧ e.deleted = false := by
  obtain ⟨c, e, hv, hdel, hid, _⟩ := mem_filterMap_resultOf fo metric vectors query cands r hr
  have hc : e.id = c := hids c e hv
  rw [hid, hc]
  exact ⟨e, hv, hdel⟩

theorem resultOf_distance (fo : FloatOracle R) (metric : DistanceMetric)
    (vectors : List (Id × VectorEntry R)) (query : List R) (c : Id)
    (r : SearchResult R)
    (hc : resultOf fo metric vectors query c = some r) :
    r.distance = distOf fo metric vectors query c := by
  unfold resultOf at hc
  unfold distOf
  cases hv : aget vectors c with
  | none => rw [hv] at hc; simp at hc
  | some e =>
    rw [hv] at hc
    by_cases hdel : e.deleted
    · simp [hdel] at hc
    · simp [hdel] at hc
      rw [← hc]

theorem searchCandidates_sorted (fo : FloatOracle R) (idx : HnswIndex R)
    (query : List R) (k : Nat) (ep : Id) (entryLevel : Nat) :
    List.Pairwise
      (fun x y => distOf fo idx.metric idx.vectors query x ≤
        distOf fo idx.metric idx.vectors query y)
      (searchCandidates fo idx query k ep entryLevel) := by
  unfold searchCandidates
  exact slwq_sorted fo idx.metric idx.nodes idx.vectors query _ _ 0

/-- Facts about the state after a soft delete: the target entry is stored with
the deleted bit set and all other entries are untouched. -/
theorem softDelete_ok_spec (idx : HnswIndex R) (theId : Id) (idx2 : HnswIndex R)
    (b : Bool) (hdel : softDelete idx theId = .ok (idx2, b)) :
    (∃ e2, aget idx2.vectors theId = some e2 ∧ e2.deleted = true) ∧
    (∀ j, j ≠ theId → aget idx2.vectors j = aget idx.vectors j) ∧
    idx2.nodes = idx.nodes ∧ idx2.entry_point = idx.entry_point ∧
    idx2.dimension = idx.dimension ∧ idx2.metric = idx.metric ∧
    idx2.config = idx.config := by
  unfold softDelete at hdel
  cases hv : aget idx.vectors theId with
  | none => rw [hv] at hdel; simp at hdel
  | some e =>
    rw [hv] at hdel
    by_cases hd : e.deleted
    · simp [hd] at hdel
      obtain ⟨h1, _⟩ := hdel
      subst h1
      exact ⟨⟨e, hv, hd⟩, fun j _ => rfl, rfl, rfl, rfl, rfl, rfl⟩
    · simp [hd] at hdel
      obtain ⟨h1, _⟩ := hdel
      subst h1
      exact ⟨⟨{ e with deleted := true }, by simp [aget_aput_self], rfl⟩,
        fun j hj => by simp [aget_aput_ne _ _ hj], rfl, rfl, rfl, rfl, rfl⟩

theorem softDelete_preserves_WfIds (idx : HnswIndex R) (theId : Id)
    (idx2 : HnswIndex R) (b : Bool) (hids : WfIds idx)
    (hdel : softDelete idx theId = .ok (idx2, b)) : WfIds idx2 := by
  unfold softDelete at hdel
  cases hv : aget idx.vectors theId with
  | none => rw [hv] at hdel; simp at hdel
  | some e =>
    rw [hv] at hdel
    by_cases hd : e.deleted
    · simp [hd] at hdel
      obtain ⟨h1, _⟩ := hdel
      subst h1
      exact hids
    · simp [hd] at hdel
      obtain ⟨h1, _⟩ := hdel
      subst h1
      intro i e2 h2
      by_cases hi : i = theId
      · subst hi
        rw [aget_aput_self] at h2
        injection h2 with h
        rw [← h]
        exact hids i e hv
      · rw [aget_aput_ne _ _ hi] at h2
        exact hids i e2 h2

/-- Per-layer connection cap: max_connections_layer0 at layer 0 and
max_connections above, exactly the m computed in the insertion loop. -/
def capAt (cfg : HnswConfig) (l : Nat) : Nat :=
  if l = 0 then cfg.max_connections_layer0 else cfg.max_connections

/-- Cap invariant: every connection set of every node is within its layer cap. -/
def CapOk (cfg : HnswConfig) (nodes : List (Id × HnswNode)) : Prop :=
  ∀ i n l, aget nodes i = some n → (connAt n l).length ≤ capAt cfg l

theorem getD_set_self {A : Type} (L : List A) (i : Nat) (v d : A)
    (h : i < L.length) : (L.set i v).getD i d = v := by
  simp [List.getD_eq_getElem?_getD, List.getElem?_set, h]

theorem getD_set_ne {A : Type} (L : List A) {i j : Nat} (v d : A)
    (h : j ≠ i) : (L.set i v).getD j d = L.getD j d := by
  simp only [List.getD_eq_getElem?_getD, List.getElem?_set]
  rw [if_neg (fun he => h he.symm)]

theorem connAt_set_sinsert_le (conns : List (List Id)) (lc : Nat) (x : Id) :
    ((conns.set lc (sinsert x (conns.getD lc []))).getD lc []).length ≤
      (conns.getD lc []).length + 1 := by
  by_cases h : lc < conns.length
  · rw [getD_set_self _ _ _ _ h]
    exact length_sinsert_le x _
  · simp only [List.getD_eq_getElem?_getD, List.getElem?_set, if_pos rfl, if_neg h]
    simp

theorem selectNeighbors_length (fo : FloatOracle R) (metric : DistanceMetric)
    (vectors : List (Id × VectorEntry R)) (queryId : Id) (cands : List Id)
    (m : Nat) (ns : List Id)
    (h : selectNeighbors fo metric vectors queryId cands m = .ok ns) :
    ns.length ≤ m := by
  unfold selectNeighbors at h
  cases hv : aget vectors queryId with
  | none => rw [hv] at h; simp at h
  | some qe =>
    rw [hv] at h
    simp at h
    rw [← h]
    simp [List.length_take_le]

theorem pruneConnections_length (fo : FloatOracle R) (metric : DistanceMetric)
    (nodes : List (Id × HnswNode)) (vectors : List (Id × VectorEntry R))
    (nodeId : Id) (layer m : Nat) (pruned : List Id)
    (h : pruneConnections fo metric nodes vectors nodeId layer m = .ok pruned) :
    pruned.length ≤ m := by
  unfold pruneConnections at h
  cases hn : aget nodes nodeId with
  | none => rw [hn] at h; simp at h
  | some node =>
    rw [hn] at h
    simp only [] at h
    by_cases hl : node.connections.length ≤ layer
    · simp only [hl, if_true] at h
      have h2 : pruned = [] := by
        injection h with he
        exact he.symm
      simp [h2]
    · simp only [hl, if_false] at h
      exact selectNeighbors_length fo metric vectors nodeId _ m pruned h

/-- Relation between a node before and after one insertion layer touched it:
identity, level, layer count and all other layers are preserved. -/
def NodeFrame (lc : Nat) (n n2 : HnswNode) : Prop :=
  n2.id = n.id ∧ n2.level = n.level ∧
  n2.connections.length = n.connections.length ∧
  ∀ l, l ≠ lc → connAt n2 l = connAt n l

theorem nodeFrame_refl (lc : Nat) (n : HnswNode) : NodeFrame lc n n :=
  ⟨rfl, rfl, rfl, fun _ _ => rfl⟩

theorem nodeFrame_set (lc : Nat) (n : HnswNode) (v : List Id) :
    NodeFrame lc n { n with connections := n.connections.set lc v } := by
  refine ⟨rfl, rfl, by simp, ?_⟩
  intro l hl
  exact getD_set_ne _ _ _ hl

theorem nodeFrame_trans (lc : Nat) (a b c : HnswNode) :
    NodeFrame lc a b → NodeFrame lc b c → NodeFrame lc a c := by
  intro h1 h2
  exact ⟨h2.1.trans h1.1, h2.2.1.trans h1.2.1, h2.2.2.1.trans h1.2.2.1,
    fun l hl => (h2.2.2.2 l hl).trans (h1.2.2.2 l hl)⟩

theorem addLinks_spec (theId : Id) (lc : Nat) :
    ∀ (nbrs : List Id) (nodes : List (Id × HnswNode)) (node : HnswNode)
      (nodes2 : List (Id × HnswNode)) (node2 : HnswNode),
      addLinks theId lc nbrs (nodes, node) = .ok (nodes2, node2) →
      (∀ i, i ∉ nbrs → aget nodes2 i = aget nodes i) ∧
      (∀ i n2, aget nodes2 i = some n2 →
        ∃ n, aget nodes i = some n ∧ NodeFrame lc n n2) ∧
      NodeFrame lc node node2 ∧
      (connAt node2 lc).length ≤ (connAt node lc).length + nbrs.length := by
  intro nbrs
  induction nbrs with
  | nil =>
    intro nodes node nodes2 node2 h
    simp [addLinks] at h
    obtain ⟨h1, h2⟩ := h
    subst h1
    subst h2
    exact ⟨fun _ _ => rfl, fun i n2 h => ⟨n2, h, nodeFrame_refl lc n2⟩,
      nodeFrame_refl lc node, by simp⟩
  | cons nid rest ih =>
    intro nodes node nodes2 node2 h
    simp only [addLinks] at h
    cases hn : aget nodes nid with
    | some nn =>
      rw [hn] at h
      simp only [] at h
      by_cases hlc : lc < nn.connections.length
      · rw [if_pos hlc] at h
        obtain ⟨hframe, hrel, hnode, hlen⟩ := ih _ _ _ _ h
        refine ⟨?_, ?_, ?_, ?_⟩
        · intro i hi
          have hi1 : i ∉ rest := fun hc => hi (List.mem_cons_of_mem _ hc)
          have hi2 : i ≠ nid := fun hc => hi (hc ▸ List.mem_cons_self _ _)
          rw [hframe i hi1, aget_aput_ne _ _ hi2]
        · intro i n2 h2
          obtain ⟨n1, hn1, hf1⟩ := hrel i n2 h2
          by_cases hi : i = nid
          · subst hi
            rw [aget_aput_self] at hn1
            injection hn1 with he
            exact ⟨nn, hn, nodeFrame_trans lc nn _ n2 (he ▸ nodeFrame_set lc nn _) hf1⟩
          · rw [aget_aput_ne _ _ hi] at hn1
            exact ⟨n1, hn1, hf1⟩
        · exact nodeFrame_trans lc node _ node2 (nodeFrame_set lc node _) hnode
        · have hstep := connAt_set_sinsert_le node.connections lc nid
          have : (connAt { node with
              connections := node.connections.set lc (sinsert nid (connAt node lc)) } lc).length ≤
              (connAt node lc).length + 1 := hstep
          simp only [List.length_cons]
          omega
      · rw [if_neg hlc] at h
        simp at h
    | none =>
      rw [hn] at h
      simp only [] at h
      obtain ⟨hframe, hrel, hnode, hlen⟩ := ih _ _ _ _ h
      refine ⟨?_, hrel, ?_, ?_⟩
      · intro i hi
        exact hframe i (fun hc => hi (List.mem_cons_of_mem _ hc))
      · exact nodeFrame_trans lc node _ node2 (nodeFrame_set lc node _) hnode
      · have hstep := connAt_set_sinsert_le node.connections lc nid
        have : (connAt { node with
            connections := node.connections.set lc (sinsert nid (connAt node lc)) } lc).length ≤
            (connAt node lc).length + 1 := hstep
        simp only [List.length_cons]
        omega

theorem pruneLoop_spec (fo : FloatOracle R) (metric : DistanceMetric)
    (vectors : List (Id × VectorEntry R)) (lc m : Nat) :
    ∀ (nbrs : List Id) (nodes nodes3 : List (Id × HnswNode)),
      pruneLoop fo metric vectors lc m nbrs nodes = .ok nodes3 →
      (∀ i, i ∉ nbrs → aget nodes3 i = aget nodes i) ∧
      (∀ i n3, aget nodes3 i = some n3 →
        ∃ n, aget nodes i = some n ∧ NodeFrame lc n n3 ∧
          ((connAt n3 lc).length ≤ m ∨ connAt n3 lc = connAt n lc)) ∧
      (∀ i ∈ nbrs, ∀ n3, aget nodes3 i = some n3 → (connAt n3 lc).length ≤ m) := by
  intro nbrs
  induction nbrs with
  | nil =>
    intro nodes nodes3 h
    simp [pruneLoop] at h
    subst h
    exact ⟨fun _ _ => rfl,
      fun i n3 h => ⟨n3, h, nodeFrame_refl lc n3, Or.inr rfl⟩,
      by intro i hi; simp at hi⟩
  | cons nid rest ih =>
    intro nodes nodes3 h
    simp only [pruneLoop] at h
    cases hn : aget nodes nid with
    | none =>
      rw [hn] at h
      simp only [] at h
      obtain ⟨hframe, hrel, hcap⟩ := ih _ _ h
      refine ⟨?_, hrel, ?_⟩
      · intro i hi
        exact hframe i (fun hc => hi (List.mem_cons_of_mem _ hc))
      · intro i hi n3 h3
        rcases List.mem_cons.mp hi with h1 | h1
        · subst h1
          by_cases hr : i ∈ rest
          · exact hcap i hr n3 h3
          · rw [hframe i hr, hn] at h3
            simp at h3
        · exact hcap i h1 n3 h3
    | some nn =>
      rw [hn] at h
      simp only [] at h
      by_cases hlc : lc < nn.connections.length
      · rw [if_pos hlc] at h
        by_cases hover : m < (connAt nn lc).length
        · rw [if_pos hover] at h
          cases hp : pruneConnections fo metric nodes vectors nid lc m with
          | error e => rw [hp] at h; simp at h
          | ok pruned =>
            rw [hp] at h
            simp only [hn] at h
            have hplen : pruned.dedup.length ≤ m :=
              le_trans (List.dedup_sublist pruned).length_le
                (pruneConnections_length fo metric nodes vectors nid lc m pruned hp)
            obtain ⟨hframe, hrel, hcap⟩ := ih _ _ h
            have hupd : aget (aput nodes nid
                { nn with connections := nn.connections.set lc pruned.dedup }) nid =
                some { nn with connections := nn.connections.set lc pruned.dedup } :=
              aget_aput_self _ _ _
            refine ⟨?_, ?_, ?_⟩
            · intro i hi
              have hi1 : i ∉ rest := fun hc => hi (List.mem_cons_of_mem _ hc)
              have hi2 : i ≠ nid := fun hc => hi (hc ▸ List.mem_cons_self _ _)
              rw [hframe i hi1, aget_aput_ne _ _ hi2]
            · intro i n3 h3
              obtain ⟨n1, hn1, hf1, hd1⟩ := hrel i n3 h3
              by_cases hi : i = nid
              · subst hi
                rw [hupd] at hn1
                injection hn1 with he
                refine ⟨nn, hn, nodeFrame_trans lc nn _ n3 (he ▸ nodeFrame_set lc nn _) hf1, ?_⟩
                rcases hd1 with hd1 | hd1
                · exact Or.inl hd1
                · refine Or.inl ?_
                  rw [hd1, ← he]
                  have : connAt { nn with connections := nn.connections.set lc pruned.dedup } lc =
                      pruned.dedup := getD_set_self _ _ _ _ hlc
                  rw [this]
                  exact hplen
              · rw [aget_aput_ne _ _ hi] at hn1
                exact ⟨n1, hn1, hf1, hd1⟩
            · intro i hi n3 h3
              rcases List.mem_cons.mp hi with h1 | h1
              · subst h1
                by_cases hr : i ∈ rest
                · exact hcap i hr n3 h3
                · rw [hframe i hr, hupd] at h3
                  injection h3 with he
                  rw [← he]
                  have : connAt { nn with connections := nn.connections.set lc pruned.dedup } lc =
                      pruned.dedup := getD_set_self _ _ _ _ hlc
                  rw [this]
                  exact hplen
              · exact hcap i h1 n3 h3
        · rw [if_neg hover] at h
          obtain ⟨hframe, hrel, hcap⟩ := ih _ _ h
          refine ⟨?_, hrel, ?_⟩
          · intro i hi
            exact hframe i (fun hc => hi (List.mem_cons_of_mem _ hc))
          · intro i hi n3 h3
            rcases List.mem_cons.mp hi with h1 | h1
            · subst h1
              by_cases hr : i ∈ rest
              · exact hcap i hr n3 h3
              · rw [hframe i hr, hn] at h3
                injection h3 with he
                obtain ⟨n1, hn1, hf1, hd1⟩ := hrel i n3 (by rw [hframe i hr, hn, he])
                rw [← he]
                omega
            · exact hcap i h1 n3 h3
      · rw [if_neg hlc] at h
        simp at h

theorem connAt_mkNew (id : Id) (level l : Nat) :
    connAt (HnswNode.mkNew id level) l = [] := by
  unfold connAt HnswNode.mkNew
  simp only [List.getD_eq_getElem?_getD, List.getElem?_replicate]
  by_cases h : l < level + 1 <;> simp [h]

theorem revRange_nodup (lo hi : Nat) : (revRange lo hi).Nodup := by
  unfold revRange
  exact List.nodup_reverse.mpr (List.nodup_range' lo (hi + 1 - lo))

theorem insLayer_caps (fo : FloatOracle R) (metric : DistanceMetric)
    (cfg : HnswConfig) (vectors : List (Id × VectorEntry R)) (theId : Id)
    (nodes : List (Id × HnswNode)) (node : HnswNode) (nearest : List Id)
    (lc : Nat) (nodes3 : List (Id × HnswNode)) (node2 : HnswNode)
    (cands : List Id)
    (hcap : CapOk cfg nodes)
    (hnodelc : connAt node lc = [])
    (h : insLayer fo metric cfg vectors theId (nodes, node, nearest) lc =
      .ok (nodes3, node2, cands)) :
    CapOk cfg nodes3 ∧ NodeFrame lc node node2 ∧
    (connAt node2 lc).length ≤ capAt cfg lc := by
  unfold insLayer at h
  simp only [] at h
  cases hsl : searchLayer fo metric nodes vectors theId nearest cfg.ef_construction lc with
  | error e => rw [hsl] at h; simp at h
  | ok candidates =>
    rw [hsl] at h
    simp only [] at h
    cases hsn : selectNeighbors fo metric vectors theId candidates
        (if lc = 0 then cfg.max_connections_layer0 else cfg.max_connections) with
    | error e => rw [hsn] at h; simp at h
    | ok neighbors =>
      rw [hsn] at h
      simp only [] at h
      have hnlen : neighbors.length ≤ capAt cfg lc :=
        selectNeighbors_length fo metric vectors theId candidates _ neighbors hsn
      cases hal : addLinks theId lc neighbors (nodes, node) with
      | error e => rw [hal] at h; simp at h
      | ok p =>
        obtain ⟨nodesA, nodeA⟩ := p
        rw [hal] at h
        simp only [] at h
        cases hpl : pruneLoop fo metric vectors lc
            (if lc = 0 then cfg.max_connections_layer0 else cfg.max_connections)
            neighbors nodesA with
        | error e => rw [hpl] at h; simp at h
        | ok nodesP =>
          rw [hpl] at h
          simp at h
          obtain ⟨h1, h2, _⟩ := h
          subst h1
          subst h2
          obtain ⟨haF, haR, haN, haL⟩ := addLinks_spec theId lc neighbors nodes node nodesA nodeA hal
          obtain ⟨hpF, hpR, hpC⟩ := pruneLoop_spec fo metric vectors lc _ neighbors nodesA nodesP hpl
          refine ⟨?_, haN, ?_⟩
          · intro i n3 l h3
            by_cases hl : l = lc
            · subst hl
              by_cases hi : i ∈ neighbors
              · exact hpC i hi n3 h3
              · rw [hpF i hi, haF i hi] at h3
                exact hcap i n3 l h3
            · obtain ⟨nA, hnA, hfA, _⟩ := hpR i n3 h3
              obtain ⟨n0, hn0, hf0⟩ := haR i nA hnA
              rw [hfA.2.2.2 l hl, hf0.2.2.2 l hl]
              exact hcap i n0 l hn0
          · rw [hnodelc] at haL
            simp at haL
            exact le_trans haL hnlen

theorem layerLoop_caps (fo : FloatOracle R) (metric : DistanceMetric)
    (cfg : HnswConfig) (vectors : List (Id × VectorEntry R)) (theId : Id) :
    ∀ (L : List Nat) (nodes : List (Id × HnswNode)) (node : HnswNode)
      (nearest : List Id) (nodes3 : List (Id × HnswNode)) (node2 : HnswNode)
      (cands3 : List Id),
      CapOk cfg nodes →
      (∀ lc ∈ L, connAt node lc = []) →
      (∀ l, (connAt node l).length ≤ capAt cfg l ∨ l ∈ L) →
      L.Nodup →
      layerLoop fo metric cfg vectors theId L (nodes, node, nearest) =
        .ok (nodes3, node2, cands3) →
      CapOk cfg nodes3 ∧ ∀ l, (connAt node2 l).length ≤ capAt cfg l := by
  intro L
  induction L with
  | nil =>
    intro nodes node nearest nodes3 node2 cands3 hcap hempty hbound _ h
    simp [layerLoop] at h
    obtain ⟨h1, h2, _⟩ := h
    subst h1
    subst h2
    refine ⟨hcap, ?_⟩
    intro l
    rcases hbound l with hb | hb
    · exact hb
    · simp at hb
  | cons lc rest ih =>
    intro nodes node nearest nodes3 node2 cands3 hcap hempty hbound hnd h
    simp only [layerLoop] at h
    cases hil : insLayer fo metric cfg vectors theId (nodes, node, nearest) lc with
    | error e => rw [hil] at h; simp at h
    | ok stM =>
      obtain ⟨nodesM, nodeM, candsM⟩ := stM
      rw [hil] at h
      simp only [] at h
      obtain ⟨hcapM, hframeM, hcapNode⟩ := insLayer_caps fo metric cfg vectors theId
        nodes node nearest lc nodesM nodeM candsM hcap
        (hempty lc (List.mem_cons_self _ _)) hil
      have hnd2 := List.nodup_cons.mp hnd
      refine ih nodesM nodeM candsM nodes3 node2 cands3 hcapM ?_ ?_ hnd2.2 h
      · intro l hl
        have hne : l ≠ lc := fun hc => hnd2.1 (hc ▸ hl)
        rw [hframeM.2.2.2 l hne]
        exact hempty l (List.mem_cons_of_mem _ hl)
      · intro l
        by_cases hl : l = lc
        · subst hl
          exact Or.inl hcapNode
        · rw [hframeM.2.2.2 l hl]
          rcases hbound l with hb | hb
          · exact Or.inl hb
          · rcases List.mem_cons.mp hb with hb2 | hb2
            · exact absurd hb2 hl
            · exact Or.inr hb2

theorem insert_preserves_caps (fo : FloatOracle R) (idx : HnswIndex R)
    (theId : Id) (v : List R) (meta : Option Meta) (lvl : Nat)
    (idx2 : HnswIndex R)
    (hcap : CapOk idx.config idx.nodes)
    (h : insert fo idx theId v meta lvl = .ok idx2) :
    idx2.config = idx.config ∧ CapOk idx.config idx2.nodes := by
  unfold insert at h
  by_cases hdim : v.length ≠ idx.dimension
  · simp [hdim] at h
  · simp only [hdim, if_false] at h
    cases hep : idx.entry_point with
    | none =>
      rw [hep] at h
      simp at h
      subst h
      refine ⟨rfl, ?_⟩
      intro i n l hn
      by_cases hi : i = theId
      · subst hi
        rw [aget_aput_self] at hn
        injection hn with he
        rw [← he, connAt_mkNew]
        simp
      · rw [aget_aput_ne _ _ hi] at hn
        exact hcap i n l hn
    | some ep =>
      rw [hep] at h
      simp only [] at h
      cases hnode : aget idx.nodes ep with
      | none => rw [hnode] at h; simp at h
      | some epNode =>
        rw [hnode] at h
        simp only [] at h
        cases hdl : descendLoop fo idx.metric idx.nodes
            (aput idx.vectors theId
              ⟨theId, if idx.metric = .Cosine then fo.normalizeK v else v, meta, false⟩)
            theId (revRange (min lvl 10 + 1) epNode.level) [ep] with
        | error e => rw [hdl] at h; simp at h
        | ok nearest =>
          rw [hdl] at h
          simp only [] at h
          cases hll : layerLoop fo idx.metric idx.config
              (aput idx.vectors theId
                ⟨theId, if idx.metric = .Cosine then fo.normalizeK v else v, meta, false⟩)
              theId (revRange 0 (min lvl 10))
              (idx.nodes, HnswNode.mkNew theId (min lvl 10), nearest) with
          | error e => rw [hll] at h; simp at h
          | ok st =>
            obtain ⟨nodesL, nodeL, candsL⟩ := st
            rw [hll] at h
            simp at h
            subst h
            obtain ⟨hcapL, hnodeL⟩ := layerLoop_caps fo idx.metric idx.config _ theId
              (revRange 0 (min lvl 10)) idx.nodes (HnswNode.mkNew theId (min lvl 10))
              nearest nodesL nodeL candsL hcap
              (fun lc _ => connAt_mkNew theId _ lc)
              (fun l => Or.inl (by rw [connAt_mkNew]; simp))
              (revRange_nodup 0 (min lvl 10)) hll
            refine ⟨rfl, ?_⟩
            intro i n l hn
            by_cases hi : i = theId
            · subst hi
              rw [aget_aput_self] at hn
              injection hn with he
              rw [← he]
              exact hnodeL l
            · rw [aget_aput_ne _ _ hi] at hn
              exact hcapL i n l hn

theorem insertMany_caps (fo : FloatOracle R) :
    ∀ (items : List (Id × List R × Option Meta × Nat)) (idx idx2 : HnswIndex R),
      CapOk idx.config idx.nodes →
      insertMany fo idx items = .ok idx2 →
      idx2.config = idx.config ∧ CapOk idx.config idx2.nodes := by
  intro items
  induction items with
  | nil =>
    intro idx idx2 hcap h
    simp [insertMany] at h
    subst h
    exact ⟨rfl, hcap⟩
  | cons it rest ih =>
    intro idx idx2 hcap h
    obtain ⟨i, v, m, lvl⟩ := it
    simp only [insertMany] at h
    cases hi : insert fo idx i v m lvl with
    | error e => rw [hi] at h; simp at h
    | ok idxm =>
      rw [hi] at h
      simp only [] at h
      obtain ⟨hcfg, hcapm⟩ := insert_preserves_caps fo idx i v m lvl idxm hcap hi
      have := ih idxm idx2 (hcfg ▸ hcapm) h
      rw [hcfg] at this
      exact this

theorem descendLoop_ok (fo : FloatOracle R) (metric : DistanceMetric)
    (nodes : List (Id × HnswNode)) (vectors : List (Id × VectorEntry R))
    (theId : Id) (qe : VectorEntry R)
    (hq : aget vectors theId = some qe) :
    ∀ (layers : List Nat) (nearest : List Id),
      ∃ out, descendLoop fo metric nodes vectors theId layers nearest = .ok out := by
  intro layers
  induction layers with
  | nil => intro nearest; exact ⟨nearest, rfl⟩
  | cons lc rest ih =>
    intro nearest
    simp only [descendLoop, searchLayer, hq]
    exact ih _

theorem selectNeighbors_eq (fo : FloatOracle R) (metric : DistanceMetric)
    (vectors : List (Id × VectorEntry R)) (queryId : Id) (qe : VectorEntry R)
    (cands : List Id) (m : Nat)
    (hq : aget vectors queryId = some qe) :
    selectNeighbors fo metric vectors queryId cands m =
      .ok (((List.insertionSort distLe (cands.filterMap
        (fun i => (aget vectors i).map
          (fun e => (distance fo metric qe.vector e.vector, i))))).take m).map (·.2)) := by
  unfold selectNeighbors
  rw [hq]

theorem selectNeighbors_ok (fo : FloatOracle R) (metric : DistanceMetric)
    (vectors : List (Id × VectorEntry R)) (queryId : Id) (qe : VectorEntry R)
    (cands : List Id) (m : Nat)
    (hq : aget vectors queryId = some qe) :
    ∃ ns, selectNeighbors fo metric vectors queryId cands m = .ok ns ∧
      ∀ x ∈ ns, (aget vectors x).isSome := by
  refine ⟨_, selectNeighbors_eq fo metric vectors queryId qe cands m hq, ?_⟩
  intro x hx
  rw [List.mem_map] at hx
  obtain ⟨p, hp, hpx⟩ := hx
  have hsub := (List.take_sublist m
    (List.insertionSort distLe (cands.filterMap
      (fun i => (aget vectors i).map
        (fun e => (distance fo metric qe.vector e.vector, i)))))).subset hp
  have hperm := List.perm_insertionSort distLe (cands.filterMap
    (fun i => (aget vectors i).map
      (fun e => (distance fo metric qe.vector e.vector, i))))
  have hmem := hperm.mem_iff.mp hsub
  rw [List.mem_filterMap] at hmem
  obtain ⟨i, _, hi⟩ := hmem
  cases hv : aget vectors i with
  | none => rw [hv] at hi; simp at hi
  | some e =>
    rw [hv] at hi
    simp at hi
    rw [← hpx, ← hi]
    simp [hv]

/-- Layer-count invariant used by the level-0 totality lemmas: every node has
at least one connection layer (layer 0 exists). -/
def HasLayer0 (nodes : List (Id × HnswNode)) : Prop :=
  ∀ i n, aget nodes i = some n → 1 ≤ n.connections.length

theorem addLinks_ok0 (theId : Id) :
    ∀ (nbrs : List Id) (nodes : List (Id × HnswNode)) (node : HnswNode),
      HasLayer0 nodes →
      ∃ nodes2 node2, addLinks theId 0 nbrs (nodes, node) = .ok (nodes2, node2) ∧
        HasLayer0 nodes2 := by
  intro nbrs
  induction nbrs with
  | nil =>
    intro nodes node hlen
    exact ⟨nodes, node, rfl, hlen⟩
  | cons nid rest ih =>
    intro nodes node hlen
    simp only [addLinks]
    cases hn : aget nodes nid with
    | none => exact ih _ _ hlen
    | some nn =>
      have hl : 0 < nn.connections.length := hlen nid nn hn
      simp only [hl, if_true]
      refine ih _ _ ?_
      intro i n2 h2
      by_cases hi : i = nid
      · subst hi
        rw [aget_aput_self] at h2
        injection h2 with he
        rw [← he]
        simp only [List.length_set]
        exact hl
      · rw [aget_aput_ne _ _ hi] at h2
        exact hlen i n2 h2

theorem pruneLoop_ok0 (fo : FloatOracle R) (metric : DistanceMetric)
    (vectors : List (Id × VectorEntry R)) (m : Nat) :
    ∀ (nbrs : List Id) (nodes : List (Id × HnswNode)),
      HasLayer0 nodes →
      (∀ nid ∈ nbrs, (aget vectors nid).isSome) →
      ∃ nodes3, pruneLoop fo metric vectors 0 m nbrs nodes = .ok nodes3 := by
  intro nbrs
  induction nbrs with
  | nil =>
    intro nodes _ _
    exact ⟨nodes, rfl⟩
  | cons nid rest ih =>
    intro nodes hlen hvec
    simp only [pruneLoop]
    cases hn : aget nodes nid with
    | none => exact ih _ hlen (fun x hx => hvec x (List.mem_cons_of_mem _ hx))
    | some nn =>
      have hl : 0 < nn.connections.length := hlen nid nn hn
      simp only [hl, if_true]
      by_cases hover : m < (connAt nn 0).length
      · simp only [hover, if_true]
        have hvnid : (aget vectors nid).isSome := hvec nid (List.mem_cons_self _ _)
        obtain ⟨qe, hqe⟩ := Option.isSome_iff_exists.mp hvnid
        obtain ⟨ns, hns, _⟩ := selectNeighbors_ok fo metric vectors nid qe (connAt nn 0) m hqe
        have hpc : pruneConnections fo metric nodes vectors nid 0 m = .ok ns := by
          unfold pruneConnections
          rw [hn]
          simp only []
          rw [if_neg (by omega)]
          exact hns
        rw [hpc]
        simp only [hn]
        refine ih _ ?_ (fun x hx => hvec x (List.mem_cons_of_mem _ hx))
        intro i n2 h2
        by_cases hi : i = nid
        · subst hi
          rw [aget_aput_self] at h2
          injection h2 with he
          rw [← he]
          simp only [List.length_set]
          exact hl
        · rw [aget_aput_ne _ _ hi] at h2
          exact hlen i n2 h2
      · simp only [hover, if_false]
        exact ih _ hlen (fun x hx => hvec x (List.mem_cons_of_mem _ hx))

theorem searchLayer_ok_subset (fo : FloatOracle R) (metric : DistanceMetric)
    (nodes : List (Id × HnswNode)) (vectors : List (Id × VectorEntry R))
    (theId : Id) (qe : VectorEntry R) (nearest : List Id) (ef lc : Nat)
    (hq : aget vectors theId = some qe) :
    ∃ cands, searchLayer fo metric nodes vectors theId nearest ef lc = .ok cands ∧
      ∀ x ∈ cands, (aget vectors x).isSome := by
  have heq : searchLayer fo metric nodes vectors theId nearest ef lc =
      .ok (searchLayerWithQuery fo metric nodes vectors qe.vector nearest ef lc) := by
    unfold searchLayer
    rw [hq]
  refine ⟨_, heq, ?_⟩
  intro x hx
  obtain ⟨e, he⟩ := slwq_good fo metric nodes vectors qe.vector nearest ef lc x hx
  rw [he]
  rfl

theorem aput_length_of_none {K V : Type} [DecidableEq K] (m : List (K × V)) (k : K)
    (v : V) (h : aget m k = none) : (aput m k v).length = m.length + 1 := by
  induction m with
  | nil => rfl
  | cons hd t ih =>
    obtain ⟨a, b⟩ := hd
    simp only [aget] at h
    by_cases hk : k = a
    · rw [if_pos hk] at h
      exact absurd h (by simp)
    · rw [if_neg hk] at h
      simp only [aput, hk, if_false, List.length_cons]
      rw [ih h]

theorem aput_length_of_some {K V : Type} [DecidableEq K] (m : List (K × V)) (k : K)
    (v u : V) (h : aget m k = some u) : (aput m k v).length = m.length := by
  induction m with
  | nil => simp [aget] at h
  | cons hd t ih =>
    obtain ⟨a, b⟩ := hd
    simp only [aget] at h
    by_cases hk : k = a
    · simp [aput, hk]
    · rw [if_neg hk] at h
      simp only [aput, hk, if_false, List.length_cons]
      rw [ih h]

theorem aget_some_mem_fst {K V : Type} [DecidableEq K] (m : List (K × V)) (k : K)
    (u : V) (h : aget m k = some u) : k ∈ m.map Prod.fst := by
  induction m with
  | nil => simp [aget] at h
  | cons hd t ih =>
    obtain ⟨a, b⟩ := hd
    simp only [aget] at h
    by_cases hk : k = a
    · simp [hk]
    · rw [if_neg hk] at h
      simp [ih h]

theorem mem_sinsert_self {A : Type} [DecidableEq A] (x : A) (l : List A) :
    x ∈ sinsert x l := (mem_sinsert_iff x x l).mpr (Or.inl rfl)

theorem subset_sinsert {A : Type} [DecidableEq A] (x : A) (l : List A) :
    l ⊆ sinsert x l := fun y hy => (mem_sinsert_iff x y l).mpr (Or.inr hy)

/-- Provenance of an id handled by search_layer_with_query at a layer: it is
one of the entry points, or it occurs in the connection list at that layer of
some node of the map (it was reached by expanding that node). -/
def Origin (nodes : List (Id × HnswNode)) (eps : List Id) (layer : Nat)
    (x : Id) : Prop :=
  x ∈ eps ∨ ∃ i n, aget nodes i = some n ∧ x ∈ connAt n layer

theorem slInitStep_origin (fo : FloatOracle R) (metric : DistanceMetric)
    (nodes : List (Id × HnswNode)) (vectors : List (Id × VectorEntry R))
    (query : List R) (eps : List Id) (layer : Nat) (st : SLState R) (ep : Id)
    (hep : ep ∈ eps)
    (hst : ∀ p ∈ st.w, Origin nodes eps layer p.2) :
    ∀ p ∈ (slInitStep fo metric vectors query st ep).w,
      Origin nodes eps layer p.2 := by
  unfold slInitStep
  cases hv : aget vectors ep with
  | none => exact hst
  | some entry =>
    intro p hp
    simp at hp
    rcases hp with hp | hp
    · rw [hp]
      exact Or.inl hep
    · exact hst p hp

theorem slInit_origin (fo : FloatOracle R) (metric : DistanceMetric)
    (nodes : List (Id × HnswNode)) (vectors : List (Id × VectorEntry R))
    (query : List R) (layer : Nat) (eps : List Id) :
    ∀ p ∈ (slInit fo metric vectors query eps).w, Origin nodes eps layer p.2 := by
  unfold slInit
  suffices h : ∀ (eps2 : List Id), (∀ e ∈ eps2, e ∈ eps) → ∀ (st : SLState R),
      (∀ p ∈ st.w, Origin nodes eps layer p.2) →
      ∀ p ∈ (eps2.foldl (slInitStep fo metric vectors query) st).w,
        Origin nodes eps layer p.2 by
    exact h eps (fun e he => he) ⟨[], [], []⟩ (by intro q hq; simp at hq)
  intro eps2
  induction eps2 with
  | nil => intro _ st hst p hp; exact hst p hp
  | cons ep rest ih =>
    intro hsub st hst p hp
    simp only [List.foldl_cons] at hp
    exact ih (fun e he => hsub e (List.mem_cons_of_mem _ he)) _
      (slInitStep_origin fo metric nodes vectors query eps layer st ep
        (hsub ep (List.mem_cons_self _ _)) hst) p hp

theorem slNbrStep_origin (fo : FloatOracle R) (metric : DistanceMetric)
    (nodes : List (Id × HnswNode)) (vectors : List (Id × VectorEntry R))
    (query : List R) (eps : List Id) (layer ef : Nat) (st : SLState R) (nid : Id)
    (hn : Origin nodes eps layer nid)
    (hst : ∀ p ∈ st.w, Origin nodes eps layer p.2) :
    ∀ p ∈ (slNbrStep fo metric vectors query ef st nid).w,
      Origin nodes eps layer p.2 := by
  unfold slNbrStep
  by_cases hv : nid ∈ st.visited
  · simp only [hv, if_true]
    exact hst
  · simp only [hv, if_false]
    cases hvv : aget vectors nid with
    | none => exact hst
    | some ne =>
      by_cases hcond : distance fo metric query ne.vector < frontDist st.w ∨
          st.w.length < ef
      · simp only [hcond, if_true]
        intro q hq
        by_cases hlen : ef < ((distance fo metric query ne.vector, nid) :: st.w).length
        · simp only [hlen, if_true] at hq
          cases hm : maxPair ((distance fo metric query ne.vector, nid) :: st.w) with
          | none => simp [maxPair] at hm
          | some m =>
            rw [hm] at hq
            have hq2 := List.erase_subset _ _ hq
            simp at hq2
            rcases hq2 with hq2 | hq2
            · rw [hq2]
              exact hn
            · exact hst q hq2
        · simp only [hlen, if_false] at hq
          simp at hq
          rcases hq with hq | hq
          · rw [hq]
            exact hn
          · exact hst q hq
      · simp only [hcond, if_false]
        exact hst

theorem slNbrFold_origin (fo : FloatOracle R) (metric : DistanceMetric)
    (nodes : List (Id × HnswNode)) (vectors : List (Id × VectorEntry R))
    (query : List R) (eps : List Id) (layer ef : Nat) :
    ∀ (l : List Id) (st : SLState R),
      (∀ x ∈ l, Origin nodes eps layer x) →
      (∀ p ∈ st.w, Origin nodes eps layer p.2) →
      ∀ p ∈ (l.foldl (slNbrStep fo metric vectors query ef) st).w,
        Origin nodes eps layer p.2 := by
  intro l
  induction l with
  | nil => intro st _ hst; exact hst
  | cons nid rest ih =>
    intro st hl hst p hp
    simp only [List.foldl_cons] at hp
    exact ih _ (fun x hx => hl x (List.mem_cons_of_mem _ hx))
      (slNbrStep_origin fo metric nodes vectors query eps layer ef st nid
        (hl nid (List.mem_cons_self _ _)) hst) p hp

theorem slExpand_origin (fo : FloatOracle R) (metric : DistanceMetric)
    (nodes : List (Id × HnswNode)) (vectors : List (Id × VectorEntry R))
    (query : List R) (eps : List Id) (ef layer : Nat) (cid : Id) (st : SLState R)
    (hst : ∀ p ∈ st.w, Origin nodes eps layer p.2) :
    ∀ p ∈ (slExpand fo metric nodes vectors query ef layer cid st).w,
      Origin nodes eps layer p.2 := by
  unfold slExpand
  cases hn : aget nodes cid with
  | none => exact hst
  | some node =>
    by_cases hl : layer < node.connections.length
    · simp only [hl, if_true]
      exact slNbrFold_origin fo metric nodes vectors query eps layer ef
        (connAt node layer) st (fun x hx => Or.inr ⟨cid, node, hn, hx⟩) hst
    · simp only [hl, if_false]
      exact hst

theorem slLoop_origin (fo : FloatOracle R) (metric : DistanceMetric)
    (nodes : List (Id × HnswNode)) (vectors : List (Id × VectorEntry R))
    (query : List R) (eps : List Id) (ef layer : Nat) :
    ∀ (fuel : Nat) (st : SLState R),
      (∀ p ∈ st.w, Origin nodes eps layer p.2) →
      ∀ p ∈ slLoop fo metric nodes vectors query ef layer fuel st,
        Origin nodes eps layer p.2 := by
  intro fuel
  induction fuel with
  | zero => intro st hst; exact hst
  | succ n ih =>
    intro st hst p hp
    simp only [slLoop] at hp
    cases hc : minPair st.cands with
    | none => rw [hc] at hp; exact hst p hp
    | some c =>
      rw [hc] at hp
      by_cases hbreak : frontDist st.w < c.1
      · simp only [hbreak, if_true] at hp
        exact hst p hp
      · simp only [hbreak, if_false] at hp
        exact ih _ (slExpand_origin fo metric nodes vectors query eps ef layer c.2
          { st with cands := st.cands.erase c } hst) p hp

theorem slwq_origin (fo : FloatOracle R) (metric : DistanceMetric)
    (nodes : List (Id × HnswNode)) (vectors : List (Id × VectorEntry R))
    (query : List R) (eps : List Id) (ef layer : Nat) :
    ∀ x ∈ searchLayerWithQuery fo metric nodes vectors query eps ef layer,
      Origin nodes eps layer x := by
  intro x hx
  unfold searchLayerWithQuery at hx
  simp at hx
  obtain ⟨d, hd⟩ := hx
  exact slLoop_origin fo metric nodes vectors query eps ef layer _ _
    (slInit_origin fo metric nodes vectors query layer eps) (d, x) hd

/-- Symmetry-closure invariant on a node map: every listed edge target is a
present node whose connection list at the same layer contains the edge back,
and no node lists itself. -/
def Paired (nodes : List (Id × HnswNode)) : Prop :=
  ∀ i n l j, aget nodes i = some n → j ∈ connAt n l →
    j ≠ i ∧ ∃ m, aget nodes j = some m ∧ i ∈ connAt m l

/-- Every connection list of every node of the map is duplicate-free. -/
def ConnNodup (nodes : List (Id × HnswNode)) : Prop :=
  ∀ i n l, aget nodes i = some n → (connAt n l).Nodup

/-- Pointwise growth of connection lists between two node maps. -/
def ConnGrows (m1 m2 : List (Id × HnswNode)) : Prop :=
  ∀ i n, aget m1 i = some n →
    ∃ n2, aget m2 i = some n2 ∧ ∀ l, connAt n l ⊆ connAt n2 l

theorem connGrows_target {m1 m2 : List (Id × HnswNode)} (hg : ConnGrows m1 m2)
    {i j : Id} {l : Nat} (h : ∃ n, aget m1 j = some n ∧ i ∈ connAt n l) :
    ∃ n2, aget m2 j = some n2 ∧ i ∈ connAt n2 l := by
  obtain ⟨n, hn, hi⟩ := h
  obtain ⟨n2, hn2, hsub⟩ := hg j n hn
  exact ⟨n2, hn2, hsub l hi⟩

/-- A node's degree at any layer is below the number of nodes: its connection
list is duplicate-free and holds only other present keys. -/
theorem paired_degree (nodes : List (Id × HnswNode)) (i : Id) (n : HnswNode)
    (l : Nat) (hp : Paired nodes) (hnd : ConnNodup nodes)
    (hget : aget nodes i = some n) :
    (connAt n l).length + 1 ≤ nodes.length := by
  have hsub : connAt n l ⊆ (nodes.map Prod.fst).erase i := by
    intro j hj
    obtain ⟨hne, m, hm, _⟩ := hp i n l j hget hj
    exact (List.mem_erase_of_ne hne).mpr (aget_some_mem_fst _ _ _ hm)
  have hnodup := hnd i n l hget
  have hlen := List.Subperm.length_le (List.Nodup.subperm hnodup hsub)
  have hmem : i ∈ nodes.map Prod.fst := aget_some_mem_fst _ _ _ hget
  have herase := List.length_erase_of_mem hmem
  have hpos : 0 < (nodes.map Prod.fst).length := List.length_pos_of_mem hmem
  rw [herase] at hlen
  rw [List.length_map] at hlen hpos
  omega

/-- Adding a fresh node with empty connection lists keeps the map paired. -/
theorem paired_aput_fresh (nodes : List (Id × HnswNode)) (theId : Id)
    (node : HnswNode) (hfresh : aget nodes theId = none)
    (hempty : ∀ l, connAt node l = [])
    (hp : Paired nodes) : Paired (aput nodes theId node) := by
  intro i n l j hget hj
  by_cases hi : i = theId
  · subst hi
    rw [aget_aput_self] at hget
    injection hget with he
    rw [← he, hempty l] at hj
    simp at hj
  · rw [aget_aput_ne _ _ hi] at hget
    obtain ⟨hne, m, hm, hmem⟩ := hp i n l j hget hj
    have hjT : j ≠ theId := by
      intro hc
      rw [hc, hfresh] at hm
      exact absurd hm (by simp)
    exact ⟨hne, m, by rw [aget_aput_ne _ _ hjT]; exact hm, hmem⟩

theorem connNodup_aput (nodes : List (Id × HnswNode)) (theId : Id)
    (node : HnswNode) (hnode : ∀ l, (connAt node l).Nodup)
    (hnd : ConnNodup nodes) : ConnNodup (aput nodes theId node) := by
  intro i n l hget
  by_cases hi : i = theId
  · subst hi
    rw [aget_aput_self] at hget
    injection hget with he
    rw [← he]
    exact hnode l
  · rw [aget_aput_ne _ _ hi] at hget
    exact hnd i n l hget

/-- The neighbors chosen by select_neighbors all come from the candidate list. -/
theorem selectNeighbors_subset (fo : FloatOracle R) (metric : DistanceMetric)
    (vectors : List (Id × VectorEntry R)) (queryId : Id)
    (cands : List Id) (m : Nat) (ns : List Id)
    (hsel : selectNeighbors fo metric vectors queryId cands m = .ok ns) :
    ∀ x ∈ ns, x ∈ cands := by
  unfold selectNeighbors at hsel
  cases hq : aget vectors queryId with
  | none => rw [hq] at hsel; simp at hsel
  | some qe =>
    rw [hq] at hsel
    simp only [] at hsel
    injection hsel with he
    subst he
    intro x hx
    rw [List.mem_map] at hx
    obtain ⟨p, hp, hpx⟩ := hx
    have hsub := (List.take_sublist m (List.insertionSort distLe (cands.filterMap
      (fun i => (aget vectors i).map
        (fun e => (distance fo metric qe.vector e.vector, i)))))).subset hp
    have hperm := List.perm_insertionSort distLe (cands.filterMap
      (fun i => (aget vectors i).map
        (fun e => (distance fo metric qe.vector e.vector, i))))
    have hmem := hperm.mem_iff.mp hsub
    rw [List.mem_filterMap] at hmem
    obtain ⟨i, hic, hi⟩ := hmem
    cases hv : aget vectors i with
    | none => rw [hv] at hi; simp at hi
    | some e =>
      rw [hv] at hi
      simp at hi
      rw [← hpx, ← hi]
      exact hic

/-- When no touched neighbor is over the cap, the prune loop of insert leaves
the node map unchanged. -/
theorem pruneLoop_noop (fo : FloatOracle R) (metric : DistanceMetric)
    (vectors : List (Id × VectorEntry R)) (lc m : Nat) :
    ∀ (nbrs : List Id) (nodes nodes3 : List (Id × HnswNode)),
      pruneLoop fo metric vectors lc m nbrs nodes = .ok nodes3 →
      (∀ nid ∈ nbrs, ∀ nn, aget nodes nid = some nn → (connAt nn lc).length ≤ m) →
      nodes3 = nodes := by
  intro nbrs
  induction nbrs with
  | nil =>
    intro nodes nodes3 h _
    simp only [pruneLoop] at h
    injection h with he
    exact he.symm
  | cons nid rest ih =>
    intro nodes nodes3 h hb
    simp only [pruneLoop] at h
    cases hn : aget nodes nid with
    | none =>
      rw [hn] at h
      simp only [] at h
      exact ih nodes nodes3 h (fun x hx => hb x (List.mem_cons_of_mem _ hx))
    | some nn =>
      rw [hn] at h
      simp only [] at h
      by_cases hg : lc < nn.connections.length
      · rw [if_pos hg] at h
        have hle := hb nid (List.mem_cons_self _ _) nn hn
        rw [if_neg (by omega)] at h
        exact ih nodes nodes3 h (fun x hx => hb x (List.mem_cons_of_mem _ hx))
      · rw [if_neg hg] at h
        exact absurd h (by simp)

/-- The bidirectional-link loop of insert preserves the symmetry invariant on
the virtual map that holds the new node alongside the stored ones: each step
links the new node and one present neighbor to each other. -/
theorem addLinks_sym (theId : Id) (lc : Nat) :
    ∀ (nbrs : List Id) (nodes : List (Id × HnswNode)) (node : HnswNode)
      (nodes2 : List (Id × HnswNode)) (node2 : HnswNode),
      addLinks theId lc nbrs (nodes, node) = .ok (nodes2, node2) →
      aget nodes theId = none →
      (∀ x ∈ nbrs, (aget nodes x).isSome) →
      lc < node.connections.length →
      Paired (aput nodes theId node) →
      ConnNodup (aput nodes theId node) →
      aget nodes2 theId = none ∧
      nodes2.length = nodes.length ∧
      node2.connections.length = node.connections.length ∧
      (∀ j, (aget nodes2 j).isSome ↔ (aget nodes j).isSome) ∧
      (∀ l, l ≠ lc → ∀ j n2, aget nodes2 j = some n2 →
        ∃ n1, aget nodes j = some n1 ∧ connAt n2 l = connAt n1 l) ∧
      Paired (aput nodes2 theId node2) ∧
      ConnNodup (aput nodes2 theId node2) := by
  intro nbrs
  induction nbrs with
  | nil =>
    intro nodes node nodes2 node2 h hfresh _ _ hp hnd
    simp only [addLinks] at h
    injection h with he
    injection he with h1 h2
    subst h1
    subst h2
    exact ⟨hfresh, rfl, rfl, fun j => Iff.rfl,
      fun l _ j n2 hj => ⟨n2, hj, rfl⟩, hp, hnd⟩
  | cons nid rest ih =>
    intro nodes node nodes2 node2 h hfresh hvec hlc hp hnd
    simp only [addLinks] at h
    cases hn : aget nodes nid with
    | none =>
      have hs := hvec nid (List.mem_cons_self _ _)
      rw [hn] at hs
      exact absurd hs (by simp)
    | some nn =>
      rw [hn] at h
      simp only [] at h
      by_cases hg : lc < nn.connections.length
      · rw [if_pos hg] at h
        have hnidT : nid ≠ theId := by
          intro hc
          rw [hc, hfresh] at hn
          exact absurd hn (by simp)
        have hTnid : theId ≠ nid := fun hc => hnidT hc.symm
        have hconnN_lc : connAt
            { nn with connections := nn.connections.set lc (sinsert theId (connAt nn lc)) } lc
            = sinsert theId (connAt nn lc) := by
          show (nn.connections.set lc (sinsert theId (connAt nn lc))).getD lc [] = _
          exact getD_set_self _ _ _ _ hg
        have hconnN_ne : ∀ l, l ≠ lc → connAt
            { nn with connections := nn.connections.set lc (sinsert theId (connAt nn lc)) } l
            = connAt nn l := by
          intro l hl
          show (nn.connections.set lc (sinsert theId (connAt nn lc))).getD l []
            = nn.connections.getD l []
          exact getD_set_ne _ _ _ hl
        have hconnB_lc : connAt
            { node with connections := node.connections.set lc (sinsert nid (connAt node lc)) } lc
            = sinsert nid (connAt node lc) := by
          show (node.connections.set lc (sinsert nid (connAt node lc))).getD lc [] = _
          exact getD_set_self _ _ _ _ hlc
        have hconnB_ne : ∀ l, l ≠ lc → connAt
            { node with connections := node.connections.set lc (sinsert nid (connAt node lc)) } l
            = connAt node l := by
          intro l hl
          show (node.connections.set lc (sinsert nid (connAt node lc))).getD l []
            = node.connections.getD l []
          exact getD_set_ne _ _ _ hl
        have hm2_theId : aget (aput nodes theId node) theId = some node :=
          aget_aput_self _ _ _
        have hm2_nid : aget (aput nodes theId node) nid = some nn := by
          rw [aget_aput_ne _ _ hnidT]
          exact hn
        have hm2B_theId : aget (aput (aput nodes nid
            { nn with connections := nn.connections.set lc (sinsert theId (connAt nn lc)) })
            theId
            { node with connections := node.connections.set lc (sinsert nid (connAt node lc)) })
            theId = some
            { node with connections := node.connections.set lc (sinsert nid (connAt node lc)) } :=
          aget_aput_self _ _ _
        have hm2B_nid : aget (aput (aput nodes nid
            { nn with connections := nn.connections.set lc (sinsert theId (connAt nn lc)) })
            theId
            { node with connections := node.connections.set lc (sinsert nid (connAt node lc)) })
            nid = some
            { nn with connections := nn.connections.set lc (sinsert theId (connAt nn lc)) } := by
          rw [aget_aput_ne _ _ hnidT, aget_aput_self]
        have hm2B_other : ∀ j, j ≠ theId → j ≠ nid → aget (aput (aput nodes nid
            { nn with connections := nn.connections.set lc (sinsert theId (connAt nn lc)) })
            theId
            { node with connections := node.connections.set lc (sinsert nid (connAt node lc)) })
            j = aget (aput nodes theId node) j := by
          intro j h1 h2
          rw [aget_aput_ne _ _ h1, aget_aput_ne _ _ h2, aget_aput_ne _ _ h1]
        have hgrow : ConnGrows (aput nodes theId node) (aput (aput nodes nid
            { nn with connections := nn.connections.set lc (sinsert theId (connAt nn lc)) })
            theId
            { node with connections := node.connections.set lc (sinsert nid (connAt node lc)) }) := by
          intro i n hi
          by_cases hiT : i = theId
          · subst hiT
            rw [hm2_theId] at hi
            injection hi with he
            subst he
            refine ⟨_, hm2B_theId, ?_⟩
            intro l
            by_cases hl : l = lc
            · subst hl
              rw [hconnB_lc]
              exact subset_sinsert _ _
            · rw [hconnB_ne l hl]
              exact fun y hy => hy
          · by_cases hiN : i = nid
            · subst hiN
              rw [hm2_nid] at hi
              injection hi with he
              subst he
              refine ⟨_, hm2B_nid, ?_⟩
              intro l
              by_cases hl : l = lc
              · subst hl
                rw [hconnN_lc]
                exact subset_sinsert _ _
              · rw [hconnN_ne l hl]
                exact fun y hy => hy
            · refine ⟨n, ?_, fun l => fun y hy => hy⟩
              rw [hm2B_other i hiT hiN]
              exact hi
        have hpB : Paired (aput (aput nodes nid
            { nn with connections := nn.connections.set lc (sinsert theId (connAt nn lc)) })
            theId
            { node with connections := node.connections.set lc (sinsert nid (connAt node lc)) }) := by
          intro i n l j hget hj
          by_cases hiT : i = theId
          · subst hiT
            rw [hm2B_theId] at hget
            injection hget with he
            subst he
            by_cases hl : l = lc
            · subst hl
              rw [hconnB_lc] at hj
              rcases (mem_sinsert_iff _ _ _).mp hj with hj | hj
              · subst hj
                refine ⟨hnidT, _, hm2B_nid, ?_⟩
                rw [hconnN_lc]
                exact mem_sinsert_self _ _
              · obtain ⟨hne, m, hm, hmm⟩ := hp _ node _ j hm2_theId hj
                exact ⟨hne, connGrows_target hgrow ⟨m, hm, hmm⟩⟩
            · rw [hconnB_ne l hl] at hj
              obtain ⟨hne, m, hm, hmm⟩ := hp _ node l j hm2_theId hj
              exact ⟨hne, connGrows_target hgrow ⟨m, hm, hmm⟩⟩
          · by_cases hiN : i = nid
            · subst hiN
              rw [hm2B_nid] at hget
              injection hget with he
              subst he
              by_cases hl : l = lc
              · subst hl
                rw [hconnN_lc] at hj
                rcases (mem_sinsert_iff _ _ _).mp hj with hj | hj
                · subst hj
                  refine ⟨hTnid, _, hm2B_theId, ?_⟩
                  rw [hconnB_lc]
                  exact mem_sinsert_self _ _
                · obtain ⟨hne, m, hm, hmm⟩ := hp _ nn _ j hm2_nid hj
                  exact ⟨hne, connGrows_target hgrow ⟨m, hm, hmm⟩⟩
              · rw [hconnN_ne l hl] at hj
                obtain ⟨hne, m, hm, hmm⟩ := hp _ nn l j hm2_nid hj
                exact ⟨hne, connGrows_target hgrow ⟨m, hm, hmm⟩⟩
            · rw [hm2B_other i hiT hiN] at hget
              obtain ⟨hne, m, hm, hmm⟩ := hp i n l j hget hj
              exact ⟨hne, connGrows_target hgrow ⟨m, hm, hmm⟩⟩
        have hndB : ConnNodup (aput (aput nodes nid
            { nn with connections := nn.connections.set lc (sinsert theId (connAt nn lc)) })
            theId
            { node with connections := node.connections.set lc (sinsert nid (connAt node lc)) }) := by
          intro i n l hget
          by_cases hiT : i = theId
          · subst hiT
            rw [hm2B_theId] at hget
            injection hget with he
            subst he
            by_cases hl : l = lc
            · subst hl
              rw [hconnB_lc]
              exact sinsert_nodup _ _ (hnd _ node _ hm2_theId)
            · rw [hconnB_ne l hl]
              exact hnd _ node l hm2_theId
          · by_cases hiN : i = nid
            · subst hiN
              rw [hm2B_nid] at hget
              injection hget with he
              subst he
              by_cases hl : l = lc
              · subst hl
                rw [hconnN_lc]
                exact sinsert_nodup _ _ (hnd _ nn _ hm2_nid)
              · rw [hconnN_ne l hl]
                exact hnd _ nn l hm2_nid
            · rw [hm2B_other i hiT hiN] at hget
              exact hnd i n l hget
        have hfreshB : aget (aput nodes nid
            { nn with connections := nn.connections.set lc (sinsert theId (connAt nn lc)) })
            theId = none := by
          rw [aget_aput_ne _ _ hTnid]
          exact hfresh
        have hvecB : ∀ x ∈ rest, (aget (aput nodes nid
            { nn with connections := nn.connections.set lc (sinsert theId (connAt nn lc)) })
            x).isSome := by
          intro x hx
          by_cases hxn : x = nid
          · subst hxn
            rw [aget_aput_self]
            rfl
          · rw [aget_aput_ne _ _ hxn]
            exact hvec x (List.mem_cons_of_mem _ hx)
        have hlcB : lc <
            ({ node with connections := node.connections.set lc (sinsert nid (connAt node lc)) }
              : HnswNode).connections.length := by
          show lc < (node.connections.set lc (sinsert nid (connAt node lc))).length
          rw [List.length_set]
          exact hlc
        obtain ⟨c1, c2, c3, c4, c5, c6, c7⟩ :=
          ih _ _ nodes2 node2 h hfreshB hvecB hlcB hpB hndB
        refine ⟨c1, ?_, ?_, ?_, ?_, c6, c7⟩
        · rw [c2]
          exact aput_length_of_some nodes nid _ nn hn
        · rw [c3]
          exact List.length_set _ _ _
        · intro j
          rw [c4 j]
          by_cases hj : j = nid
          · subst hj
            rw [aget_aput_self, hn]
            exact Iff.rfl
          · rw [aget_aput_ne _ _ hj]
        · intro l hl j n2 hj2
          obtain ⟨nmid, hmid, heq⟩ := c5 l hl j n2 hj2
          by_cases hj : j = nid
          · subst hj
            rw [aget_aput_self] at hmid
            injection hmid with he
            subst he
            exact ⟨nn, hn, heq.trans (hconnN_ne l hl)⟩
          · rw [aget_aput_ne _ _ hj] at hmid
            exact ⟨nmid, hmid, heq⟩
      · rw [if_neg hg] at h
        exact absurd h (by simp)

/-- One insertion layer preserves the symmetry invariant when the map is small
enough that no prune fires: the candidate beam stays inside the present nodes,
the chosen neighbors are linked both ways, and every touched neighbor stays
within the cap. -/
theorem insLayer_sym (fo : FloatOracle R) (metric : DistanceMetric)
    (cfg : HnswConfig) (vectors : List (Id × VectorEntry R)) (theId : Id)
    (lc : Nat) (nodes : List (Id × HnswNode)) (node : HnswNode)
    (nearest : List Id) (st2 : List (Id × HnswNode) × HnswNode × List Id)
    (h : insLayer fo metric cfg vectors theId (nodes, node, nearest) lc = .ok st2)
    (hfresh : aget nodes theId = none)
    (hlc : lc < node.connections.length)
    (hp : Paired (aput nodes theId node))
    (hnd : ConnNodup (aput nodes theId node))
    (hnear : ∀ x ∈ nearest, (aget nodes x).isSome)
    (hnonew : ∀ i n, aget nodes i = some n → theId ∉ connAt n lc)
    (hcap : nodes.length ≤ cfg.max_connections)
    (hMM : cfg.max_connections ≤ cfg.max_connections_layer0) :
    aget st2.1 theId = none ∧
    st2.1.length = nodes.length ∧
    st2.2.1.connections.length = node.connections.length ∧
    (∀ j, (aget st2.1 j).isSome ↔ (aget nodes j).isSome) ∧
    (∀ l, l ≠ lc → ∀ j n2, aget st2.1 j = some n2 →
      ∃ n1, aget nodes j = some n1 ∧ connAt n2 l = connAt n1 l) ∧
    Paired (aput st2.1 theId st2.2.1) ∧
    ConnNodup (aput st2.1 theId st2.2.1) ∧
    (∀ x ∈ st2.2.2, (aget st2.1 x).isSome) := by
  unfold insLayer at h
  simp only [] at h
  cases hsl : searchLayer fo metric nodes vectors theId nearest cfg.ef_construction lc with
  | error e => rw [hsl] at h; simp at h
  | ok cands =>
    rw [hsl] at h
    simp only [] at h
    cases hsel : selectNeighbors fo metric vectors theId cands
        (if lc = 0 then cfg.max_connections_layer0 else cfg.max_connections) with
    | error e => rw [hsel] at h; simp at h
    | ok nbrs =>
      rw [hsel] at h
      simp only [] at h
      cases hadd : addLinks theId lc nbrs (nodes, node) with
      | error e => rw [hadd] at h; simp at h
      | ok pr =>
        obtain ⟨nodesA, nodeA⟩ := pr
        rw [hadd] at h
        simp only [] at h
        cases hpr : pruneLoop fo metric vectors lc
            (if lc = 0 then cfg.max_connections_layer0 else cfg.max_connections)
            nbrs nodesA with
        | error e => rw [hpr] at h; simp at h
        | ok nodes3 =>
          rw [hpr] at h
          simp at h
          subst h
          have hcands : ∀ x ∈ cands, (aget nodes x).isSome := by
            unfold searchLayer at hsl
            cases hq : aget vectors theId with
            | none => rw [hq] at hsl; simp at hsl
            | some qe =>
              rw [hq] at hsl
              simp only [] at hsl
              injection hsl with he
              subst he
              intro x hx
              rcases slwq_origin fo metric nodes vectors qe.vector nearest
                  cfg.ef_construction lc x hx with hor | ⟨i, nI, hni, hxc⟩
              · exact hnear x hor
              · have hxT : x ≠ theId := fun hc => (hnonew i nI hni) (hc ▸ hxc)
                have hiT : i ≠ theId := by
                  intro hc
                  rw [hc, hfresh] at hni
                  exact absurd hni (by simp)
                have hm2i : aget (aput nodes theId node) i = some nI := by
                  rw [aget_aput_ne _ _ hiT]
                  exact hni
                obtain ⟨_, m, hm, _⟩ := hp i nI lc x hm2i hxc
                rw [aget_aput_ne _ _ hxT] at hm
                rw [hm]
                rfl
          have hnbrv : ∀ x ∈ nbrs, (aget nodes x).isSome := fun x hx =>
            hcands x (selectNeighbors_subset fo metric vectors theId cands _ nbrs hsel x hx)
          obtain ⟨c1, c2, c3, c4, c5, c6, c7⟩ :=
            addLinks_sym theId lc nbrs nodes node nodesA nodeA hadd hfresh hnbrv hlc hp hnd
          have hb : ∀ nid ∈ nbrs, ∀ nn, aget nodesA nid = some nn →
              (connAt nn lc).length ≤
                (if lc = 0 then cfg.max_connections_layer0 else cfg.max_connections) := by
            intro nid hnid nn hget
            have hnidT : nid ≠ theId := by
              intro hc
              have hs := hnbrv nid hnid
              rw [hc, hfresh] at hs
              exact absurd hs (by simp)
            have hm2 : aget (aput nodesA theId nodeA) nid = some nn := by
              rw [aget_aput_ne _ _ hnidT]
              exact hget
            have hdeg := paired_degree (aput nodesA theId nodeA) nid nn lc c6 c7 hm2
            have hlen : (aput nodesA theId nodeA).length = nodesA.length + 1 :=
              aput_length_of_none _ _ _ c1
            rw [hlen] at hdeg
            have hm' : cfg.max_connections ≤
                (if lc = 0 then cfg.max_connections_layer0 else cfg.max_connections) := by
              by_cases h0 : lc = 0
              · rw [if_pos h0]
                exact hMM
              · rw [if_neg h0]
            omega
          have hnoop := pruneLoop_noop fo metric vectors lc _ nbrs nodesA nodes3 hpr hb
          subst hnoop
          exact ⟨c1, c2, c3, c4, c5, c6, c7,
            fun x hx => (c4 x).mpr (hcands x hx)⟩

/-- The layer loop of insert preserves the symmetry invariant on the virtual
map, layer by layer, as long as the map stays within the connection cap. -/
theorem layerLoop_sym (fo : FloatOracle R) (metric : DistanceMetric)
    (cfg : HnswConfig) (vectors : List (Id × VectorEntry R)) (theId : Id)
    (hMM : cfg.max_connections ≤ cfg.max_connections_layer0) :
    ∀ (layers : List Nat) (nodes : List (Id × HnswNode)) (node : HnswNode)
      (nearest : List Id) (out : List (Id × HnswNode) × HnswNode × List Id),
      layerLoop fo metric cfg vectors theId layers (nodes, node, nearest) = .ok out →
      layers.Nodup →
      (∀ lc ∈ layers, lc < node.connections.length) →
      aget nodes theId = none →
      Paired (aput nodes theId node) →
      ConnNodup (aput nodes theId node) →
      (∀ x ∈ nearest, (aget nodes x).isSome) →
      (∀ lc ∈ layers, ∀ i n, aget nodes i = some n → theId ∉ connAt n lc) →
      nodes.length ≤ cfg.max_connections →
      aget out.1 theId = none ∧
      out.1.length = nodes.length ∧
      Paired (aput out.1 theId out.2.1) ∧
      ConnNodup (aput out.1 theId out.2.1) ∧
      (∀ j, (aget out.1 j).isSome ↔ (aget nodes j).isSome) := by
  intro layers
  induction layers with
  | nil =>
    intro nodes node nearest out h _ _ hfresh hp hnd _ _ _
    simp only [layerLoop] at h
    injection h with he
    subst he
    exact ⟨hfresh, rfl, hp, hnd, fun j => Iff.rfl⟩
  | cons lc rest ih =>
    intro nodes node nearest out h hnodup hlayer hfresh hp hnd hnear hnonew hcap
    simp only [layerLoop] at h
    cases hil : insLayer fo metric cfg vectors theId (nodes, node, nearest) lc with
    | error e => rw [hil] at h; simp at h
    | ok st2 =>
      rw [hil] at h
      simp only [] at h
      obtain ⟨d1, d2, d3, d4, d5, d6, d7, d8⟩ :=
        insLayer_sym fo metric cfg vectors theId lc nodes node nearest st2 hil
          hfresh (hlayer lc (List.mem_cons_self _ _)) hp hnd hnear
          (hnonew lc (List.mem_cons_self _ _)) hcap hMM
      obtain ⟨nodesA, nodeA, candsA⟩ := st2
      have hrestnodup := List.nodup_cons.mp hnodup
      obtain ⟨e1, e2, e3, e4, e5⟩ := ih nodesA nodeA candsA out h hrestnodup.2
        (by intro l hl
            have hd3 : nodeA.connections.length = node.connections.length := d3
            rw [hd3]
            exact hlayer l (List.mem_cons_of_mem _ hl))
        d1 d6 d7 d8
        (by intro l hl i n hni
            have hlne : l ≠ lc := fun hc => hrestnodup.1 (hc ▸ hl)
            obtain ⟨n1, hn1, heq⟩ := d5 l hlne i n hni
            rw [heq]
            exact hnonew l (List.mem_cons_of_mem _ hl) i n1 hn1)
        (by have hd2 : nodesA.length = nodes.length := d2
            rw [hd2]
            exact hcap)
      refine ⟨e1, ?_, e3, e4, ?_⟩
      · rw [e2]
        exact d2
      · intro j
        rw [e5 j]
        exact d4 j

/-- The greedy descent of insert stays inside the present nodes when the map
is closed under its own connection lists. -/
theorem descendLoop_closed (fo : FloatOracle R) (metric : DistanceMetric)
    (nodes : List (Id × HnswNode)) (vectors : List (Id × VectorEntry R))
    (theId : Id)
    (hclosed : ∀ i n l j, aget nodes i = some n → j ∈ connAt n l →
      (aget nodes j).isSome) :
    ∀ (layers : List Nat) (nearest out : List Id),
      descendLoop fo metric nodes vectors theId layers nearest = .ok out →
      (∀ x ∈ nearest, (aget nodes x).isSome) →
      ∀ x ∈ out, (aget nodes x).isSome := by
  intro layers
  induction layers with
  | nil =>
    intro nearest out h hn
    simp only [descendLoop] at h
    injection h with he
    subst he
    exact hn
  | cons lc rest ih =>
    intro nearest out h hn
    simp only [descendLoop] at h
    cases hsl : searchLayer fo metric nodes vectors theId nearest 1 lc with
    | error e => rw [hsl] at h; simp at h
    | ok nearest2 =>
      rw [hsl] at h
      simp only [] at h
      refine ih nearest2 out h ?_
      unfold searchLayer at hsl
      cases hq : aget vectors theId with
      | none => rw [hq] at hsl; simp at hsl
      | some qe =>
        rw [hq] at hsl
        simp only [] at hsl
        injection hsl with he
        subst he
        intro x hx
        rcases slwq_origin fo metric nodes vectors qe.vector nearest 1 lc x hx with
          hor | ⟨i, nI, hni, hxc⟩
        · exact hn x hor
        · exact hclosed i nI lc x hni hxc

/-- One completed insert of a fresh id into a paired map below the connection
cap keeps the map paired, adds exactly one node, and leaves the presence of
every other id unchanged. -/
theorem insert_sym (fo : FloatOracle R) (idx : HnswIndex R) (theId : Id)
    (v : List R) (meta : Option Meta) (lvl : Nat) (idx2 : HnswIndex R)
    (h : Faas.insert fo idx theId v meta lvl = .ok idx2)
    (hfresh : aget idx.nodes theId = none)
    (hp : Paired idx.nodes)
    (hnd : ConnNodup idx.nodes)
    (hcap : idx.nodes.length ≤ idx.config.max_connections)
    (hMM : idx.config.max_connections ≤ idx.config.max_connections_layer0) :
    Paired idx2.nodes ∧ ConnNodup idx2.nodes ∧
    idx2.nodes.length = idx.nodes.length + 1 ∧
    idx2.config = idx.config ∧
    (∀ j, j ≠ theId → ((aget idx2.nodes j).isSome ↔ (aget idx.nodes j).isSome)) := by
  unfold Faas.insert at h
  by_cases hdim : v.length ≠ idx.dimension
  · simp [hdim] at h
  · simp only [hdim, if_false] at h
    cases hep : idx.entry_point with
    | none =>
      rw [hep] at h
      simp at h
      subst h
      refine ⟨?_, ?_, ?_, rfl, ?_⟩
      · exact paired_aput_fresh idx.nodes theId _ hfresh
          (fun l => connAt_mkNew theId _ l) hp
      · refine connNodup_aput idx.nodes theId _ ?_ hnd
        intro l
        rw [connAt_mkNew]
        exact List.nodup_nil
      · exact aput_length_of_none _ _ _ hfresh
      · intro j hj
        rw [aget_aput_ne _ _ hj]
    | some ep =>
      rw [hep] at h
      simp only [] at h
      cases hnode : aget idx.nodes ep with
      | none => rw [hnode] at h; simp at h
      | some epNode =>
        rw [hnode] at h
        simp only [] at h
        cases hdl : descendLoop fo idx.metric idx.nodes
            (aput idx.vectors theId
              ⟨theId, if idx.metric = .Cosine then fo.normalizeK v else v, meta, false⟩)
            theId (revRange (min lvl 10 + 1) epNode.level) [ep] with
        | error e => rw [hdl] at h; simp at h
        | ok nearest =>
          rw [hdl] at h
          simp only [] at h
          cases hll : layerLoop fo idx.metric idx.config
              (aput idx.vectors theId
                ⟨theId, if idx.metric = .Cosine then fo.normalizeK v else v, meta, false⟩)
              theId (revRange 0 (min lvl 10))
              (idx.nodes, HnswNode.mkNew theId (min lvl 10), nearest) with
          | error e => rw [hll] at h; simp at h
          | ok st =>
            obtain ⟨nodesL, nodeL, candsL⟩ := st
            rw [hll] at h
            simp at h
            subst h
            have hclosed : ∀ i n l j, aget idx.nodes i = some n → j ∈ connAt n l →
                (aget idx.nodes j).isSome := by
              intro i n l j hi hj
              obtain ⟨_, m, hm, _⟩ := hp i n l j hi hj
              rw [hm]
              rfl
            have hnear : ∀ x ∈ nearest, (aget idx.nodes x).isSome :=
              descendLoop_closed fo idx.metric idx.nodes _ theId hclosed
                (revRange (min lvl 10 + 1) epNode.level) [ep] nearest hdl
                (by intro x hx
                    simp at hx
                    subst hx
                    rw [hnode]
                    rfl)
            have hnonew : ∀ lc ∈ revRange 0 (min lvl 10), ∀ i n,
                aget idx.nodes i = some n → theId ∉ connAt n lc := by
              intro lc _ i n hi hmem
              obtain ⟨_, m, hm, _⟩ := hp i n lc theId hi hmem
              rw [hfresh] at hm
              exact absurd hm (by simp)
            have hlayer : ∀ lc ∈ revRange 0 (min lvl 10),
                lc < (HnswNode.mkNew theId (min lvl 10)).connections.length := by
              intro lc hlc
              unfold revRange at hlc
              rw [List.mem_reverse] at hlc
              have hb := List.mem_range'_1.mp hlc
              show lc < (List.replicate (min lvl 10 + 1) ([] : List Id)).length
              rw [List.length_replicate]
              omega
            obtain ⟨e1, e2, e3, e4, e5⟩ := layerLoop_sym fo idx.metric idx.config
              (aput idx.vectors theId
                ⟨theId, if idx.metric = .Cosine then fo.normalizeK v else v, meta, false⟩)
              theId hMM (revRange 0 (min lvl 10)) idx.nodes
              (HnswNode.mkNew theId (min lvl 10)) nearest (nodesL, nodeL, candsL) hll
              (revRange_nodup 0 (min lvl 10)) hlayer hfresh
              (paired_aput_fresh idx.nodes theId _ hfresh
                (fun l => connAt_mkNew theId _ l) hp)
              (connNodup_aput idx.nodes theId _
                (fun l => by rw [connAt_mkNew]; exact List.nodup_nil) hnd)
              hnear hnonew hcap
            refine ⟨e3, e4, ?_, rfl, ?_⟩
            · show (aput nodesL theId nodeL).length = idx.nodes.length + 1
              rw [aput_length_of_none _ _ _ e1]
              rw [e2]
            · intro j hj
              show (aget (aput nodesL theId nodeL) j).isSome ↔ _
              rw [aget_aput_ne _ _ hj]
              exact e5 j

/-- A run of completed inserts with pairwise-distinct fresh ids whose total
count stays within max_connections + 1 keeps the node map paired: no prune
ever fires, so every link stays bidirectional. -/
theorem insertMany_sym (fo : FloatOracle R) :
    ∀ (items : List (Id × List R × Option Meta × Nat)) (idx idx2 : HnswIndex R),
      insertMany fo idx items = .ok idx2 →
      Paired idx.nodes →
      ConnNodup idx.nodes →
      (∀ p ∈ items, aget idx.nodes p.1 = none) →
      (items.map (fun p => p.1)).Nodup →
      idx.nodes.length + items.length ≤ idx.config.max_connections + 1 →
      idx.config.max_connections ≤ idx.config.max_connections_layer0 →
      Paired idx2.nodes := by
  intro items
  induction items with
  | nil =>
    intro idx idx2 h hp _ _ _ _ _
    simp [insertMany] at h
    subst h
    exact hp
  | cons it rest ih =>
    intro idx idx2 h hp hnd hfresh hnodup hcount hMM
    obtain ⟨i, v, m, lvl⟩ := it
    simp only [insertMany] at h
    cases hi : Faas.insert fo idx i v m lvl with
    | error e => rw [hi] at h; simp at h
    | ok idxm =>
      rw [hi] at h
      simp only [] at h
      have hfr : aget idx.nodes i = none :=
        hfresh (i, v, m, lvl) (List.mem_cons_self _ _)
      obtain ⟨f1, f2, f3, f4, f5⟩ := insert_sym fo idx i v m lvl idxm hi hfr hp hnd
        (by simp only [List.length_cons] at hcount; omega) hMM
      have hnodup2 : i ∉ rest.map (fun p => p.1) ∧ (rest.map (fun p => p.1)).Nodup := by
        simp only [List.map_cons, List.nodup_cons] at hnodup
        exact hnodup
      refine ih idxm idx2 h f1 f2 ?_ hnodup2.2 ?_ ?_
      · intro p hpmem
        have hne : p.1 ≠ i := by
          intro hc
          exact hnodup2.1 (hc ▸ (List.mem_map_of_mem (fun q => q.1) hpmem))
        have hold := hfresh p (List.mem_cons_of_mem _ hpmem)
        have hiff := f5 p.1 hne
        rw [hold] at hiff
        simp at hiff
        exact hiff
      · rw [f4, f3]
        simp only [List.length_cons] at hcount
        omega
      · rw [f4]
        exact hMM

/-- Concrete one-vector index used by witnesses: dimension 1, DotProduct,
default config, a single active entry with id a and vector [5]. -/
def idxA : HnswIndex ℤ :=
  ⟨HnswConfig.default, .DotProduct, 1, some "a",
   [("a", ⟨"a", 0, [[]]⟩)], [("a", ⟨"a", [5], none, false⟩)]⟩

theorem idxA_wfIds : WfIds idxA := by
  intro i e h
  by_cases hi : i = "a"
  · subst hi
    simp [idxA, aget] at h
    rw [← h]
  · simp [idxA, aget, hi] at h

/-- Build script of the two-insert witness run: distinct ids, both at level 0,
config M = 1, M0 = 2. -/
def scriptW : List (Id × List ℤ × Option Meta × Nat) :=
  [("a", [1, 0], none, 0), ("b", [0, 1], none, 0)]

/-- Index produced by the two-insert witness run (checked by decide below). -/
def idxW : HnswIndex ℤ :=
  ⟨⟨1, 2, 10, 10⟩, .DotProduct, 2, some "a",
   [("a", ⟨"a", 0, [["b"]]⟩), ("b", ⟨"b", 0, [["a"]]⟩)],
   [("a", ⟨"a", [1, 0], none, false⟩), ("b", ⟨"b", [0, 1], none, false⟩)]⟩

end Faas

open Faas in
/-- C3: for an index built from empty by completed insertions with distinct
ids, every node satisfies the connection caps at every layer: at most
max_connections at layers above 0 and at most max_connections_layer0 = 2 M at
layer 0. -/
theorem C3_connection_caps {R : Type} [LinearOrderedRing R]
    (fo : FloatOracle R) (dim : Nat) (metric : DistanceMetric)
    (cfg : HnswConfig) (items : List (Id × List R × Option Meta × Nat))
    (idx : HnswIndex R)
    (hdistinct : (items.map (fun it => it.1)).Nodup)
    (hm0 : cfg.max_connections_layer0 = 2 * cfg.max_connections)
    (hok : insertMany fo (HnswIndex.withConfig R dim metric cfg) items = .ok idx) :
    ∀ i n, aget idx.nodes i = some n →
      (∀ l, 1 ≤ l → (connAt n l).length ≤ cfg.max_connections) ∧
      (connAt n 0).length ≤ 2 * cfg.max_connections := by
  have hinit : CapOk (HnswIndex.withConfig R dim metric cfg).config
      (HnswIndex.withConfig R dim metric cfg).nodes := by
    intro i n l h
    simp [HnswIndex.withConfig, aget] at h
  obtain ⟨_, hcap⟩ := insertMany_caps fo items _ idx hinit hok
  intro i n hn
  constructor
  · intro l hl
    have := hcap i n l hn
    unfold capAt at this
    rw [if_neg (by omega)] at this
    simpa [HnswIndex.withConfig] using this
  · have := hcap i n 0 hn
    unfold capAt at this
    rw [if_pos rfl] at this
    simp only [HnswIndex.withConfig] at this
    rw [hm0] at this
    exact this

open Faas in
/-- Witness for C3 on the two-insert run with M = 1, M0 = 2. -/
theorem C3_connection_caps_witness :
    ((scriptW.map (fun it => it.1)).Nodup ∧
      (⟨1, 2, 10, 10⟩ : HnswConfig).max_connections_layer0 =
        2 * (⟨1, 2, 10, 10⟩ : HnswConfig).max_connections ∧
      insertMany (dotOracle ℤ) (HnswIndex.withConfig ℤ 2 .DotProduct ⟨1, 2, 10, 10⟩)
        scriptW = .ok idxW) ∧
    ∀ i n, aget idxW.nodes i = some n →
      (∀ l, 1 ≤ l → (connAt n l).length ≤ (⟨1, 2, 10, 10⟩ : HnswConfig).max_connections) ∧
      (connAt n 0).length ≤ 2 * (⟨1, 2, 10, 10⟩ : HnswConfig).max_connections :=
  ⟨⟨by decide, by decide, by decide⟩,
   C3_connection_caps (dotOracle ℤ) 2 .DotProduct ⟨1, 2, 10, 10⟩ scriptW idxW
     (by decide) (by decide) (by decide)⟩

open Faas in
/-- C4: for every index (with well-keyed entries), every query of the index
dimension and every k at least 1, a successful search returns at most k
results, sorted ascending by distance, none of which names a soft-deleted
entry. -/
theorem C4_search_sorted_bounded_filtered {R : Type} [LinearOrderedRing R]
    (fo : FloatOracle R) (idx : HnswIndex R)
    (query : List R) (k : Nat) (rs : List (SearchResult R))
    (hdim : query.length = idx.dimension) (hk : 1 ≤ k) (hids : WfIds idx)
    (hok : search fo idx query k = .ok rs) :
    rs.length ≤ k ∧
    List.Pairwise (fun a b => a.distance ≤ b.distance) rs ∧
    ∀ r ∈ rs, ∀ e, aget idx.vectors r.id = some e → e.deleted = false := by
  rcases search_ok_cases fo idx query k rs hok with hrs | ⟨ep, epn, hep, hnode, hrs⟩
  · subst hrs
    simp
  · have hk0 : 0 < k := hk
    subst hrs
    simp only [if_pos hk0]
    refine ⟨List.length_take_le _ _, ?_, ?_⟩
    · have hcands := searchCandidates_sorted fo idx (normQuery fo idx query) k ep epn.level
      have hfm : List.Pairwise (fun a b : SearchResult R => a.distance ≤ b.distance)
          (List.filterMap (resultOf fo idx.metric idx.vectors (normQuery fo idx query))
            (searchCandidates fo idx (normQuery fo idx query) k ep epn.level)) := by
        rw [List.pairwise_filterMap]
        refine hcands.imp ?_
        intro a b hab r hr r2 hr2
        rw [resultOf_distance fo idx.metric idx.vectors (normQuery fo idx query) a r hr,
          resultOf_distance fo idx.metric idx.vectors (normQuery fo idx query) b r2 hr2]
        exact hab
      exact List.Pairwise.sublist (List.take_sublist _ _) hfm
    · intro r hr
      have hr2 := (List.take_sublist _ _).subset hr
      obtain ⟨e, he, hdel⟩ := mem_filterMap_resultOf_key fo idx.metric idx.vectors
        (normQuery fo idx query) _ r hids hr2
      intro e2 he2
      rw [he] at he2
      injection he2 with h
      rw [← h]
      exact hdel

open Faas in
/-- Witness for C4 on a concrete one-vector index with query [3] and k = 2. -/
theorem C4_search_sorted_bounded_filtered_witness :
    (List.length [(3 : ℤ)] = idxA.dimension ∧ 1 ≤ 2 ∧
      search (dotOracle ℤ) idxA [3] 2 = .ok [⟨"a", -15, none⟩]) ∧
    ([⟨"a", -15, none⟩] : List (SearchResult ℤ)).length ≤ 2 ∧
    List.Pairwise (fun a b : SearchResult ℤ => a.distance ≤ b.distance)
      [⟨"a", -15, none⟩] ∧
    ∀ r ∈ ([⟨"a", -15, none⟩] : List (SearchResult ℤ)), ∀ e,
      aget idxA.vectors r.id = some e → e.deleted = false :=
  ⟨⟨by decide, by decide, by decide⟩,
   C4_search_sorted_bounded_filtered (dotOracle ℤ) idxA [3] 2 [⟨"a", -15, none⟩]
     (by decide) (by decide) idxA_wfIds (by decide)⟩

open Faas in
/-- C7: after a successful soft_delete of an id, get returns None for that id,
the id never appears in any successful search result, and get of an id that was
never inserted is None. -/
theorem C7_soft_delete_removes {R : Type} [LinearOrderedRing R]
    (fo : FloatOracle R) (idx : HnswIndex R)
    (theId : Id) (idx2 : HnswIndex R) (b : Bool) (hids : WfIds idx)
    (hdel : softDelete idx theId = .ok (idx2, b)) :
    Faas.get idx2 theId = none ∧
    (∀ query k rs, query.length = idx2.dimension →
      search fo idx2 query k = .ok rs → ∀ r ∈ rs, r.id ≠ theId) ∧
    (∀ j, aget idx.vectors j = none → Faas.get idx j = none) := by
  obtain ⟨⟨e2, he2, hdel2⟩, _, _⟩ := softDelete_ok_spec idx theId idx2 b hdel
  have hids2 : WfIds idx2 := softDelete_preserves_WfIds idx theId idx2 b hids hdel
  refine ⟨?_, ?_, ?_⟩
  · unfold Faas.get
    rw [he2]
    simp [hdel2]
  · intro query k rs _ hok r hr hrid
    rcases search_ok_cases fo idx2 query k rs hok with hrs | ⟨ep, epn, _, _, hrs⟩
    · subst hrs
      simp at hr
    · subst hrs
      have hr2 := (List.take_sublist _ _).subset hr
      obtain ⟨e, he, hdelf⟩ := mem_filterMap_resultOf_key fo idx2.metric idx2.vectors
        (normQuery fo idx2 query) _ r hids2 hr2
      rw [hrid, he2] at he
      injection he with h
      rw [← h] at hdelf
      rw [hdel2] at hdelf
      exact absurd hdelf (by decide)
  · intro j hj
    unfold Faas.get
    rw [hj]

open Faas in
/-- Witness for C7 on a concrete one-vector index. -/
theorem C7_soft_delete_removes_witness :
    (WfIds idxA ∧
      softDelete idxA "a" =
        .ok (⟨HnswConfig.default, .DotProduct, 1, some "a",
              [("a", ⟨"a", 0, [[]]⟩)], [("a", ⟨"a", [5], none, true⟩)]⟩, true)) ∧
    (Faas.get (⟨HnswConfig.default, .DotProduct, 1, some "a",
            [("a", ⟨"a", 0, [[]]⟩)], [("a", ⟨"a", [5], none, true⟩)]⟩ : HnswIndex ℤ) "a" = none ∧
     (∀ query k rs, query.length = 1 →
        search (dotOracle ℤ) (⟨HnswConfig.default, .DotProduct, 1, some "a",
          [("a", ⟨"a", 0, [[]]⟩)], [("a", ⟨"a", [5], none, true⟩)]⟩ : HnswIndex ℤ) query k = .ok rs →
        ∀ r ∈ rs, r.id ≠ "a") ∧
     (∀ j, aget idxA.vectors j = none → Faas.get idxA j = none)) :=
  ⟨⟨idxA_wfIds, by decide⟩,
   C7_soft_delete_removes (dotOracle ℤ) idxA "a"
     ⟨HnswConfig.default, .DotProduct, 1, some "a",
      [("a", ⟨"a", 0, [[]]⟩)], [("a", ⟨"a", [5], none, true⟩)]⟩ true
     idxA_wfIds (by decide)⟩

open Faas in
/-- C8: search reports an error exactly when the query length differs from the
index dimension (given a well-formed entry point), and a dimension-matching
search on an empty index returns Ok with the empty list. -/
theorem C8_search_error_iff_dimension {R : Type} [LinearOrderedRing R]
    (fo : FloatOracle R) (idx : HnswIndex R)
    (query : List R) (k : Nat) (hwf : WfSearch idx) :
    ((∃ err, search fo idx query k = .error err) ↔ query.length ≠ idx.dimension) ∧
    (query.length = idx.dimension → idx.entry_point = none →
      search fo idx query k = .ok []) := by
  constructor
  · constructor
    · rintro ⟨err, herr⟩
      intro hdim
      unfold search at herr
      simp only [hdim, ne_eq, not_true_eq_false, if_false] at herr
      cases hep : idx.entry_point with
      | none => rw [hep] at herr; simp at herr
      | some ep =>
        rw [hep] at herr
        have := hwf ep hep
        cases hnode : aget idx.nodes ep with
        | none => rw [hnode] at this; simp at this
        | some epn =>
          simp only [] at herr
          rw [hnode] at herr
          simp at herr
    · intro hdim
      refine ⟨.dimMismatch, ?_⟩
      unfold search
      simp [hdim]
  · intro hdim hep
    unfold search
    simp only [hdim, ne_eq, not_true_eq_false, if_false, hep]

open Faas in
/-- Witness for C8 on a concrete empty index (and entry-point soundness). -/
theorem C8_search_error_iff_dimension_witness :
    WfSearch (HnswIndex.withConfig ℤ 3 .DotProduct HnswConfig.default) ∧
    (((∃ err, search (dotOracle ℤ) (HnswIndex.withConfig ℤ 3 .DotProduct HnswConfig.default)
        [1, 2, 3] 5 = .error err) ↔
        List.length [(1 : ℤ), 2, 3] ≠ (HnswIndex.withConfig ℤ 3 .DotProduct HnswConfig.default).dimension) ∧
      (List.length [(1 : ℤ), 2, 3] = (HnswIndex.withConfig ℤ 3 .DotProduct HnswConfig.default).dimension →
        (HnswIndex.withConfig ℤ 3 .DotProduct HnswConfig.default).entry_point = none →
        search (dotOracle ℤ) (HnswIndex.withConfig ℤ 3 .DotProduct HnswConfig.default) [1, 2, 3] 5 = .ok [])) :=
  ⟨by intro e h; simp [HnswIndex.withConfig] at h,
   C8_search_error_iff_dimension (dotOracle ℤ) _ [1, 2, 3] 5
     (by intro e h; simp [HnswIndex.withConfig] at h)⟩

open Faas in
/-- C9: soft_delete of a present, active entry flips only the deleted bit of
that entry: the node map (hence every connection set at every layer), the entry
point, the other structural fields, the vector and metadata of every entry
(including the deleted one), and all other entries are unchanged. -/
theorem C9_soft_delete_frame {R : Type} [LinearOrderedRing R]
    (idx : HnswIndex R) (theId : Id) (e : VectorEntry R)
    (hpresent : aget idx.vectors theId = some e) (hactive : e.deleted = false) :
    ∃ idx2, softDelete idx theId = .ok (idx2, true) ∧
      idx2.nodes = idx.nodes ∧ idx2.entry_point = idx.entry_point ∧
      idx2.config = idx.config ∧ idx2.metric = idx.metric ∧
      idx2.dimension = idx.dimension ∧
      aget idx2.vectors theId = some ⟨e.id, e.vector, e.metadata, true⟩ ∧
      (∀ j, j ≠ theId → aget idx2.vectors j = aget idx.vectors j) := by
  refine ⟨{ idx with vectors := aput idx.vectors theId { e with deleted := true } },
    ?_, rfl, rfl, rfl, rfl, rfl, by simp [aget_aput_self], ?_⟩
  · unfold softDelete
    rw [hpresent]
    simp [hactive]
  · intro j hj
    simp [aget_aput_ne _ _ hj]

open Faas in
/-- Witness for C9 on a concrete one-vector index. -/
theorem C9_soft_delete_frame_witness :
    (aget idxA.vectors "a" = some ⟨"a", [5], none, false⟩ ∧
      (⟨"a", [5], none, false⟩ : VectorEntry ℤ).deleted = false) ∧
    ∃ idx2, softDelete idxA "a" = .ok (idx2, true) ∧
      idx2.nodes = idxA.nodes ∧ idx2.entry_point = idxA.entry_point ∧
      idx2.config = idxA.config ∧ idx2.metric = idxA.metric ∧
      idx2.dimension = idxA.dimension ∧
      aget idx2.vectors "a" = some ⟨"a", [5], none, true⟩ ∧
      (∀ j, j ≠ "a" → aget idx2.vectors j = aget idxA.vectors j) :=
  ⟨⟨by decide, by decide⟩,
   C9_soft_delete_frame idxA "a" ⟨"a", [5], none, false⟩ (by decide) (by decide)⟩

open Faas in
/-- C10: with k = 0, a dimension-matching search on an index whose layer-0
candidate list yields at least one non-deleted entry returns exactly one
result, because the result-count check runs only after a push. -/
theorem C10_search_k0_one_result {R : Type} [LinearOrderedRing R]
    (fo : FloatOracle R) (idx : HnswIndex R)
    (query : List R) (ep : Id) (epn : HnswNode)
    (hdim : query.length = idx.dimension)
    (hep : idx.entry_point = some ep)
    (hnode : aget idx.nodes ep = some epn)
    (hcand : ∃ c ∈ searchCandidates fo idx (normQuery fo idx query) 0 ep epn.level,
        ∃ e, aget idx.vectors c = some e ∧ e.deleted = false) :
    ∃ rs, search fo idx query 0 = .ok rs ∧ rs.length = 1 := by
  refine ⟨collectLoop fo idx.metric idx.vectors (normQuery fo idx query) 0
    (searchCandidates fo idx (normQuery fo idx query) 0 ep epn.level) [], ?_, ?_⟩
  · unfold search
    rw [if_neg (by rw [hdim]; exact fun h => h rfl), hep]
    simp only []
    rw [hnode]
    rfl
  · rw [collectLoop_eq]
    simp only [List.length_nil, Nat.lt_irrefl, if_false, List.nil_append]
    obtain ⟨c, hc, e, he, hdel⟩ := hcand
    have hmem : (⟨e.id, distance fo idx.metric (normQuery fo idx query) e.vector,
        e.metadata⟩ : SearchResult R) ∈
        List.filterMap (resultOf fo idx.metric idx.vectors (normQuery fo idx query))
          (searchCandidates fo idx (normQuery fo idx query) 0 ep epn.level) := by
      rw [List.mem_filterMap]
      exact ⟨c, hc, by unfold resultOf; rw [he]; simp [hdel]⟩
    rw [List.length_take]
    have hlen := List.length_pos_of_mem hmem
    omega

open Faas in
/-- Witness for C10 on a concrete one-vector index: search with k = 0 returns
one result, not the empty list. -/
theorem C10_search_k0_one_result_witness :
    (List.length [(3 : ℤ)] = idxA.dimension ∧
      idxA.entry_point = some "a" ∧
      aget idxA.nodes "a" = some ⟨"a", 0, [[]]⟩ ∧
      (∃ c ∈ searchCandidates (dotOracle ℤ) idxA (normQuery (dotOracle ℤ) idxA [3]) 0 "a"
          (⟨"a", 0, [[]]⟩ : HnswNode).level,
        ∃ e, aget idxA.vectors c = some e ∧ e.deleted = false)) ∧
    ∃ rs, search (dotOracle ℤ) idxA [3] 0 = .ok rs ∧ rs.length = 1 :=
  ⟨⟨by decide, by decide, by decide, by decide⟩,
   C10_search_k0_one_result (dotOracle ℤ) idxA [3] "a" ⟨"a", 0, [[]]⟩
     (by decide) (by decide) (by decide) (by decide)⟩

open Faas in
/-- C2 counterexample: re-inserting an existing id returns Ok (never an
AlreadyExists error) and overwrites the stored entry, so the index state is
changed: after insert(a, [5]) then insert(a, [7]), the second insert completes
with Ok and the stored vector for a is [7]. -/
theorem C2_already_exists_counterexample :
    (insertMany (dotOracle ℤ) (HnswIndex.withConfig ℤ 1 .DotProduct HnswConfig.default)
        [("a", [5], none, 0), ("a", [7], none, 0)]).map
      (fun idx => aget idx.vectors "a") = .ok (some ⟨"a", [7], none, false⟩) := by
  decide

open Faas in
/-- C2 (amended): insert performs no duplicate-id check and never reports an
AlreadyExists error (no such error exists in the error type): re-inserting an
id that is already present (drawn level 0, on an index whose entry point has a
node and whose nodes all have a layer 0) returns Ok and overwrites the stored
vector entry for that id. -/
theorem C2_already_exists_amended {R : Type} [LinearOrderedRing R]
    (fo : FloatOracle R) (idx : HnswIndex R) (theId : Id) (e₀ : VectorEntry R)
    (v : List R) (meta : Option Meta)
    (hpresent : aget idx.vectors theId = some e₀)
    (hdim : v.length = idx.dimension)
    (hwf : WfSearch idx)
    (hl0 : HasLayer0 idx.nodes) :
    ∃ idx2, Faas.insert fo idx theId v meta 0 = .ok idx2 ∧
      aget idx2.vectors theId =
        some ⟨theId, (if idx.metric = .Cosine then fo.normalizeK v else v), meta, false⟩ := by
  have hdne : ¬ v.length ≠ idx.dimension := fun hc => hc hdim
  have hqe : aget (aput idx.vectors theId
      ⟨theId, if idx.metric = .Cosine then fo.normalizeK v else v, meta, false⟩) theId
      = some ⟨theId, if idx.metric = .Cosine then fo.normalizeK v else v, meta, false⟩ :=
    aget_aput_self _ _ _
  cases hep : idx.entry_point with
  | none =>
    have hins : Faas.insert fo idx theId v meta 0 = .ok { idx with
        entry_point := some theId
        nodes := aput idx.nodes theId (HnswNode.mkNew theId (min 0 10))
        vectors := aput idx.vectors theId
          ⟨theId, if idx.metric = .Cosine then fo.normalizeK v else v, meta, false⟩ } := by
      unfold Faas.insert
      rw [if_neg hdne, hep]
    exact ⟨_, hins, aget_aput_self _ _ _⟩
  | some ep =>
    obtain ⟨epNode, hepn⟩ := Option.isSome_iff_exists.mp (hwf ep hep)
    obtain ⟨nearest, hdesc⟩ := descendLoop_ok fo idx.metric idx.nodes _ theId _ hqe
      (revRange (min 0 10 + 1) epNode.level) [ep]
    obtain ⟨cands, hsl, _⟩ := searchLayer_ok_subset fo idx.metric idx.nodes _ theId _ nearest
      idx.config.ef_construction 0 hqe
    obtain ⟨nbrs, hsel, hnbrv⟩ := selectNeighbors_ok fo idx.metric _ theId _ cands
      idx.config.max_connections_layer0 hqe
    obtain ⟨nodes2, node2, hadd, hl02⟩ := addLinks_ok0 theId nbrs idx.nodes
      (HnswNode.mkNew theId (min 0 10)) hl0
    obtain ⟨nodes3, hpr⟩ := pruneLoop_ok0 fo idx.metric _ idx.config.max_connections_layer0
      nbrs nodes2 hl02 hnbrv
    have hll : layerLoop fo idx.metric idx.config
        (aput idx.vectors theId
          ⟨theId, if idx.metric = .Cosine then fo.normalizeK v else v, meta, false⟩)
        theId [0] (idx.nodes, HnswNode.mkNew theId (min 0 10), nearest)
        = .ok (nodes3, node2, cands) := by
      simp only [layerLoop, insLayer, reduceIte]
      rw [hsl]
      simp only []
      rw [hsel]
      simp only []
      rw [hadd]
      simp only []
      rw [hpr]
    have hins : Faas.insert fo idx theId v meta 0 = .ok { idx with
        entry_point := if epNode.level < min 0 10 then some theId else idx.entry_point
        nodes := aput nodes3 theId node2
        vectors := aput idx.vectors theId
          ⟨theId, if idx.metric = .Cosine then fo.normalizeK v else v, meta, false⟩ } := by
      unfold Faas.insert
      rw [if_neg hdne, hep]
      simp only []
      rw [hepn]
      simp only []
      rw [hdesc]
      simp only []
      rw [show revRange 0 (min 0 10) = [0] from rfl, hll]
    exact ⟨_, hins, aget_aput_self _ _ _⟩

open Faas in
/-- C2 amended witness: on the one-entry index idxA, re-inserting id a with
vector [7] returns Ok and the stored entry for a becomes [7]. -/
theorem C2_already_exists_amended_witness :
    ∃ idx2, Faas.insert (dotOracle ℤ) idxA "a" [7] none 0 = .ok idx2 ∧
      aget idx2.vectors "a" = some ⟨"a", [7], none, false⟩ :=
  C2_already_exists_amended (dotOracle ℤ) idxA "a" ⟨"a", [5], none, false⟩ [7] none
    (by decide) (by decide)
    (by intro e he
        simp only [idxA] at he
        injection he with he2
        subst he2
        decide)
    (by intro i n h
        by_cases hi : i = "a"
        · subst hi
          simp [idxA, aget] at h
          rw [← h]
          decide
        · simp [idxA, aget, hi] at h)

open Faas in
/-- C1 (amended): for an HNSW index built from an empty index by completed
insertions with pairwise-distinct ids, the edge relation is symmetric at every
layer provided the number of insertions stays within max_connections + 1 (and
max_connections is at most max_connections_layer0, as in every shipped
configuration): below that size no prune ever fires, and prune_connections is
the only operation that drops an edge one-sided. -/
theorem C1_bidirectional_amended {R : Type} [LinearOrderedRing R]
    (fo : FloatOracle R) (cfg : HnswConfig) (dim : Nat) (metric : DistanceMetric)
    (items : List (Id × List R × Option Meta × Nat)) (idx2 : HnswIndex R)
    (hids : (items.map (fun p => p.1)).Nodup)
    (hcount : items.length ≤ cfg.max_connections + 1)
    (hMM : cfg.max_connections ≤ cfg.max_connections_layer0)
    (h : insertMany fo (HnswIndex.withConfig R dim metric cfg) items = .ok idx2) :
    ∀ i n l j, aget idx2.nodes i = some n → j ∈ connAt n l →
      ∃ m, aget idx2.nodes j = some m ∧ i ∈ connAt m l := by
  have hpaired := insertMany_sym fo items (HnswIndex.withConfig R dim metric cfg) idx2 h
    (by intro i n l j hi
        simp [HnswIndex.withConfig, aget] at hi)
    (by intro i n l hi
        simp [HnswIndex.withConfig, aget] at hi)
    (fun p hpm => rfl)
    hids
    (by simpa [HnswIndex.withConfig] using hcount)
    hMM
  intro i n l j hi hj
  obtain ⟨_, m, hm, hmm⟩ := hpaired i n l j hi hj
  exact ⟨m, hm, hmm⟩

open Faas in
/-- C1 amended witness: the two-insert run scriptW (config M = 1, M0 = 2, two
distinct ids at level 0) produces idxW, and the symmetry conclusion applied to
the edge b ∈ conn0(a) yields the reverse edge a ∈ conn0(b). -/
theorem C1_bidirectional_amended_witness :
    ((scriptW.map (fun p => p.1)).Nodup ∧
     scriptW.length ≤ (1 : Nat) + 1 ∧
     (1 : Nat) ≤ 2 ∧
     insertMany (dotOracle ℤ) (HnswIndex.withConfig ℤ 2 .DotProduct ⟨1, 2, 10, 10⟩) scriptW
       = .ok idxW) ∧
    ∃ m, aget idxW.nodes "b" = some m ∧ "a" ∈ connAt m 0 :=
  ⟨⟨by decide, by decide, by decide, by decide⟩,
   C1_bidirectional_amended (dotOracle ℤ) ⟨1, 2, 10, 10⟩ 2 .DotProduct scriptW idxW
     (by decide) (by decide) (by decide) (by decide)
     "a" ⟨"a", 0, [["b"]]⟩ 0 "b" (by decide) (by decide)⟩

open Faas in
/-- C1 counterexample: a 4-insert run (distinct ids, all at level 0, metric
DotProduct, config M = 1 and M0 = 2) whose final prune drops edges one-sided:
after the last completed insert, a is in the layer-0 connection set of c but c
is not in the layer-0 connection set of a.  Vectors are small integers, on
which the f32 DotProduct kernel is exact; all distances in the run are
distinct, so the run does not depend on HashSet iteration order. -/
theorem C1_bidirectional_counterexample :
    (insertMany (dotOracle ℤ) (HnswIndex.withConfig ℤ 2 .DotProduct ⟨1, 2, 10, 10⟩)
        [("a", [10, 0], none, 0), ("b", [9, 1], none, 0),
         ("c", [1, 5], none, 0), ("e", [10, 1], none, 0)]).map
      (fun idx =>
        ((aget idx.nodes "c").map (fun n => decide ("a" ∈ connAt n 0)),
         (aget idx.nodes "a").map (fun n => decide ("c" ∈ connAt n 0)))) =
      .ok (some true, some false) := by
  decide

namespace QV

/-- Embedding of the quartz-vector crate (types.rs, distance.rs, hnsw.rs,
vector.rs, storage.rs), used by claim C5.  VectorId is u64; the ids of every
run considered stay far below 2^64, so Nat is used.  f32 values are abstracted
over the same LinearOrderedRing R as the quartz-faas embedding, with the
cosine and euclidean kernels and f32::MAX taken from a FloatOracle; the
DotProduct kernel is the exact dot product. -/
abbrev VectorId := Nat

/-- DistanceMetric from quartz-vector/src/distance.rs. -/
inductive DistanceMetric
  | Cosine
  | Euclidean
  | DotProduct
deriving DecidableEq

/-- DistanceMetric::higher_is_better. -/
def higherIsBetter : DistanceMetric → Bool
  | .Cosine => true
  | .Euclidean => false
  | .DotProduct => true

variable {R : Type} [LinearOrderedRing R]

/-- DistanceMetric::calculate, with the Cosine and Euclidean kernels taken
from the oracle and the DotProduct kernel exact. -/
def calculate (fo : Faas.FloatOracle R) : DistanceMetric → List R → List R → R
  | .Cosine, a, b => fo.cosineK a b
  | .Euclidean, a, b => fo.euclideanK a b
  | .DotProduct, a, b => Faas.dotProduct a b

/-- HnswConfig from quartz-vector/src/hnsw.rs.  level_multiplier (f64, read
only by select_layer, whose random draw is abstracted as the explicit rawLevel
argument of insert) is omitted. -/
structure QHnswConfig where
  max_connections : Nat
  max_connections_layer0 : Nat
  ef_construction : Nat
  ef_search : Nat
deriving DecidableEq

/-- Default HnswConfig (m = 16). -/
def QHnswConfig.default : QHnswConfig :=
  ⟨16, 32, 200, 100⟩

/-- HnswNode from quartz-vector/src/hnsw.rs; connections is
Vec<HashSet<VectorId>> for layers 0..=level. -/
structure QHnswNode where
  id : VectorId
  level : Nat
  connections : List (List VectorId)
deriving DecidableEq

/-- HnswNode::new. -/
def QHnswNode.mkNew (id : VectorId) (level : Nat) : QHnswNode :=
  ⟨id, level, List.replicate (level + 1) []⟩

/-- Connection set of a node at a layer. -/
def connAt (n : QHnswNode) (l : Nat) : List VectorId :=
  n.connections.getD l []

/-- HnswIndex state from quartz-vector/src/hnsw.rs. -/
structure QHnswIndex (R : Type) where
  config : QHnswConfig
  metric : DistanceMetric
  nodes : List (VectorId × QHnswNode)
  vectors : List (VectorId × List R)
  entry_point : Option VectorId
  max_layer : Nat
deriving DecidableEq

/-- HnswIndex::new. -/
def QHnswIndex.mkNew (R : Type) (config : QHnswConfig) (metric : DistanceMetric) :
    QHnswIndex R :=
  ⟨config, metric, [], [], none, 0⟩

/-- Errors of the quartz-vector operations (VectorError variants reached by
the modelled code paths). -/
inductive QErr
  | dimMismatch
  | notFound (id : VectorId)
  | metaMissing
  | badVersion
  | badDeser
deriving DecidableEq

/-- HnswIndex::distance: resolve the stored vector, compute the metric score,
and flip similarity scores into distances. -/
def qDistance (fo : Faas.FloatOracle R) (metric : DistanceMetric)
    (vectors : List (VectorId × List R)) (query : List R) (id : VectorId) :
    Except QErr R :=
  match aget vectors id with
  | none => .error (.notFound id)
  | some w =>
      let score := calculate fo metric query w
      .ok (if higherIsBetter metric then 1 - score else score)

/-- Distance with unwrap_or(f32::MAX), as used by select_neighbors. -/
def qDistanceD (fo : Faas.FloatOracle R) (metric : DistanceMetric)
    (vectors : List (VectorId × List R)) (query : List R) (id : VectorId) : R :=
  match qDistance fo metric vectors query id with
  | .ok d => d
  | .error _ => Faas.fMAX R

/-- Lexicographic order of (OrderedFloat, VectorId) pairs used by the heaps. -/
def pairLeN (a b : R × Nat) : Prop :=
  a.1 < b.1 ∨ (a.1 = b.1 ∧ a.2 ≤ b.2)

instance : DecidableRel (pairLeN (R := R)) := fun a b => by
  unfold pairLeN
  infer_instance

/-- Distance-only comparator of the final sort_by of search_layer and of
sort_by_key in select_neighbors. -/
def distLeN (a b : R × Nat) : Prop := a.1 ≤ b.1

instance : DecidableRel (distLeN (R := R)) := fun a b => by
  unfold distLeN
  infer_instance

instance : IsTotal (R × Nat) distLeN := ⟨fun a b => le_total a.1 b.1⟩

instance : IsTrans (R × Nat) distLeN := ⟨fun _ _ _ h h2 => le_trans h h2⟩

/-- Peek of the max-heap of (dist, id) pairs (lexicographic order). -/
def qMaxPair : List (R × Nat) → Option (R × Nat)
  | [] => none
  | p :: rest =>
      match qMaxPair rest with
      | none => some p
      | some q => if pairLeN q p then some p else some q

/-- Pop target of the candidates min-heap (lexicographic order). -/
def qMinPair : List (R × Nat) → Option (R × Nat)
  | [] => none
  | p :: rest =>
      match qMinPair rest with
      | none => some p
      | some q => if pairLeN p q then some p else some q

/-- Worst kept distance (f32::MAX when the nearest heap is empty). -/
def qFrontDist (w : List (R × Nat)) : R :=
  match qMaxPair w with
  | some m => m.1
  | none => Faas.fMAX R

/-- State of search_layer: candidates heap, nearest heap, visited set. -/
structure QSL (R : Type) where
  cands : List (R × Nat)
  w : List (R × Nat)
  visited : List Nat

/-- Initialisation loop of search_layer over the entry points: each entry
point not yet visited is pushed to both heaps (its distance may fail when its
vector is missing). -/
def qslInitLoop (fo : Faas.FloatOracle R) (metric : DistanceMetric)
    (vectors : List (VectorId × List R)) (query : List R) :
    List VectorId → QSL R → Except QErr (QSL R)
  | [], st => .ok st
  | ep :: rest, st =>
      if ep ∈ st.visited then qslInitLoop fo metric vectors query rest st
      else
        match qDistance fo metric vectors query ep with
        | .error e => .error e
        | .ok d =>
            qslInitLoop fo metric vectors query rest
              ⟨(d, ep) :: st.cands, (d, ep) :: st.w, sinsert ep st.visited⟩

/-- Neighbor loop of search_layer over one popped node's connection set: an
unvisited neighbor is marked visited; if it improves on the worst kept result
(or the heap is not full) it is pushed, and the heap is trimmed to
num_to_return. -/
def qslNbrLoop (fo : Faas.FloatOracle R) (metric : DistanceMetric)
    (vectors : List (VectorId × List R)) (query : List R) (num : Nat) :
    List VectorId → QSL R → Except QErr (QSL R)
  | [], st => .ok st
  | nb :: rest, st =>
      if nb ∈ st.visited then qslNbrLoop fo metric vectors query num rest st
      else
        let visited := sinsert nb st.visited
        match qDistance fo metric vectors query nb with
        | .error e => .error e
        | .ok d =>
            if st.w.length < num ∨ d < qFrontDist st.w then
              let w2 := (d, nb) :: st.w
              let w3 :=
                if num < w2.length then
                  match qMaxPair w2 with
                  | some mp => w2.erase mp
                  | none => w2
                else w2
              qslNbrLoop fo metric vectors query num rest ⟨(d, nb) :: st.cands, w3, visited⟩
            else qslNbrLoop fo metric vectors query num rest { st with visited := visited }

/-- Expansion of one popped candidate: look its node up and walk its
connection set at the layer (skipped when the node or the layer is absent). -/
def qslExpand (fo : Faas.FloatOracle R) (metric : DistanceMetric)
    (nodes : List (VectorId × QHnswNode)) (vectors : List (VectorId × List R))
    (query : List R) (num layer : Nat) (cid : VectorId) (st : QSL R) :
    Except QErr (QSL R) :=
  match aget nodes cid with
  | some node =>
      if layer < node.connections.length then
        qslNbrLoop fo metric vectors query num (connAt node layer) st
      else .ok st
  | none => .ok st

/-- Main loop of search_layer: pop the nearest candidate, stop when it is
strictly farther than the worst kept result, otherwise expand it. -/
def qslLoop (fo : Faas.FloatOracle R) (metric : DistanceMetric)
    (nodes : List (VectorId × QHnswNode)) (vectors : List (VectorId × List R))
    (query : List R) (num layer : Nat) : Nat → QSL R → Except QErr (List (R × Nat))
  | 0, st => .ok st.w
  | fuel + 1, st =>
      match qMinPair st.cands with
      | none => .ok st.w
      | some c =>
          match qMaxPair st.w with
          | some far =>
              if far.1 < c.1 then .ok st.w
              else
                match qslExpand fo metric nodes vectors query num layer c.2
                    { st with cands := st.cands.erase c } with
                | .error e => .error e
                | .ok st2 => qslLoop fo metric nodes vectors query num layer fuel st2
          | none =>
              match qslExpand fo metric nodes vectors query num layer c.2
                  { st with cands := st.cands.erase c } with
              | .error e => .error e
              | .ok st2 => qslLoop fo metric nodes vectors query num layer fuel st2

/-- HnswIndex::search_layer.  Fuel bounds the loop: each iteration pops one
candidate and at most |entry points| + |vectors| candidates are ever pushed
(every push freshly marks an id visited); fuel exhaustion returns the kept
heap, as a stop does. -/
def qSearchLayer (fo : Faas.FloatOracle R) (metric : DistanceMetric)
    (nodes : List (VectorId × QHnswNode)) (vectors : List (VectorId × List R))
    (query : List R) (eps : List VectorId) (num layer : Nat) :
    Except QErr (List VectorId) :=
  match qslInitLoop fo metric vectors query eps ⟨[], [], []⟩ with
  | .error e => .error e
  | .ok st =>
      match qslLoop fo metric nodes vectors query num layer
          (vectors.length + eps.length + 1) st with
      | .error e => .error e
      | .ok w => .ok ((List.insertionSort distLeN w).map (·.2))

/-- HnswIndex::select_neighbors: identity below the cap, otherwise the m
nearest by the unwrap_or(MAX) distance; the Rust Result has no error path. -/
def qSelectNeighbors (fo : Faas.FloatOracle R) (metric : DistanceMetric)
    (vectors : List (VectorId × List R)) (cands : List VectorId) (m : Nat)
    (query : List R) : List VectorId :=
  if cands.length ≤ m then cands
  else
    let scored := cands.map (fun id => (qDistanceD fo metric vectors query id, id))
    ((List.insertionSort distLeN scored).take m).map (·.2)

/-- Second neighbor loop of HnswIndex::insert: each selected neighbor found in
the map and owning the layer records the new id; a neighbor then above the cap
is pruned to its m nearest current connections (skipped when its vector is
missing, as the source continues). -/
def qLinkLoop (fo : Faas.FloatOracle R) (metric : DistanceMetric)
    (vectors : List (VectorId × List R)) (theId : VectorId) (layer m : Nat) :
    List VectorId → List (VectorId × QHnswNode) → List (VectorId × QHnswNode)
  | [], nodes => nodes
  | nb :: rest, nodes =>
      match aget nodes nb with
      | none => qLinkLoop fo metric vectors theId layer m rest nodes
      | some neighbor =>
          if layer < neighbor.connections.length then
            let conn2 := sinsert theId (connAt neighbor layer)
            let neighbor2 :=
              { neighbor with connections := neighbor.connections.set layer conn2 }
            if m < conn2.length then
              match aget vectors nb with
              | none => qLinkLoop fo metric vectors theId layer m rest (aput nodes nb neighbor2)
              | some nbVec =>
                  let keep := qSelectNeighbors fo metric vectors conn2 m nbVec
                  qLinkLoop fo metric vectors theId layer m rest
                    (aput nodes nb
                      { neighbor2 with connections := neighbor2.connections.set layer keep })
            else qLinkLoop fo metric vectors theId layer m rest (aput nodes nb neighbor2)
          else qLinkLoop fo metric vectors theId layer m rest nodes

/-- Greedy descent of insert from the entry layer down to level + 1 (ef = 1). -/
def qDescendLoop (fo : Faas.FloatOracle R) (metric : DistanceMetric)
    (nodes : List (VectorId × QHnswNode)) (vectors : List (VectorId × List R))
    (query : List R) : List Nat → List VectorId → Except QErr (List VectorId)
  | [], nearest => .ok nearest
  | lc :: rest, nearest =>
      match qSearchLayer fo metric nodes vectors query nearest 1 lc with
      | .error e => .error e
      | .ok nearest2 => qDescendLoop fo metric nodes vectors query rest nearest2

/-- Per-layer loop of insert (search, select, node-side links, neighbor-side
links with pruning); the state carries the node map, the new node, and
current_nearest. -/
def qLayerLoop (fo : Faas.FloatOracle R) (metric : DistanceMetric)
    (cfg : QHnswConfig) (vectors : List (VectorId × List R)) (theId : VectorId)
    (query : List R) :
    List Nat → List (VectorId × QHnswNode) × QHnswNode × List VectorId →
    Except QErr (List (VectorId × QHnswNode) × QHnswNode × List VectorId)
  | [], st => .ok st
  | lc :: rest, (nodes, node, nearest) =>
      match qSearchLayer fo metric nodes vectors query nearest cfg.ef_construction lc with
      | .error e => .error e
      | .ok candidates =>
          let m := if lc = 0 then cfg.max_connections_layer0 else cfg.max_connections
          let neighbors := qSelectNeighbors fo metric vectors candidates m query
          let node2 :=
            { node with connections :=
                node.connections.set lc (neighbors.foldl (fun s nb => sinsert nb s)
                  (connAt node lc)) }
          let nodes2 := qLinkLoop fo metric vectors theId lc m neighbors nodes
          qLayerLoop fo metric cfg vectors theId query rest (nodes2, node2, candidates)

/-- HnswIndex::insert.  rawLevel is the abstracted random draw of
select_layer, which caps it at 16. -/
def qInsert (fo : Faas.FloatOracle R) (idx : QHnswIndex R) (theId : VectorId)
    (vector : List R) (rawLevel : Nat) : Except QErr (QHnswIndex R) :=
  let vectors := aput idx.vectors theId vector
  let level := min rawLevel 16
  let node := QHnswNode.mkNew theId level
  match idx.entry_point with
  | none =>
      .ok { idx with
              entry_point := some theId
              max_layer := level
              nodes := aput idx.nodes theId node
              vectors := vectors }
  | some entry_id =>
      match qDescendLoop fo idx.metric idx.nodes vectors vector
          (revRange (level + 1) idx.max_layer) [entry_id] with
      | .error e => .error e
      | .ok nearest =>
          match qLayerLoop fo idx.metric idx.config vectors theId vector
              (revRange 0 level) (idx.nodes, node, nearest) with
          | .error e => .error e
          | .ok (nodes2, node2, _) =>
              let ep2 := if idx.max_layer < level then some theId else idx.entry_point
              let ml2 := if idx.max_layer < level then level else idx.max_layer
              .ok { idx with
                      entry_point := ep2
                      max_layer := ml2
                      nodes := aput nodes2 theId node2
                      vectors := vectors }

/-- VectorIndexConfig from quartz-vector/src/vector.rs. -/
structure VectorIndexConfig where
  dimension : Nat
  metric : DistanceMetric
  hnsw_config : QHnswConfig
deriving DecidableEq

/-- VectorIndex state from quartz-vector/src/vector.rs. -/
structure VectorIndex (R : Type) where
  config : VectorIndexConfig
  hnsw : QHnswIndex R
  vectors : List (VectorId × List R)
  metadata : List (VectorId × String)
deriving DecidableEq

/-- VectorIndex::with_config. -/
def VectorIndex.withConfig (R : Type) (config : VectorIndexConfig) : VectorIndex R :=
  ⟨config, QHnswIndex.mkNew R config.hnsw_config config.metric, [], []⟩

/-- VectorIndex::insert_with_metadata: dimension check, HNSW insert, then the
vector map and (when provided) the metadata map. -/
def insertWithMetadata (fo : Faas.FloatOracle R) (vi : VectorIndex R)
    (id : VectorId) (vector : List R) (metadata : Option String)
    (rawLevel : Nat) : Except QErr (VectorIndex R) :=
  if vector.length ≠ vi.config.dimension then .error .dimMismatch
  else
    match qInsert fo vi.hnsw id vector rawLevel with
    | .error e => .error e
    | .ok h2 =>
        .ok { vi with
                hnsw := h2
                vectors := aput vi.vectors id vector
                metadata :=
                  match metadata with
                  | some mta => aput vi.metadata id mta
                  | none => vi.metadata }

/-- VectorIndex::get. -/
def VectorIndex.get (vi : VectorIndex R) (id : VectorId) : Option (List R) :=
  aget vi.vectors id

/-- VectorIndex::get_metadata. -/
def getMetadata (vi : VectorIndex R) (id : VectorId) : Option String :=
  aget vi.metadata id

/-- Storage keys used by storage.rs.   The byte encodings are
METADATA_KEY = "__vector_index_metadata__", vector_key id = "__vector__" ++
id.to_be_bytes() and metadata_key id = "__vector_meta__" ++ id.to_be_bytes():
to_be_bytes is injective on u64 and the three byte shapes differ pairwise at
offset 9 ('i' / '_' / 'm'), so the keys are modelled as this inductive, whose
constructors are exactly as injective and disjoint as the byte strings. -/
inductive QKey
  | idxMeta
  | vec (id : VectorId)
  | vmeta (id : VectorId)
deriving DecidableEq

/-- Stored values: bincode payloads of the index metadata record, a vector,
or a metadata string; bincode serialization is injective per type and the key
shape determines which type is deserialized, so values are modelled tagged. -/
inductive QVal (R : Type)
  | metaRec (dimension : Nat) (metric : DistanceMetric) (cfg : QHnswConfig)
      (version : Nat)
  | vecV (v : List R)
  | strV (s : String)
deriving DecidableEq

/-- PersistentVectorIndex: the in-memory index plus the KV storage engine,
modelled as an association list of typed keys (StorageEngine::get/put are the
map operations). -/
structure PVI (R : Type) where
  index : VectorIndex R
  storage : List (QKey × QVal R)
deriving DecidableEq

/-- PersistentVectorIndex::create on a fresh path: empty store plus the
metadata record (version 1). -/
def pviCreate (R : Type) (config : VectorIndexConfig) : PVI R :=
  ⟨VectorIndex.withConfig R config,
   aput [] .idxMeta (.metaRec config.dimension config.metric config.hnsw_config 1)⟩

/-- PersistentVectorIndex::insert_with_metadata: in-memory insert, then the
synchronous KV puts of the vector and (when provided) the metadata. -/
def pviInsert (fo : Faas.FloatOracle R) (p : PVI R) (id : VectorId)
    (vector : List R) (metadata : Option String) (rawLevel : Nat) :
    Except QErr (PVI R) :=
  match insertWithMetadata fo p.index id vector metadata rawLevel with
  | .error e => .error e
  | .ok idx2 =>
      let st1 := aput p.storage (.vec id) (.vecV vector)
      let st2 :=
        match metadata with
        | some mta => aput st1 (.vmeta id) (.strV mta)
        | none => st1
      .ok ⟨idx2, st2⟩

/-- Fold of pviInsert over a build script (id, vector, metadata, drawn level). -/
def pviInsertMany (fo : Faas.FloatOracle R) (p : PVI R) :
    List (VectorId × List R × Option String × Nat) → Except QErr (PVI R)
  | [] => .ok p
  | (i, v, mta, lvl) :: rest =>
      match pviInsert fo p i v mta lvl with
      | .error e => .error e
      | .ok p2 => pviInsertMany fo p2 rest

/-- Scan loop of list_vector_ids: ids 0..100000 in order; a found id is
pushed; a missing id above 1000 with nothing found so far breaks. -/
def listLoop (storage : List (QKey × QVal R)) :
    List VectorId → Nat → Nat → List VectorId
  | ids, _, 0 => ids
  | ids, id, rem + 1 =>
      if (aget storage (QKey.vec id)).isSome then
        listLoop storage (ids ++ [id]) (id + 1) rem
      else if 1000 < id ∧ ids = [] then ids
      else listLoop storage ids (id + 1) rem

/-- PersistentVectorIndex::list_vector_ids. -/
def listVectorIds (storage : List (QKey × QVal R)) : List VectorId :=
  listLoop storage [] 0 100000

/-- Rebuild loop of open: look each listed id's vector up (a missing id is
skipped, a wrongly-typed payload is a deserialization error), read its
optional metadata, and insert into the fresh in-memory index.  lv is the
level oracle for the re-inserts, read off by position. -/
def rebuild (fo : Faas.FloatOracle R) (storage : List (QKey × QVal R)) :
    List VectorId → VectorIndex R → (Nat → Nat) → Nat →
    Except QErr (VectorIndex R)
  | [], vi, _, _ => .ok vi
  | id :: rest, vi, lv, k =>
      match aget storage (QKey.vec id) with
      | none => rebuild fo storage rest vi lv (k + 1)
      | some (.vecV v) =>
          match aget storage (QKey.vmeta id) with
          | some (.strV s) =>
              match insertWithMetadata fo vi id v (some s) (lv k) with
              | .error e => .error e
              | .ok vi2 => rebuild fo storage rest vi2 lv (k + 1)
          | some _ => .error .badDeser
          | none =>
              match insertWithMetadata fo vi id v none (lv k) with
              | .error e => .error e
              | .ok vi2 => rebuild fo storage rest vi2 lv (k + 1)
      | some _ => .error .badDeser

/-- PersistentVectorIndex::open: read and validate the metadata record, scan
the stored ids, and rebuild the in-memory index by re-inserting each stored
vector with its metadata. -/
def pviOpen (fo : Faas.FloatOracle R) (storage : List (QKey × QVal R))
    (lv : Nat → Nat) : Except QErr (PVI R) :=
  match aget storage QKey.idxMeta with
  | none => .error .metaMissing
  | some (.metaRec dim metric hcfg version) =>
      if version ≠ 1 then .error .badVersion
      else
        let config : VectorIndexConfig := ⟨dim, metric, hcfg⟩
        let ids := listVectorIds storage
        match rebuild fo storage ids (VectorIndex.withConfig R config) lv 0 with
        | .error e => .error e
        | .ok vi => .ok ⟨vi, storage⟩
  | some _ => .error .badDeser

/-- Connection set of a fresh node at any layer is empty. -/
theorem qconnAt_mkNew (id : VectorId) (level l : Nat) :
    connAt (QHnswNode.mkNew id level) l = [] := by
  unfold connAt QHnswNode.mkNew
  simp only [List.getD_eq_getElem?_getD, List.getElem?_replicate]
  by_cases h : l < level + 1 <;> simp [h]

theorem connAt_update_set (nd : QHnswNode) (layer : Nat) (v : List VectorId)
    (hlt : layer < nd.connections.length) :
    connAt { nd with connections := nd.connections.set layer v } layer = v := by
  show (nd.connections.set layer v).getD layer [] = v
  exact Faas.getD_set_self _ _ _ _ hlt

theorem connAt_update_ne (nd : QHnswNode) (layer : Nat) (v : List VectorId)
    (l : Nat) (h : l ≠ layer) :
    connAt { nd with connections := nd.connections.set layer v } l = connAt nd l := by
  show (nd.connections.set layer v).getD l [] = nd.connections.getD l []
  exact Faas.getD_set_ne _ _ _ h

/-- Heap invariant of search_layer: every kept pair's id has a stored vector. -/
def GoodW (vectors : List (VectorId × List R)) (st : QSL R) : Prop :=
  ∀ p ∈ st.w, (aget vectors p.2).isSome

theorem qslInitLoop_ok (fo : Faas.FloatOracle R) (metric : DistanceMetric)
    (vectors : List (VectorId × List R)) (query : List R) :
    ∀ (eps : List VectorId) (st : QSL R),
      (∀ x ∈ eps, (aget vectors x).isSome) →
      GoodW vectors st →
      ∃ st2, qslInitLoop fo metric vectors query eps st = .ok st2 ∧
        GoodW vectors st2 := by
  intro eps
  induction eps with
  | nil => intro st _ hst; exact ⟨st, rfl, hst⟩
  | cons ep rest ih =>
    intro st heps hst
    simp only [qslInitLoop]
    by_cases hv : ep ∈ st.visited
    · rw [if_pos hv]
      exact ih st (fun x hx => heps x (List.mem_cons_of_mem _ hx)) hst
    · rw [if_neg hv]
      have hsome := heps ep (List.mem_cons_self _ _)
      obtain ⟨w, hw⟩ := Option.isSome_iff_exists.mp hsome
      have hd : ∃ d, qDistance fo metric vectors query ep = .ok d := by
        unfold qDistance
        rw [hw]
        exact ⟨_, rfl⟩
      obtain ⟨d, hd⟩ := hd
      rw [hd]
      refine ih _ (fun x hx => heps x (List.mem_cons_of_mem _ hx)) ?_
      intro p hp
      simp at hp
      rcases hp with hp | hp
      · rw [hp]
        exact hsome
      · exact hst p hp

theorem qslNbrLoop_ok (fo : Faas.FloatOracle R) (metric : DistanceMetric)
    (vectors : List (VectorId × List R)) (query : List R) (num : Nat) :
    ∀ (l : List VectorId) (st : QSL R),
      (∀ x ∈ l, (aget vectors x).isSome) →
      GoodW vectors st →
      ∃ st2, qslNbrLoop fo metric vectors query num l st = .ok st2 ∧
        GoodW vectors st2 := by
  intro l
  induction l with
  | nil => intro st _ hst; exact ⟨st, rfl, hst⟩
  | cons nb rest ih =>
    intro st hl hst
    simp only [qslNbrLoop]
    by_cases hv : nb ∈ st.visited
    · rw [if_pos hv]
      exact ih st (fun x hx => hl x (List.mem_cons_of_mem _ hx)) hst
    · rw [if_neg hv]
      have hsome := hl nb (List.mem_cons_self _ _)
      obtain ⟨w, hw⟩ := Option.isSome_iff_exists.mp hsome
      have hd : ∃ d, qDistance fo metric vectors query nb = .ok d := by
        unfold qDistance
        rw [hw]
        exact ⟨_, rfl⟩
      obtain ⟨d, hd⟩ := hd
      rw [hd]
      simp only []
      by_cases hcond : st.w.length < num ∨ d < qFrontDist st.w
      · rw [if_pos hcond]
        refine ih _ (fun x hx => hl x (List.mem_cons_of_mem _ hx)) ?_
        intro p hp
        have hp2 : p ∈ (d, nb) :: st.w := by
          by_cases hlen : num < ((d, nb) :: st.w).length
          · rw [if_pos hlen] at hp
            cases hm : qMaxPair ((d, nb) :: st.w) with
            | none => rw [hm] at hp; exact hp
            | some mp =>
                rw [hm] at hp
                exact List.erase_subset _ _ hp
          · rw [if_neg hlen] at hp
            exact hp
        rcases List.mem_cons.mp hp2 with hp2 | hp2
        · rw [hp2]
          exact hsome
        · exact hst p hp2
      · rw [if_neg hcond]
        exact ih _ (fun x hx => hl x (List.mem_cons_of_mem _ hx)) hst

theorem qslExpand_ok (fo : Faas.FloatOracle R) (metric : DistanceMetric)
    (nodes : List (VectorId × QHnswNode)) (vectors : List (VectorId × List R))
    (query : List R) (num layer : Nat) (cid : VectorId) (st : QSL R)
    (hconn : ∀ i n j, aget nodes i = some n → j ∈ connAt n layer →
      (aget vectors j).isSome)
    (hst : GoodW vectors st) :
    ∃ st2, qslExpand fo metric nodes vectors query num layer cid st = .ok st2 ∧
      GoodW vectors st2 := by
  unfold qslExpand
  cases hn : aget nodes cid with
  | none => exact ⟨st, rfl, hst⟩
  | some node =>
    simp only []
    by_cases hl : layer < node.connections.length
    · rw [if_pos hl]
      exact qslNbrLoop_ok fo metric vectors query num (connAt node layer) st
        (fun x hx => hconn cid node x hn hx) hst
    · rw [if_neg hl]
      exact ⟨st, rfl, hst⟩

theorem qslLoop_ok (fo : Faas.FloatOracle R) (metric : DistanceMetric)
    (nodes : List (VectorId × QHnswNode)) (vectors : List (VectorId × List R))
    (query : List R) (num layer : Nat)
    (hconn : ∀ i n j, aget nodes i = some n → j ∈ connAt n layer →
      (aget vectors j).isSome) :
    ∀ (fuel : Nat) (st : QSL R), GoodW vectors st →
      ∃ w, qslLoop fo metric nodes vectors query num layer fuel st = .ok w ∧
        ∀ p ∈ w, (aget vectors p.2).isSome := by
  intro fuel
  induction fuel with
  | zero => intro st hst; exact ⟨st.w, rfl, hst⟩
  | succ n ih =>
    intro st hst
    simp only [qslLoop]
    cases hc : qMinPair st.cands with
    | none => exact ⟨st.w, rfl, hst⟩
    | some c =>
      simp only []
      obtain ⟨st1, hexp, hst1⟩ := qslExpand_ok fo metric nodes vectors query num layer c.2
        { st with cands := st.cands.erase c } hconn hst
      cases hm : qMaxPair st.w with
      | some far =>
        simp only []
        by_cases hbr : far.1 < c.1
        · rw [if_pos hbr]
          exact ⟨st.w, rfl, hst⟩
        · rw [if_neg hbr, hexp]
          exact ih st1 hst1
      | none =>
        simp only []
        rw [hexp]
        exact ih st1 hst1

theorem qSearchLayer_ok (fo : Faas.FloatOracle R) (metric : DistanceMetric)
    (nodes : List (VectorId × QHnswNode)) (vectors : List (VectorId × List R))
    (query : List R) (eps : List VectorId) (num layer : Nat)
    (heps : ∀ x ∈ eps, (aget vectors x).isSome)
    (hconn : ∀ i n j, aget nodes i = some n → j ∈ connAt n layer →
      (aget vectors j).isSome) :
    ∃ out, qSearchLayer fo metric nodes vectors query eps num layer = .ok out ∧
      ∀ x ∈ out, (aget vectors x).isSome := by
  obtain ⟨st, hinit, hst⟩ := qslInitLoop_ok fo metric vectors query eps ⟨[], [], []⟩ heps
    (by intro p hp; simp at hp)
  obtain ⟨w, hloop, hw⟩ := qslLoop_ok fo metric nodes vectors query num layer hconn
    (vectors.length + eps.length + 1) st hst
  have heq : qSearchLayer fo metric nodes vectors query eps num layer =
      .ok ((List.insertionSort distLeN w).map (·.2)) := by
    unfold qSearchLayer
    rw [hinit]
    simp only []
    rw [hloop]
  refine ⟨_, heq, ?_⟩
  intro x hx
  rw [List.mem_map] at hx
  obtain ⟨p, hp, hpx⟩ := hx
  have hmem := (List.perm_insertionSort distLeN w).mem_iff.mp hp
  rw [← hpx]
  exact hw p hmem

theorem qSelectNeighbors_subset (fo : Faas.FloatOracle R) (metric : DistanceMetric)
    (vectors : List (VectorId × List R)) (cands : List VectorId) (m : Nat)
    (query : List R) :
    ∀ x ∈ qSelectNeighbors fo metric vectors cands m query, x ∈ cands := by
  unfold qSelectNeighbors
  by_cases hle : cands.length ≤ m
  · rw [if_pos hle]
    exact fun x hx => hx
  · rw [if_neg hle]
    intro x hx
    rw [List.mem_map] at hx
    obtain ⟨p, hp, hpx⟩ := hx
    have hsub := (List.take_sublist m _).subset hp
    have hperm := List.perm_insertionSort distLeN
      (cands.map (fun id => (qDistanceD fo metric vectors query id, id)))
    have hmem := hperm.mem_iff.mp hsub
    rw [List.mem_map] at hmem
    obtain ⟨i, hic, hi⟩ := hmem
    rw [← hpx, ← hi]
    exact hic

/-- Closure invariant of the node map: every listed connection target has a
stored vector. -/
def QClosed (nodes : List (VectorId × QHnswNode))
    (vectors : List (VectorId × List R)) : Prop :=
  ∀ i n, aget nodes i = some n → ∀ l j, j ∈ connAt n l → (aget vectors j).isSome

theorem qLinkLoop_closed (fo : Faas.FloatOracle R) (metric : DistanceMetric)
    (vectors : List (VectorId × List R)) (theId : VectorId) (layer m : Nat)
    (hid : (aget vectors theId).isSome) :
    ∀ (nbrs : List VectorId) (nodes : List (VectorId × QHnswNode)),
      QClosed nodes vectors →
      QClosed (qLinkLoop fo metric vectors theId layer m nbrs nodes) vectors := by
  intro nbrs
  induction nbrs with
  | nil => intro nodes hcl; exact hcl
  | cons nb rest ih =>
    intro nodes hcl
    simp only [qLinkLoop]
    cases hn : aget nodes nb with
    | none => exact ih nodes hcl
    | some neighbor =>
      simp only []
      by_cases hl : layer < neighbor.connections.length
      case neg =>
        rw [if_neg hl]
        exact ih nodes hcl
      rw [if_pos hl]
      have hconn2 : ∀ j ∈ sinsert theId (connAt neighbor layer),
          (aget vectors j).isSome := by
        intro j hj
        rcases (mem_sinsert_iff _ _ _).mp hj with hj | hj
        · rw [hj]
          exact hid
        · exact hcl nb neighbor hn layer j hj
      have hneighbor2 : QClosed (aput nodes nb
          { neighbor with connections :=
              neighbor.connections.set layer (sinsert theId (connAt neighbor layer)) })
          vectors := by
        intro i n hi l j hj
        by_cases hin : i = nb
        · subst hin
          rw [aget_aput_self] at hi
          injection hi with he
          subst he
          by_cases hll : l = layer
          · rw [hll, connAt_update_set neighbor layer _ hl] at hj
            exact hconn2 j hj
          · rw [connAt_update_ne neighbor layer _ l hll] at hj
            exact hcl _ neighbor hn l j hj
        · rw [aget_aput_ne _ _ hin] at hi
          exact hcl i n hi l j hj
      by_cases hover : m < (sinsert theId (connAt neighbor layer)).length
      · rw [if_pos hover]
        cases hv : aget vectors nb with
        | none => exact ih _ hneighbor2
        | some nbVec =>
          refine ih _ ?_
          intro i n hi l j hj
          by_cases hin : i = nb
          · subst hin
            rw [aget_aput_self] at hi
            injection hi with he
            subst he
            have hj2 : j ∈ ((neighbor.connections.set layer
                (sinsert theId (connAt neighbor layer))).set layer
                (qSelectNeighbors fo metric vectors
                  (sinsert theId (connAt neighbor layer)) m nbVec)).getD l [] := hj
            by_cases hll : l = layer
            · rw [hll] at hj2
              rw [Faas.getD_set_self _ _ _ _ (by rw [List.length_set]; exact hl)] at hj2
              exact hconn2 j
                (qSelectNeighbors_subset fo metric vectors _ m nbVec j hj2)
            · rw [Faas.getD_set_ne _ _ _ hll, Faas.getD_set_ne _ _ _ hll] at hj2
              exact hcl _ neighbor hn l j hj2
          · rw [aget_aput_ne _ _ hin] at hi
            exact hcl i n hi l j hj
      · rw [if_neg hover]
        exact ih _ hneighbor2

/-- The new node's own connection sets point only at stored vectors. -/
def NodeGood (vectors : List (VectorId × List R)) (node : QHnswNode) : Prop :=
  ∀ l j, j ∈ connAt node l → (aget vectors j).isSome

theorem mem_foldl_sinsert {A : Type} [DecidableEq A] :
    ∀ (l : List A) (base : List A) (x : A),
      x ∈ l.foldl (fun s nb => sinsert nb s) base → x ∈ base ∨ x ∈ l := by
  intro l
  induction l with
  | nil => intro base x hx; exact Or.inl hx
  | cons a rest ih =>
    intro base x hx
    simp only [List.foldl_cons] at hx
    rcases ih (sinsert a base) x hx with h | h
    · rcases (mem_sinsert_iff _ _ _).mp h with h | h
      · exact Or.inr (h ▸ List.mem_cons_self _ _)
      · exact Or.inl h
    · exact Or.inr (List.mem_cons_of_mem _ h)

theorem qLayerLoop_ok (fo : Faas.FloatOracle R) (metric : DistanceMetric)
    (cfg : QHnswConfig) (vectors : List (VectorId × List R)) (theId : VectorId)
    (query : List R) (hid : (aget vectors theId).isSome) :
    ∀ (layers : List Nat) (nodes : List (VectorId × QHnswNode))
      (node : QHnswNode) (nearest : List VectorId),
      QClosed nodes vectors →
      NodeGood vectors node →
      (∀ x ∈ nearest, (aget vectors x).isSome) →
      (∀ lc ∈ layers, lc < node.connections.length) →
      ∃ out, qLayerLoop fo metric cfg vectors theId query layers
          (nodes, node, nearest) = .ok out ∧
        QClosed out.1 vectors ∧ NodeGood vectors out.2.1 := by
  intro layers
  induction layers with
  | nil =>
    intro nodes node nearest hcl hng _ _
    exact ⟨(nodes, node, nearest), rfl, hcl, hng⟩
  | cons lc rest ih =>
    intro nodes node nearest hcl hng hnear hlen
    simp only [qLayerLoop]
    obtain ⟨cands, hsl, hcands⟩ := qSearchLayer_ok fo metric nodes vectors query nearest
      cfg.ef_construction lc hnear (fun i n j hi hj => hcl i n hi lc j hj)
    rw [hsl]
    simp only []
    have hlc : lc < node.connections.length := hlen lc (List.mem_cons_self _ _)
    have hnbrs : ∀ x ∈ qSelectNeighbors fo metric vectors cands
        (if lc = 0 then cfg.max_connections_layer0 else cfg.max_connections) query,
        (aget vectors x).isSome :=
      fun x hx => hcands x (qSelectNeighbors_subset fo metric vectors cands _ query x hx)
    refine ih _ _ _
      (qLinkLoop_closed fo metric vectors theId lc _ hid _ nodes hcl) ?_ hcands ?_
    · intro l j hj
      by_cases hll : l = lc
      · rw [hll, connAt_update_set node lc _ hlc] at hj
        rcases mem_foldl_sinsert _ _ _ hj with h | h
        · exact hng lc j h
        · exact hnbrs j h
      · rw [connAt_update_ne node lc _ l hll] at hj
        exact hng l j hj
    · intro l hl
      show l < (node.connections.set lc _).length
      rw [List.length_set]
      exact hlen l (List.mem_cons_of_mem _ hl)

theorem qDescendLoop_ok (fo : Faas.FloatOracle R) (metric : DistanceMetric)
    (nodes : List (VectorId × QHnswNode)) (vectors : List (VectorId × List R))
    (query : List R) (hcl : QClosed nodes vectors) :
    ∀ (layers : List Nat) (nearest : List VectorId),
      (∀ x ∈ nearest, (aget vectors x).isSome) →
      ∃ out, qDescendLoop fo metric nodes vectors query layers nearest = .ok out ∧
        ∀ x ∈ out, (aget vectors x).isSome := by
  intro layers
  induction layers with
  | nil => intro nearest hn; exact ⟨nearest, rfl, hn⟩
  | cons lc rest ih =>
    intro nearest hn
    simp only [qDescendLoop]
    obtain ⟨out1, hsl, hout1⟩ := qSearchLayer_ok fo metric nodes vectors query nearest 1 lc hn
      (fun i n j hi hj => hcl i n hi lc j hj)
    rw [hsl]
    exact ih out1 hout1

theorem qInsert_ok (fo : Faas.FloatOracle R) (idx : QHnswIndex R)
    (theId : VectorId) (v : List R) (rawLevel : Nat)
    (hep : ∀ e, idx.entry_point = some e → (aget idx.vectors e).isSome)
    (hcl : QClosed idx.nodes idx.vectors) :
    ∃ idx2, qInsert fo idx theId v rawLevel = .ok idx2 ∧
      idx2.vectors = aput idx.vectors theId v ∧
      QClosed idx2.nodes idx2.vectors ∧
      (∀ e, idx2.entry_point = some e → (aget idx2.vectors e).isSome) ∧
      idx2.config = idx.config ∧ idx2.metric = idx.metric := by
  have hid : (aget (aput idx.vectors theId v) theId).isSome := by
    rw [aget_aput_self]
    rfl
  have hlift : ∀ j, (aget idx.vectors j).isSome →
      (aget (aput idx.vectors theId v) j).isSome := by
    intro j hj
    by_cases hjt : j = theId
    · subst hjt
      exact hid
    · rw [aget_aput_ne _ _ hjt]
      exact hj
  have hcl2 : QClosed idx.nodes (aput idx.vectors theId v) :=
    fun i n hi l j hj => hlift j (hcl i n hi l j hj)
  cases hepc : idx.entry_point with
  | none =>
    have heq : qInsert fo idx theId v rawLevel = .ok { idx with
        entry_point := some theId
        max_layer := min rawLevel 16
        nodes := aput idx.nodes theId (QHnswNode.mkNew theId (min rawLevel 16))
        vectors := aput idx.vectors theId v } := by
      unfold qInsert
      rw [hepc]
    refine ⟨_, heq, rfl, ?_, ?_, rfl, rfl⟩
    · intro i n hi l j hj
      by_cases hit : i = theId
      · subst hit
        rw [aget_aput_self] at hi
        injection hi with he
        rw [← he] at hj
        rw [qconnAt_mkNew] at hj
        exact absurd hj (List.not_mem_nil j)
      · rw [aget_aput_ne _ _ hit] at hi
        exact hcl2 i n hi l j hj
    · intro e he
      have he2 : some theId = some e := he
      injection he2 with he3
      rw [← he3]
      exact hid
  | some entry_id =>
    obtain ⟨nearest, hdl, hnear⟩ := qDescendLoop_ok fo idx.metric idx.nodes
      (aput idx.vectors theId v) v hcl2
      (revRange (min rawLevel 16 + 1) idx.max_layer) [entry_id]
      (by intro x hx
          simp at hx
          subst hx
          exact hlift _ (hep _ hepc))
    obtain ⟨out, hll, hclOut, hngOut⟩ := qLayerLoop_ok fo idx.metric idx.config
      (aput idx.vectors theId v) theId v hid (revRange 0 (min rawLevel 16))
      idx.nodes (QHnswNode.mkNew theId (min rawLevel 16)) nearest hcl2
      (by intro l j hj
          rw [qconnAt_mkNew] at hj
          exact absurd hj (List.not_mem_nil j))
      hnear
      (by intro lc hlc
          unfold revRange at hlc
          rw [List.mem_reverse] at hlc
          have hb := List.mem_range'_1.mp hlc
          show lc < (List.replicate (min rawLevel 16 + 1) ([] : List VectorId)).length
          rw [List.length_replicate]
          omega)
    obtain ⟨nodes2, node2, candsF⟩ := out
    have heq : qInsert fo idx theId v rawLevel = .ok { idx with
        entry_point := if idx.max_layer < min rawLevel 16 then some theId
          else idx.entry_point
        max_layer := if idx.max_layer < min rawLevel 16 then min rawLevel 16
          else idx.max_layer
        nodes := aput nodes2 theId node2
        vectors := aput idx.vectors theId v } := by
      unfold qInsert
      rw [hepc]
      simp only []
      rw [hdl]
      simp only []
      rw [hll]
    refine ⟨_, heq, rfl, ?_, ?_, rfl, rfl⟩
    · intro i n hi l j hj
      by_cases hit : i = theId
      · subst hit
        rw [aget_aput_self] at hi
        injection hi with he
        rw [← he] at hj
        exact hngOut l j hj
      · rw [aget_aput_ne _ _ hit] at hi
        exact hclOut i n hi l j hj
    · intro e he
      have he2 : (if idx.max_layer < min rawLevel 16 then some theId
          else idx.entry_point) = some e := he
      by_cases hml : idx.max_layer < min rawLevel 16
      · rw [if_pos hml] at he2
        injection he2 with he3
        rw [← he3]
        exact hid
      · rw [if_neg hml] at he2
        exact hlift e (hep e he2)

theorem insertWithMetadata_ok (fo : Faas.FloatOracle R) (vi : VectorIndex R)
    (id : VectorId) (vector : List R) (metadata : Option String) (rawLevel : Nat)
    (hdim : vector.length = vi.config.dimension)
    (hep : ∀ e, vi.hnsw.entry_point = some e → (aget vi.hnsw.vectors e).isSome)
    (hcl : QClosed vi.hnsw.nodes vi.hnsw.vectors) :
    ∃ vi2, insertWithMetadata fo vi id vector metadata rawLevel = .ok vi2 ∧
      vi2.config = vi.config ∧
      vi2.vectors = aput vi.vectors id vector ∧
      vi2.metadata = (match metadata with
        | some mta => aput vi.metadata id mta
        | none => vi.metadata) ∧
      QClosed vi2.hnsw.nodes vi2.hnsw.vectors ∧
      (∀ e, vi2.hnsw.entry_point = some e → (aget vi2.hnsw.vectors e).isSome) := by
  obtain ⟨h2, hq, _, hqcl, hqep, _, _⟩ := qInsert_ok fo vi.hnsw id vector rawLevel hep hcl
  have heq : insertWithMetadata fo vi id vector metadata rawLevel = .ok { vi with
      hnsw := h2
      vectors := aput vi.vectors id vector
      metadata := match metadata with
        | some mta => aput vi.metadata id mta
        | none => vi.metadata } := by
    unfold insertWithMetadata
    rw [if_neg (fun hc => hc hdim)]
    rw [hq]
  exact ⟨_, heq, rfl, rfl, rfl, hqcl, hqep⟩

theorem rebuild_ok (fo : Faas.FloatOracle R) (storage : List (QKey × QVal R))
    (lv : Nat → Nat) :
    ∀ (ids : List VectorId) (vi : VectorIndex R) (k : Nat),
      ids.Nodup →
      (∀ id ∈ ids, ∃ v, aget storage (QKey.vec id) = some (.vecV v) ∧
        v.length = vi.config.dimension) →
      (∀ id ∈ ids, ∀ val, aget storage (QKey.vmeta id) = some val →
        ∃ s, val = .strV s) →
      (∀ e, vi.hnsw.entry_point = some e → (aget vi.hnsw.vectors e).isSome) →
      QClosed vi.hnsw.nodes vi.hnsw.vectors →
      ∃ vi2, rebuild fo storage ids vi lv k = .ok vi2 ∧
        vi2.config = vi.config ∧
        (∀ j, j ∉ ids → aget vi2.vectors j = aget vi.vectors j ∧
          aget vi2.metadata j = aget vi.metadata j) ∧
        (∀ id ∈ ids, ∀ v, aget storage (QKey.vec id) = some (.vecV v) →
          aget vi2.vectors id = some v) ∧
        (∀ id ∈ ids, (∀ s, aget storage (QKey.vmeta id) = some (.strV s) →
            aget vi2.metadata id = some s) ∧
          (aget storage (QKey.vmeta id) = none →
            aget vi2.metadata id = aget vi.metadata id)) := by
  intro ids
  induction ids with
  | nil =>
    intro vi k _ _ _ _ _
    exact ⟨vi, rfl, rfl, fun j _ => ⟨rfl, rfl⟩,
      fun id h => absurd h (List.not_mem_nil id),
      fun id h => absurd h (List.not_mem_nil id)⟩
  | cons id rest ih =>
    intro vi k hnodup hvec hmeta hvep hvcl
    obtain ⟨v, hv, hvlen⟩ := hvec id (List.mem_cons_self _ _)
    have hnd := List.nodup_cons.mp hnodup
    simp only [rebuild]
    rw [hv]
    simp only []
    cases hm : aget storage (QKey.vmeta id) with
    | none =>
      simp only []
      obtain ⟨vi2, hins, hcfg, hvecs, hmetas, hhcl, hhep⟩ :=
        insertWithMetadata_ok fo vi id v none (lv k) hvlen hvep hvcl
      rw [hins]
      simp only []
      obtain ⟨vi3, hreb, hcfg3, hframe3, hvec3, hmeta3⟩ := ih vi2 (k + 1) hnd.2
        (by intro i hi
            obtain ⟨w, hw, hwl⟩ := hvec i (List.mem_cons_of_mem _ hi)
            exact ⟨w, hw, by rw [hwl, hcfg]⟩)
        (fun i hi => hmeta i (List.mem_cons_of_mem _ hi)) hhep hhcl
      refine ⟨vi3, hreb, hcfg3.trans hcfg, ?_, ?_, ?_⟩
      · intro j hj
        have hjr : j ∉ rest := fun hc => hj (List.mem_cons_of_mem _ hc)
        have hjid : j ≠ id := fun hc => hj (hc ▸ List.mem_cons_self _ _)
        obtain ⟨hf1, hf2⟩ := hframe3 j hjr
        refine ⟨?_, ?_⟩
        · rw [hf1, hvecs, aget_aput_ne _ _ hjid]
        · rw [hf2, hmetas]
      · intro i hi w hw
        rcases List.mem_cons.mp hi with hi | hi
        · subst hi
          rw [hw] at hv
          injection hv with hv2
          injection hv2 with hv3
          obtain ⟨hf1, _⟩ := hframe3 i hnd.1
          rw [hf1, hvecs, hv3, aget_aput_self]
        · exact hvec3 i hi w hw
      · intro i hi
        rcases List.mem_cons.mp hi with hi | hi
        · subst hi
          refine ⟨?_, ?_⟩
          · intro s hs
            rw [hs] at hm
            exact absurd hm (by simp)
          · intro _
            obtain ⟨_, hf2⟩ := hframe3 i hnd.1
            rw [hf2, hmetas]
        · have hine : i ≠ id := fun hc => hnd.1 (hc ▸ hi)
          obtain ⟨hm1, hm2⟩ := hmeta3 i hi
          refine ⟨hm1, ?_⟩
          intro hno
          rw [hm2 hno, hmetas]
    | some val =>
      obtain ⟨s, hs⟩ := hmeta id (List.mem_cons_self _ _) val hm
      subst hs
      simp only []
      obtain ⟨vi2, hins, hcfg, hvecs, hmetas, hhcl, hhep⟩ :=
        insertWithMetadata_ok fo vi id v (some s) (lv k) hvlen hvep hvcl
      rw [hins]
      simp only []
      obtain ⟨vi3, hreb, hcfg3, hframe3, hvec3, hmeta3⟩ := ih vi2 (k + 1) hnd.2
        (by intro i hi
            obtain ⟨w, hw, hwl⟩ := hvec i (List.mem_cons_of_mem _ hi)
            exact ⟨w, hw, by rw [hwl, hcfg]⟩)
        (fun i hi => hmeta i (List.mem_cons_of_mem _ hi)) hhep hhcl
      refine ⟨vi3, hreb, hcfg3.trans hcfg, ?_, ?_, ?_⟩
      · intro j hj
        have hjr : j ∉ rest := fun hc => hj (List.mem_cons_of_mem _ hc)
        have hjid : j ≠ id := fun hc => hj (hc ▸ List.mem_cons_self _ _)
        obtain ⟨hf1, hf2⟩ := hframe3 j hjr
        refine ⟨?_, ?_⟩
        · rw [hf1, hvecs, aget_aput_ne _ _ hjid]
        · rw [hf2, hmetas, aget_aput_ne _ _ hjid]
      · intro i hi w hw
        rcases List.mem_cons.mp hi with hi | hi
        · subst hi
          rw [hw] at hv
          injection hv with hv2
          injection hv2 with hv3
          obtain ⟨hf1, _⟩ := hframe3 i hnd.1
          rw [hf1, hvecs, hv3, aget_aput_self]
        · exact hvec3 i hi w hw
      · intro i hi
        rcases List.mem_cons.mp hi with hi | hi
        · subst hi
          refine ⟨?_, ?_⟩
          · intro t ht
            rw [ht] at hm
            injection hm with hm2
            injection hm2 with hm3
            obtain ⟨_, hf2⟩ := hframe3 i hnd.1
            rw [hf2, hmetas, ← hm3, aget_aput_self]
          · intro hc
            rw [hc] at hm
            exact absurd hm (by simp)
        · have hine : i ≠ id := fun hc => hnd.1 (hc ▸ hi)
          obtain ⟨hm1, hm2⟩ := hmeta3 i hi
          refine ⟨hm1, ?_⟩
          intro hno
          rw [hm2 hno, hmetas, aget_aput_ne _ _ hine]

theorem qk_meta_ne_vec (i : VectorId) : QKey.idxMeta ≠ QKey.vec i :=
  fun h => QKey.noConfusion h

theorem qk_meta_ne_vmeta (i : VectorId) : QKey.idxMeta ≠ QKey.vmeta i :=
  fun h => QKey.noConfusion h

theorem qk_vec_ne_vmeta (i i2 : VectorId) : QKey.vec i ≠ QKey.vmeta i2 :=
  fun h => QKey.noConfusion h

theorem qk_vmeta_ne_vec (i i2 : VectorId) : QKey.vmeta i ≠ QKey.vec i2 :=
  fun h => QKey.noConfusion h

theorem qk_vec_ne_vec {i i2 : VectorId} (h : i ≠ i2) : QKey.vec i ≠ QKey.vec i2 :=
  fun hc => h (by injection hc)

theorem qk_vmeta_ne_vmeta {i i2 : VectorId} (h : i ≠ i2) :
    QKey.vmeta i ≠ QKey.vmeta i2 :=
  fun hc => h (by injection hc)

/-- Once the scan has found an id, the break can no longer fire: the rest of
the loop collects exactly the stored ids of the remaining range. -/
theorem listLoop_nonempty (storage : List (QKey × QVal R)) :
    ∀ (rem id : Nat) (ids : List VectorId), ids ≠ [] →
      listLoop storage ids id rem =
        ids ++ (List.range' id rem).filter
          (fun j => (aget storage (QKey.vec j)).isSome) := by
  intro rem
  induction rem with
  | zero => intro id ids _; simp [listLoop]
  | succ n ih =>
    intro id ids hne
    simp only [listLoop]
    by_cases hs : (aget storage (QKey.vec id)).isSome
    · rw [if_pos hs]
      rw [ih (id + 1) (ids ++ [id]) (by simp)]
      rw [List.range'_succ id n 1, List.filter_cons]
      simp [hs]
    · rw [if_neg hs]
      rw [if_neg (fun hc => hne hc.2)]
      rw [ih (id + 1) ids hne, List.range'_succ id n 1, List.filter_cons]
      simp [hs]

/-- While nothing is found, the scan advances without breaking as long as some
stored id at most 1001 is still ahead. -/
theorem listLoop_seek (storage : List (QKey × QVal R)) :
    ∀ (rem id : Nat),
      (∃ j, id ≤ j ∧ j ≤ 1001 ∧ (aget storage (QKey.vec j)).isSome) →
      listLoop storage [] id rem =
        (List.range' id rem).filter (fun j => (aget storage (QKey.vec j)).isSome) := by
  intro rem
  induction rem with
  | zero => intro id _; simp [listLoop]
  | succ n ih =>
    intro id hex
    simp only [listLoop]
    by_cases hs : (aget storage (QKey.vec id)).isSome
    · rw [if_pos hs]
      rw [listLoop_nonempty storage n (id + 1) ([] ++ [id]) (by simp)]
      rw [List.range'_succ id n 1, List.filter_cons]
      simp [hs]
    · rw [if_neg hs]
      obtain ⟨j, hij, hj1001, hjs⟩ := hex
      have hne : j ≠ id := fun hc => hs (hc ▸ hjs)
      rw [if_neg (by intro hc; omega)]
      rw [ih (id + 1) ⟨j, by omega, hj1001, hjs⟩]
      rw [List.range'_succ id n 1, List.filter_cons]
      simp [hs]

/-- When some id at most 1001 is stored, the scan of open reports exactly the
stored ids below 100000, in ascending order. -/
theorem listVectorIds_eq (storage : List (QKey × QVal R))
    (h : ∃ j, j ≤ 1001 ∧ (aget storage (QKey.vec j)).isSome) :
    listVectorIds storage =
      (List.range' 0 100000).filter (fun j => (aget storage (QKey.vec j)).isSome) := by
  obtain ⟨j, h1, h2⟩ := h
  exact listLoop_seek storage 100000 0 ⟨j, Nat.zero_le j, h1, h2⟩

/-- Effect of the two KV puts of one persistent insert on each key shape. -/
theorem store_put_char (storage : List (QKey × QVal R)) (i : VectorId)
    (v : List R) (mta : Option String) :
    aget (match mta with
      | some m => aput (aput storage (QKey.vec i) (QVal.vecV v))
          (QKey.vmeta i) (QVal.strV m)
      | none => aput storage (QKey.vec i) (QVal.vecV v)) QKey.idxMeta
      = aget storage QKey.idxMeta ∧
    (∀ id2, id2 ≠ i →
      aget (match mta with
        | some m => aput (aput storage (QKey.vec i) (QVal.vecV v))
            (QKey.vmeta i) (QVal.strV m)
        | none => aput storage (QKey.vec i) (QVal.vecV v)) (QKey.vec id2)
        = aget storage (QKey.vec id2) ∧
      aget (match mta with
        | some m => aput (aput storage (QKey.vec i) (QVal.vecV v))
            (QKey.vmeta i) (QVal.strV m)
        | none => aput storage (QKey.vec i) (QVal.vecV v)) (QKey.vmeta id2)
        = aget storage (QKey.vmeta id2)) ∧
    aget (match mta with
      | some m => aput (aput storage (QKey.vec i) (QVal.vecV v))
          (QKey.vmeta i) (QVal.strV m)
      | none => aput storage (QKey.vec i) (QVal.vecV v)) (QKey.vec i)
      = some (QVal.vecV v) ∧
    aget (match mta with
      | some m => aput (aput storage (QKey.vec i) (QVal.vecV v))
          (QKey.vmeta i) (QVal.strV m)
      | none => aput storage (QKey.vec i) (QVal.vecV v)) (QKey.vmeta i)
      = (match mta with
         | some m => some (QVal.strV m)
         | none => aget storage (QKey.vmeta i)) := by
  cases mta with
  | none =>
    simp only []
    refine ⟨?_, ?_, ?_, ?_⟩
    · rw [aget_aput_ne _ _ (qk_meta_ne_vec i)]
    · intro id2 hne
      refine ⟨?_, ?_⟩
      · rw [aget_aput_ne _ _ (qk_vec_ne_vec hne)]
      · rw [aget_aput_ne _ _ (qk_vmeta_ne_vec id2 i)]
    · rw [aget_aput_self]
    · rw [aget_aput_ne _ _ (qk_vmeta_ne_vec i i)]
  | some m =>
    simp only []
    refine ⟨?_, ?_, ?_, ?_⟩
    · rw [aget_aput_ne _ _ (qk_meta_ne_vmeta i),
        aget_aput_ne _ _ (qk_meta_ne_vec i)]
    · intro id2 hne
      refine ⟨?_, ?_⟩
      · rw [aget_aput_ne _ _ (qk_vec_ne_vmeta id2 i),
          aget_aput_ne _ _ (qk_vec_ne_vec hne)]
      · rw [aget_aput_ne _ _ (qk_vmeta_ne_vmeta hne),
          aget_aput_ne _ _ (qk_vmeta_ne_vec id2 i)]
    · rw [aget_aput_ne _ _ (qk_vec_ne_vmeta i i), aget_aput_self]
    · rw [aget_aput_self]

/-- Storage contents after a run of completed persistent inserts with
pairwise-distinct ids, relative to the starting state: the index metadata
record is untouched, ids outside the run are untouched, and each inserted id
holds its vector (of the validated dimension) and exactly its metadata. -/
theorem pviInsertMany_char (fo : Faas.FloatOracle R) :
    ∀ (items : List (VectorId × List R × Option String × Nat)) (p p2 : PVI R),
      pviInsertMany fo p items = .ok p2 →
      (items.map (fun x => x.1)).Nodup →
      p2.index.config = p.index.config ∧
      aget p2.storage QKey.idxMeta = aget p.storage QKey.idxMeta ∧
      (∀ id, (∀ x ∈ items, x.1 ≠ id) →
        aget p2.storage (QKey.vec id) = aget p.storage (QKey.vec id) ∧
        aget p2.storage (QKey.vmeta id) = aget p.storage (QKey.vmeta id)) ∧
      (∀ x ∈ items,
        aget p2.storage (QKey.vec x.1) = some (.vecV x.2.1) ∧
        x.2.1.length = p.index.config.dimension ∧
        aget p2.storage (QKey.vmeta x.1) =
          (match x.2.2.1 with
           | some mta => some (.strV mta)
           | none => aget p.storage (QKey.vmeta x.1))) := by
  intro items
  induction items with
  | nil =>
    intro p p2 h _
    simp [pviInsertMany] at h
    subst h
    exact ⟨rfl, rfl, fun id _ => ⟨rfl, rfl⟩,
      fun x hx => absurd hx (List.not_mem_nil x)⟩
  | cons it rest ih =>
    intro p p2 h hnodup
    obtain ⟨i, v, mta, lvl⟩ := it
    simp only [pviInsertMany] at h
    cases hi : pviInsert fo p i v mta lvl with
    | error e => rw [hi] at h; simp at h
    | ok pm =>
      rw [hi] at h
      simp only [] at h
      unfold pviInsert at hi
      cases hiwm : insertWithMetadata fo p.index i v mta lvl with
      | error e => rw [hiwm] at hi; simp at hi
      | ok vi2 =>
        rw [hiwm] at hi
        simp only [] at hi
        injection hi with hi2
        have hdim : v.length = p.index.config.dimension := by
          by_contra hc
          unfold insertWithMetadata at hiwm
          rw [if_pos hc] at hiwm
          simp at hiwm
        have hcfg : vi2.config = p.index.config := by
          unfold insertWithMetadata at hiwm
          rw [if_neg (fun hc => hc hdim)] at hiwm
          cases hq : qInsert fo p.index.hnsw i v lvl with
          | error e => rw [hq] at hiwm; simp at hiwm
          | ok h2 =>
            rw [hq] at hiwm
            simp only [] at hiwm
            injection hiwm with he
            rw [← he]
        obtain ⟨hsA, hsB, hsC, hsD⟩ := store_put_char p.storage i v mta
        subst hi2
        have hnd2 : i ∉ rest.map (fun x => x.1) ∧ (rest.map (fun x => x.1)).Nodup := by
          simp only [List.map_cons, List.nodup_cons] at hnodup
          exact hnodup
        obtain ⟨c1, c2, c3, c4⟩ := ih _ p2 h hnd2.2
        have hresti : ∀ x ∈ rest, x.1 ≠ i := fun x hx hc =>
          hnd2.1 (hc ▸ List.mem_map_of_mem (fun q => q.1) hx)
        refine ⟨c1.trans hcfg, c2.trans hsA, ?_, ?_⟩
        · intro id2 hall
          have hall2 : ∀ x ∈ rest, x.1 ≠ id2 := fun x hx =>
            hall x (List.mem_cons_of_mem _ hx)
          have hi2ne : id2 ≠ i := fun hc =>
            (hall (i, v, mta, lvl) (List.mem_cons_self _ _)) hc.symm
          obtain ⟨d1, d2⟩ := c3 id2 hall2
          obtain ⟨e1, e2⟩ := hsB id2 hi2ne
          exact ⟨d1.trans e1, d2.trans e2⟩
        · intro x hx
          rcases List.mem_cons.mp hx with hx | hx
          · subst hx
            obtain ⟨d1, d2⟩ := c3 i hresti
            exact ⟨d1.trans hsC, hdim, d2.trans hsD⟩
          · obtain ⟨f1, f2, f3⟩ := c4 x hx
            refine ⟨f1, by rw [← hcfg]; exact f2, ?_⟩
            cases hmx : x.2.2.1 with
            | some m =>
              rw [hmx] at f3
              exact f3
            | none =>
              rw [hmx] at f3
              exact f3.trans (hsB x.1 (hresti x hx)).2

end QV

open QV in
/-- C5 counterexample: a persistent index created at dimension 1 receives one
vector under id 2000 and is reopened from its own storage; open's
list_vector_ids scan breaks at id 1001 because nothing was found among ids
0..=1000, so the rebuilt index is empty and the vector is not retrievable:
get(2000) returns None after the reopen. -/
theorem C5_persistence_roundtrip_counterexample :
    ((pviInsert (Faas.dotOracle ℤ) (pviCreate ℤ ⟨1, .DotProduct, QHnswConfig.default⟩)
        2000 [5] none 0).map (fun p1 =>
      (pviOpen (Faas.dotOracle ℤ) p1.storage (fun _ => 0)).map (fun p2 =>
        VectorIndex.get p2.index 2000))) = .ok (.ok none) := by
  decide

open QV in
/-- C5 (amended): after inserting N vectors with pairwise-distinct ids into a
freshly created persistent index and reopening from the same storage, every
one of the N vectors is retrievable with identical contents and metadata,
provided every id is below 100000 and at least one id is at most 1001: the
scan of list_vector_ids only visits ids 0..99999 and breaks at the first id
above 1000 when nothing has been found yet, so outside these bounds vectors
are silently lost (see the counterexample). -/
theorem C5_persistence_roundtrip_amended {R : Type} [LinearOrderedRing R]
    (fo : Faas.FloatOracle R) (cfg : VectorIndexConfig)
    (items : List (VectorId × List R × Option String × Nat))
    (lv : Nat → Nat) (p2 : PVI R)
    (hrun : pviInsertMany fo (pviCreate R cfg) items = .ok p2)
    (hids : (items.map (fun x => x.1)).Nodup)
    (hsmall : ∀ x ∈ items, x.1 < 100000)
    (hlow : ∃ x ∈ items, x.1 ≤ 1001) :
    ∃ p3, pviOpen fo p2.storage lv = .ok p3 ∧
      ∀ x ∈ items, VectorIndex.get p3.index x.1 = some x.2.1 ∧
        getMetadata p3.index x.1 = x.2.2.1 := by
  obtain ⟨c1, c2, c3, c4⟩ := pviInsertMany_char fo items (pviCreate R cfg) p2 hrun hids
  have hcr_meta : aget (pviCreate R cfg).storage QKey.idxMeta =
      some (.metaRec cfg.dimension cfg.metric cfg.hnsw_config 1) := aget_aput_self _ _ _
  have hcr_vec : ∀ id, aget (pviCreate R cfg).storage (QKey.vec id) = none := by
    intro id
    show aget (aput [] _ _) _ = none
    rw [aget_aput_ne _ _ (fun h => QKey.noConfusion h)]
    rfl
  have hcr_vmeta : ∀ id, aget (pviCreate R cfg).storage (QKey.vmeta id) = none := by
    intro id
    show aget (aput [] _ _) _ = none
    rw [aget_aput_ne _ _ (fun h => QKey.noConfusion h)]
    rfl
  have hmeta0 : aget p2.storage QKey.idxMeta =
      some (.metaRec cfg.dimension cfg.metric cfg.hnsw_config 1) := c2.trans hcr_meta
  have hvec_char : ∀ id, (aget p2.storage (QKey.vec id)).isSome →
      ∃ x ∈ items, x.1 = id := by
    intro id hs
    by_contra hc
    push_neg at hc
    have hun := (c3 id (fun x hx => hc x hx)).1
    rw [hun, hcr_vec id] at hs
    exact absurd hs (by simp)
  have hvec_val : ∀ x ∈ items, aget p2.storage (QKey.vec x.1) = some (.vecV x.2.1) ∧
      x.2.1.length = cfg.dimension := fun x hx => ⟨(c4 x hx).1, (c4 x hx).2.1⟩
  obtain ⟨x0, hx0mem, hx0le⟩ := hlow
  have hscan : listVectorIds p2.storage =
      (List.range' 0 100000).filter (fun j => (aget p2.storage (QKey.vec j)).isSome) := by
    refine listVectorIds_eq p2.storage ⟨x0.1, hx0le, ?_⟩
    rw [(hvec_val x0 hx0mem).1]
    rfl
  have hids_nodup : (listVectorIds p2.storage).Nodup := by
    rw [hscan]
    exact List.Nodup.filter _ (List.nodup_range' 0 100000)
  have hids_stored : ∀ id ∈ listVectorIds p2.storage,
      ∃ v, aget p2.storage (QKey.vec id) = some (.vecV v) ∧ v.length = cfg.dimension := by
    intro id hid
    rw [hscan] at hid
    have hsome := (List.mem_filter.mp hid).2
    obtain ⟨x, hxm, hxid⟩ := hvec_char id hsome
    obtain ⟨hv, hl⟩ := hvec_val x hxm
    exact ⟨x.2.1, hxid ▸ hv, hl⟩
  have hids_meta : ∀ id ∈ listVectorIds p2.storage, ∀ val,
      aget p2.storage (QKey.vmeta id) = some val → ∃ s, val = .strV s := by
    intro id _ val hval
    by_cases hc : ∃ x ∈ items, x.1 = id
    · obtain ⟨x, hxm, hxid⟩ := hc
      have hm := (c4 x hxm).2.2
      rw [hxid] at hm
      cases hmx : x.2.2.1 with
      | some m =>
        rw [hmx] at hm
        have hm2 : aget p2.storage (QKey.vmeta id) = some (QVal.strV m) := hm
        rw [hval] at hm2
        injection hm2 with hm3
        exact ⟨m, hm3⟩
      | none =>
        rw [hmx] at hm
        have hm2 : aget p2.storage (QKey.vmeta id) =
            aget (pviCreate R cfg).storage (QKey.vmeta id) := hm
        rw [hcr_vmeta, hval] at hm2
        exact absurd hm2 (by simp)
    · push_neg at hc
      have hun := (c3 id (fun x hx => hc x hx)).2
      rw [hun, hcr_vmeta id] at hval
      exact absurd hval (by simp)
  obtain ⟨vi2, hreb, hcfg2, hframe, hvecf, hmetaf⟩ := rebuild_ok fo p2.storage lv
    (listVectorIds p2.storage)
    (VectorIndex.withConfig R ⟨cfg.dimension, cfg.metric, cfg.hnsw_config⟩) 0
    hids_nodup hids_stored hids_meta
    (fun e he => Option.noConfusion he)
    (fun i n hi => Option.noConfusion hi)
  have hopen : pviOpen fo p2.storage lv = .ok ⟨vi2, p2.storage⟩ := by
    have hstep : pviOpen fo p2.storage lv =
        (match rebuild fo p2.storage (listVectorIds p2.storage)
            (VectorIndex.withConfig R ⟨cfg.dimension, cfg.metric, cfg.hnsw_config⟩) lv 0 with
          | .error e => Except.error e
          | .ok vi => Except.ok ⟨vi, p2.storage⟩) := by
      unfold pviOpen
      rw [hmeta0]
      rfl
    rw [hstep, hreb]
  refine ⟨_, hopen, ?_⟩
  intro x hx
  have hxid_mem : x.1 ∈ listVectorIds p2.storage := by
    rw [hscan]
    refine List.mem_filter.mpr ⟨?_, ?_⟩
    · exact List.mem_range'_1.mpr ⟨Nat.zero_le _, by simpa using hsmall x hx⟩
    · rw [(hvec_val x hx).1]
      rfl
  refine ⟨?_, ?_⟩
  · show aget vi2.vectors x.1 = some x.2.1
    exact hvecf x.1 hxid_mem x.2.1 (hvec_val x hx).1
  · show aget vi2.metadata x.1 = x.2.2.1
    have hm := (c4 x hx).2.2
    cases hmx : x.2.2.1 with
    | some m =>
      rw [hmx] at hm
      have hm2 : aget p2.storage (QKey.vmeta x.1) = some (QVal.strV m) := hm
      exact (hmetaf x.1 hxid_mem).1 m hm2
    | none =>
      rw [hmx] at hm
      have hm2 : aget p2.storage (QKey.vmeta x.1) =
          aget (pviCreate R cfg).storage (QKey.vmeta x.1) := hm
      rw [hcr_vmeta] at hm2
      have hfin := (hmetaf x.1 hxid_mem).2 hm2
      rw [hfin]
      rfl

open QV in
/-- C5 amended witness: one vector inserted under id 5 (below both scan
bounds) into a dimension-1 persistent index is retrievable with identical
contents and metadata after the reopen. -/
theorem C5_persistence_roundtrip_amended_witness :
    (pviInsertMany (Faas.dotOracle ℤ) (pviCreate ℤ ⟨1, .DotProduct, QHnswConfig.default⟩)
        [(5, [3], none, 0)] = .ok
      ⟨⟨⟨1, .DotProduct, QHnswConfig.default⟩,
        ⟨QHnswConfig.default, .DotProduct, [(5, ⟨5, 0, [[]]⟩)], [(5, [3])], some 5, 0⟩,
        [(5, [3])], []⟩,
       [(QKey.idxMeta, .metaRec 1 .DotProduct QHnswConfig.default 1),
        (QKey.vec 5, .vecV [3])]⟩ ∧
     (([((5 : VectorId), ([3] : List ℤ), (none : Option String), (0 : Nat))]).map
       (fun x => x.1)).Nodup ∧
     (∀ x ∈ [((5 : VectorId), ([3] : List ℤ), (none : Option String), 0)], x.1 < 100000) ∧
     (∃ x ∈ [((5 : VectorId), ([3] : List ℤ), (none : Option String), 0)], x.1 ≤ 1001)) ∧
    ∃ p3, pviOpen (Faas.dotOracle ℤ)
        (⟨⟨⟨1, .DotProduct, QHnswConfig.default⟩,
          ⟨QHnswConfig.default, .DotProduct, [(5, ⟨5, 0, [[]]⟩)], [(5, [3])], some 5, 0⟩,
          [(5, [3])], []⟩,
         [(QKey.idxMeta, .metaRec 1 .DotProduct QHnswConfig.default 1),
          (QKey.vec 5, .vecV [3])]⟩ : PVI ℤ).storage (fun _ => 0) = .ok p3 ∧
      ∀ x ∈ [((5 : VectorId), ([3] : List ℤ), (none : Option String), 0)],
        VectorIndex.get p3.index x.1 = some x.2.1 ∧
        getMetadata p3.index x.1 = x.2.2.1 :=
  ⟨⟨by decide, by decide, by decide, by decide⟩,
   C5_persistence_roundtrip_amended (Faas.dotOracle ℤ)
     ⟨1, .DotProduct, QHnswConfig.default⟩ [(5, [3], none, 0)] (fun _ => 0)
     ⟨⟨⟨1, .DotProduct, QHnswConfig.default⟩,
       ⟨QHnswConfig.default, .DotProduct, [(5, ⟨5, 0, [[]]⟩)], [(5, [3])], some 5, 0⟩,
       [(5, [3])], []⟩,
      [(QKey.idxMeta, .metaRec 1 .DotProduct QHnswConfig.default 1),
       (QKey.vec 5, .vecV [3])]⟩
     (by decide) (by decide) (by decide) (by decide)⟩

namespace Shard

/-- Individual search match, from quartz-faas/src/sharding.rs. -/
structure SearchMatch (R : Type) where
  id : String
  distance : R
  metadata : Option String
deriving DecidableEq

/-- Search result of a single shard. -/
structure ShardSearchResult (R : Type) where
  shard_id : Nat
  results : List (SearchMatch R)
deriving DecidableEq

variable {R : Type} [LinearOrderedRing R]

/-- Comparator of merge_shard_results: ascending by distance only
(partial_cmp falling back to Equal, total on the abstract exact domain). -/
def matchLe (a b : SearchMatch R) : Prop := a.distance ≤ b.distance

instance : DecidableRel (matchLe (R := R)) := fun a b => by
  unfold matchLe
  infer_instance

instance : IsTotal (SearchMatch R) matchLe := ⟨fun a b => le_total a.distance b.distance⟩

instance : IsTrans (SearchMatch R) matchLe := ⟨fun _ _ _ h h2 => le_trans h h2⟩

/-- Deduplication loop of merge_shard_results: walk the sorted list, keep the
first occurrence of every id, stop as soon as top_k results are kept - the
length test runs only after a push. -/
def dedupLoop (top_k : Nat) :
    List (SearchMatch R) → List String → List (SearchMatch R) → List (SearchMatch R)
  | [], _, deduped => deduped
  | r :: rest, seen, deduped =>
      if r.id ∈ seen then dedupLoop top_k rest seen deduped
      else
        let deduped2 := deduped ++ [r]
        if top_k ≤ deduped2.length then deduped2
        else dedupLoop top_k rest (r.id :: seen) deduped2

/-- merge_shard_results from quartz-faas/src/sharding.rs: concatenate, sort
ascending by distance, deduplicate by id keeping the first occurrence,
truncate at top_k. -/
def mergeShardResults (shard_results : List (ShardSearchResult R)) (top_k : Nat) :
    List (SearchMatch R) :=
  let all_results := shard_results.flatMap (fun sr => sr.results)
  let sorted := List.insertionSort matchLe all_results
  dedupLoop top_k sorted [] []

/-- First-occurrence deduplication without the truncation, used to
characterise the loop. -/
def dedupFirst : List (SearchMatch R) → List String → List (SearchMatch R)
  | [], _ => []
  | r :: rest, seen =>
      if r.id ∈ seen then dedupFirst rest seen
      else r :: dedupFirst rest (r.id :: seen)

theorem dedupLoop_eq (top_k : Nat) :
    ∀ (l : List (SearchMatch R)) (seen : List String) (acc : List (SearchMatch R)),
      dedupLoop top_k l seen acc =
        acc ++ (dedupFirst l seen).take
          (if acc.length < top_k then top_k - acc.length else 1) := by
  intro l
  induction l with
  | nil => intro seen acc; simp [dedupLoop, dedupFirst]
  | cons r rest ih =>
    intro seen acc
    simp only [dedupLoop, dedupFirst]
    by_cases hs : r.id ∈ seen
    · simp [hs, ih]
    · simp only [hs, if_false, List.length_append, List.length_singleton]
      by_cases hstop : top_k ≤ acc.length + 1
      · simp only [hstop, if_true]
        by_cases hlt : acc.length < top_k
        · have hk : top_k - acc.length = 1 := by omega
          simp [hlt, hk]
        · have h1 : ¬ acc.length < top_k := hlt
          simp [h1]
      · simp only [hstop, if_false]
        rw [ih]
        have hlt : acc.length < top_k := by omega
        have hlt2 : acc.length + 1 < top_k := by omega
        simp only [List.length_append, List.length_singleton, hlt, hlt2, if_true]
        have hk : top_k - acc.length = (top_k - (acc.length + 1)) + 1 := by omega
        rw [hk]
        simp [List.take_succ_cons]

theorem dedupFirst_sublist :
    ∀ (l : List (SearchMatch R)) (seen : List String),
      (dedupFirst l seen).Sublist l := by
  intro l
  induction l with
  | nil => intro seen; simp [dedupFirst]
  | cons r rest ih =>
    intro seen
    simp only [dedupFirst]
    by_cases hs : r.id ∈ seen
    · simp only [hs, if_true]
      exact (ih seen).cons r
    · simp only [hs, if_false]
      exact (ih (r.id :: seen)).cons₂ r

theorem dedupFirst_not_seen :
    ∀ (l : List (SearchMatch R)) (seen : List String) (m : SearchMatch R),
      m ∈ dedupFirst l seen → m.id ∉ seen := by
  intro l
  induction l with
  | nil => intro seen m h; simp [dedupFirst] at h
  | cons r rest ih =>
    intro seen m h
    simp only [dedupFirst] at h
    by_cases hs : r.id ∈ seen
    · rw [if_pos hs] at h
      exact ih seen m h
    · rw [if_neg hs] at h
      rcases List.mem_cons.mp h with h1 | h1
      · subst h1
        exact hs
      · have h2 := ih (r.id :: seen) m h1
        intro hc
        exact h2 (List.mem_cons_of_mem _ hc)

theorem dedupFirst_nodup_ids :
    ∀ (l : List (SearchMatch R)) (seen : List String),
      ((dedupFirst l seen).map (fun m => m.id)).Nodup := by
  intro l
  induction l with
  | nil => intro seen; simp [dedupFirst]
  | cons r rest ih =>
    intro seen
    simp only [dedupFirst]
    by_cases hs : r.id ∈ seen
    · simp only [hs, if_true]
      exact ih seen
    · simp only [hs, if_false, List.map_cons, List.nodup_cons]
      refine ⟨?_, ih (r.id :: seen)⟩
      intro hc
      rw [List.mem_map] at hc
      obtain ⟨m, hm, hid⟩ := hc
      have := dedupFirst_not_seen rest (r.id :: seen) m hm
      rw [hid] at this
      exact this (List.mem_cons_self _ _)

theorem dedupFirst_min_distance :
    ∀ (l : List (SearchMatch R)) (seen : List String) (m : SearchMatch R),
      List.Pairwise matchLe l → m ∈ dedupFirst l seen →
      ∀ x ∈ l, x.id = m.id → x.id ∉ seen → m.distance ≤ x.distance := by
  intro l
  induction l with
  | nil => intro seen m _ h; simp [dedupFirst] at h
  | cons r rest ih =>
    intro seen m hsorted hm x hx hid hxseen
    have hsr := List.pairwise_cons.mp hsorted
    simp only [dedupFirst] at hm
    by_cases hs : r.id ∈ seen
    · rw [if_pos hs] at hm
      rcases List.mem_cons.mp hx with h1 | h1
      · subst h1
        exact absurd hs hxseen
      · exact ih seen m hsr.2 hm x h1 hid hxseen
    · rw [if_neg hs] at hm
      rcases List.mem_cons.mp hm with h1 | h1
      · subst h1
        rcases List.mem_cons.mp hx with h2 | h2
        · subst h2
          exact le_refl _
        · exact hsr.1 x h2
      · have hmid := dedupFirst_not_seen rest (r.id :: seen) m h1
        rcases List.mem_cons.mp hx with h2 | h2
        · subst h2
          rw [hid] at hmid
          exact absurd (List.mem_cons_self _ _) hmid
        · refine ih (r.id :: seen) m hsr.2 h1 x h2 hid ?_
          intro hc
          rcases List.mem_cons.mp hc with h3 | h3
          · exact hmid (by rw [← hid, h3]; exact List.mem_cons_self _ _)
          · exact hxseen h3

end Shard

open Shard in
/-- C6 counterexample: with k = 0 and a non-empty shard result,
merge_shard_results returns one match rather than at most zero, because the
size test against top_k runs only after a push. -/
theorem C6_merge_counterexample :
    mergeShardResults [⟨0, [⟨"doc1", (1 : ℤ), none⟩]⟩] 0 =
      [⟨"doc1", (1 : ℤ), none⟩] := by
  decide

open Shard in
/-- C6 amended: for every list of per-shard results and every k at least 1
(for k = 0 a non-empty input yields one match, see the counterexample),
merge_shard_results returns at most k matches, sorted ascending by distance,
with pairwise-distinct ids, and every kept match has the smallest distance
among all occurrences of its id in the input. -/
theorem C6_merge_dedup_amended {R : Type} [LinearOrderedRing R]
    (shard_results : List (ShardSearchResult R)) (k : Nat) (hk : 1 ≤ k) :
    (mergeShardResults shard_results k).length ≤ k ∧
    List.Pairwise (fun a b : SearchMatch R => a.distance ≤ b.distance)
      (mergeShardResults shard_results k) ∧
    ((mergeShardResults shard_results k).map (fun m => m.id)).Nodup ∧
    (∀ m ∈ mergeShardResults shard_results k,
      ∀ sr ∈ shard_results, ∀ m2 ∈ sr.results, m2.id = m.id →
        m.distance ≤ m2.distance) := by
  have hout : mergeShardResults shard_results k =
      (dedupFirst (List.insertionSort matchLe
        (shard_results.flatMap (fun sr => sr.results))) []).take k := by
    unfold mergeShardResults
    rw [dedupLoop_eq]
    have h0 : (0 : Nat) < k := hk
    simp [h0]
  have hsorted := List.sorted_insertionSort matchLe
    (shard_results.flatMap (fun sr => sr.results))
  have hperm := List.perm_insertionSort matchLe
    (shard_results.flatMap (fun sr => sr.results))
  rw [hout]
  refine ⟨List.length_take_le _ _, ?_, ?_, ?_⟩
  · have hdsub := dedupFirst_sublist
      (List.insertionSort matchLe (shard_results.flatMap (fun sr => sr.results))) []
    have hdp : List.Pairwise matchLe
        (dedupFirst (List.insertionSort matchLe
          (shard_results.flatMap (fun sr => sr.results))) []) :=
      List.Pairwise.sublist hdsub hsorted
    exact List.Pairwise.sublist (List.take_sublist _ _) hdp
  · have hnd := dedupFirst_nodup_ids
      (List.insertionSort matchLe (shard_results.flatMap (fun sr => sr.results))) []
    exact List.Nodup.sublist ((List.take_sublist _ _).map _) hnd
  · intro m hm sr hsr m2 hm2 hid
    have hmd := (List.take_sublist _ _).subset hm
    have hm2mem : m2 ∈ shard_results.flatMap (fun sr => sr.results) := by
      rw [List.mem_flatMap]
      exact ⟨sr, hsr, hm2⟩
    have hm2s : m2 ∈ List.insertionSort matchLe
        (shard_results.flatMap (fun sr => sr.results)) :=
      hperm.mem_iff.mpr hm2mem
    exact dedupFirst_min_distance _ [] m hsorted hmd m2 hm2s hid (by simp)

open Shard in
/-- Witness for C6 amended on two shards with a duplicated id, k = 3. -/
theorem C6_merge_dedup_amended_witness :
    (1 ≤ 3) ∧
    ((mergeShardResults [⟨0, [⟨"doc1", (1 : ℤ), none⟩, ⟨"doc2", 3, none⟩]⟩,
        ⟨1, [⟨"doc3", 2, none⟩, ⟨"doc1", 5, none⟩]⟩] 3).length ≤ 3 ∧
      List.Pairwise (fun a b : SearchMatch ℤ => a.distance ≤ b.distance)
        (mergeShardResults [⟨0, [⟨"doc1", (1 : ℤ), none⟩, ⟨"doc2", 3, none⟩]⟩,
          ⟨1, [⟨"doc3", 2, none⟩, ⟨"doc1", 5, none⟩]⟩] 3) ∧
      ((mergeShardResults [⟨0, [⟨"doc1", (1 : ℤ), none⟩, ⟨"doc2", 3, none⟩]⟩,
          ⟨1, [⟨"doc3", 2, none⟩, ⟨"doc1", 5, none⟩]⟩] 3).map (fun m => m.id)).Nodup ∧
      (∀ m ∈ mergeShardResults [⟨0, [⟨"doc1", (1 : ℤ), none⟩, ⟨"doc2", 3, none⟩]⟩,
          ⟨1, [⟨"doc3", 2, none⟩, ⟨"doc1", 5, none⟩]⟩] 3,
        ∀ sr ∈ [⟨0, [⟨"doc1", (1 : ℤ), none⟩, ⟨"doc2", 3, none⟩]⟩,
          ⟨1, [⟨"doc3", 2, none⟩, ⟨"doc1", 5, none⟩]⟩],
          ∀ m2 ∈ ShardSearchResult.results sr, m2.id = m.id →
            m.distance ≤ m2.distance)) :=
  ⟨by decide,
   C6_merge_dedup_amended
     [⟨0, [⟨"doc1", (1 : ℤ), none⟩, ⟨"doc2", 3, none⟩]⟩,
      ⟨1, [⟨"doc3", 2, none⟩, ⟨"doc1", 5, none⟩]⟩] 3 (by decide)⟩

end QuartzSpec
